import Mathlib

/-!
Verification development for the TradeManagement FastAPI matching engine.

Shallow embedding of the core components of `backend/core/`:
`order.py` (Order, enums, update_fill, validate, is_marketable),
`trade.py` (Trade), `price_level.py` (FIFO levels), `order_book.py`
(OrderBook: sorted bid/ask levels, order registry, add/remove), and
`matching_engine.py` (MatchingEngine: submit_order, cancel_order, the
four order-type processors, _fill_against_book, _execute_match,
_check_can_fill_fok, statistics, trade journal, trade callbacks).

Modelling conventions:
* Python `Decimal` is modelled as `ℚ` (exact rational arithmetic; the
  default 28-digit `Decimal` context never rounds at the magnitudes the
  engine handles, and the spec mandates exactness).
* `float(...)` conversions (used by the engine only for the
  `total_volume` statistic) are modelled by `float64`, round-to-nearest,
  ties-to-even onto 53-bit binary significands (the IEEE-754 binary64
  normal range; subnormals and overflow are outside the modelled range).
* UUIDs are modelled as `ℕ` (only identity/uniqueness matters).
* Timestamps, logging and the BBO observer plumbing are omitted: no
  claim under verification mentions them.
* Python exceptions over mutable state are modelled by `Outcome`:
  a failing call returns the state as mutated up to the raise point,
  exactly as the engine's shared state behaves when an exception
  propagates out of `submit_order` / `cancel_order`.
* Mutable `Order` objects aliased between `order_registry` and the
  price levels are modelled by updating both copies at each mutation
  point, which is observationally the effect of the aliasing.
* `Order.update_fill`'s internal `ValueError` checks (fill ≤ 0 or
  fill > remaining, unreachable in engine flow per the spec) are not
  raised by the model; `updateFill` is total.
-/

namespace TradeMgmt

set_option maxRecDepth 100000

/-- `OrderSide` from `order.py`. -/
inductive Side where
  | buy
  | sell
deriving DecidableEq, Repr

/-- `OrderType` from `order.py`. -/
inductive OrderType where
  | market
  | limit
  | ioc
  | fok
deriving DecidableEq, Repr

/-- `OrderStatus` from `order.py`. -/
inductive OrderStatus where
  | pending
  | partiallyFilled
  | filled
  | cancelled
  | rejected
deriving DecidableEq, Repr

/-- The `Order` dataclass from `order.py`. `remaining` models the
`remaining_quantity` field (set to `quantity` in `__post_init__` and
maintained by `update_fill`). -/
structure Order where
  orderId : ℕ
  symbol : String
  otype : OrderType
  side : Side
  quantity : ℚ
  price : Option ℚ
  status : OrderStatus
  filled : ℚ
  remaining : ℚ
deriving DecidableEq, Repr

/-- The immutable `Trade` dataclass from `trade.py` (fees keep their
default `0` throughout the engine and are omitted). -/
structure Trade where
  tradeId : ℕ
  symbol : String
  price : ℚ
  quantity : ℚ
  aggressorSide : Side
  makerOrderId : ℕ
  takerOrderId : ℕ
deriving DecidableEq, Repr

/-- Argument shape of a callback invocation made by the engine:
`callback(trade, taker_order_id)` (the loop in `_execute_match`) or
`callback(trade)` (the loop in `_notify_execution`). -/
inductive CallForm where
  | withTakerId (takerOrderId : ℕ)
  | tradeOnly
deriving DecidableEq, Repr

/-- One recorded invocation of a registered execution callback.
`cb` is the index of the callback in `execution_callbacks`. -/
structure CallEvent where
  cb : ℕ
  trade : Trade
  form : CallForm
deriving DecidableEq, Repr

/-- The `statistics` counters of `MatchingEngine.__init__`.
`totalVolume` is a rational carrying the value of the Python float it
models (the source does `self.statistics["total_volume"] += float(quantity)`). -/
structure Stats where
  ordersProcessed : ℕ
  tradesExecuted : ℕ
  totalVolume : ℚ
  ordersFilled : ℕ
  ordersPartial : ℕ
  ordersCancelled : ℕ
deriving DecidableEq, Repr

def Stats.init : Stats :=
  { ordersProcessed := 0, tradesExecuted := 0, totalVolume := 0
    ordersFilled := 0, ordersPartial := 0, ordersCancelled := 0 }

/-- A price level: the price key together with the FIFO deque of
resting orders (`PriceLevel.orders` in `price_level.py`; the head of
the list is the head of the deque). -/
abbrev Level := ℚ × List Order

/-- One symbol's `OrderBook` (`order_book.py`): `bids` sorted by
descending price, `asks` by ascending price (the `SortedDict`s), and
the `order_registry` as an association list id ↦ order. -/
structure Book where
  symbol : String
  bids : List Level
  asks : List Level
  registry : List (ℕ × Order)
deriving DecidableEq, Repr

def Book.empty (sym : String) : Book :=
  { symbol := sym, bids := [], asks := [], registry := [] }

/-- Engine-wide mutable state other than the per-symbol books:
trade journal (deque, maxlen 10000), trade-id source, statistics,
registered callbacks (by index) and the log of callback invocations. -/
structure Aux where
  journal : List Trade
  nextTradeId : ℕ
  stats : Stats
  callbacks : List ℕ
  callLog : List CallEvent
deriving DecidableEq, Repr

/-- Whole `MatchingEngine` state. -/
structure Engine where
  books : List (String × Book)
  aux : Aux
deriving DecidableEq, Repr

def Engine.init : Engine :=
  { books := []
    aux := { journal := [], nextTradeId := 0, stats := Stats.init
             callbacks := [], callLog := [] } }

/-- Error kinds raised by the embedded code (exception classes of
`utils/exceptions.py` plus `ValueError`). -/
inductive EngErr where
  | invalidOrder
  | duplicateOrder
  | orderBookError
  | orderNotFound
  | valueError
deriving DecidableEq, Repr

/-- Result of a Python call over mutable engine state: either a normal
return with the new state, or an exception escaping with the state as
mutated up to the raise. -/
inductive Outcome (α : Type) where
  | ok (e : Engine) (a : α)
  | err (er : EngErr) (e : Engine)
deriving DecidableEq, Repr

/-- The engine state after a call, whether it returned or raised. -/
def Outcome.state {α : Type} : Outcome α → Engine
  | .ok e _ => e
  | .err _ e => e

def Outcome.isOk {α : Type} : Outcome α → Bool
  | .ok _ _ => true
  | .err _ _ => false

/-- `OrderResult` from `order.py` (timestamp omitted). -/
structure OrderResult where
  order : Order
  trades : List Trade
  status : OrderStatus
  message : String
deriving DecidableEq, Repr

/-! ### Kernel-computable exact rational arithmetic

`Rat.add` and friends do not reduce in the kernel, so concrete
evaluations (`decide`) would get stuck.  The operations below compute
the same exact values through `mkRat`, which does reduce; the `q*_eq`
lemmas right after identify them with the standard operations, so all
algebraic reasoning happens over ordinary `ℚ` arithmetic. -/

theorem mkRat_eq_divQ (n : ℤ) (d : ℕ) : mkRat n d = (n : ℚ) / (d : ℚ) := by
  rw [Rat.mkRat_eq_divInt, Rat.divInt_eq_div]; push_cast; rfl

/-- Exact rational addition via `mkRat` (kernel-computable). -/
def qadd (a b : ℚ) : ℚ := mkRat (a.num * b.den + b.num * a.den) (a.den * b.den)

/-- Exact rational subtraction via `mkRat` (kernel-computable). -/
def qsub (a b : ℚ) : ℚ := mkRat (a.num * b.den - b.num * a.den) (a.den * b.den)

/-- Exact halving via `mkRat` (kernel-computable). -/
def qhalf (a : ℚ) : ℚ := mkRat a.num (a.den * 2)

theorem num_eq_mul_den (a : ℚ) : (a.num : ℚ) = a * a.den :=
  (div_eq_iff (by exact_mod_cast a.den_nz)).mp (Rat.num_div_den a)

theorem qadd_eq (a b : ℚ) : qadd a b = a + b := by
  have hda : ((a.den : ℚ)) ≠ 0 := by exact_mod_cast a.den_nz
  have hdb : ((b.den : ℚ)) ≠ 0 := by exact_mod_cast b.den_nz
  rw [qadd, mkRat_eq_divQ]
  push_cast
  rw [div_eq_iff (mul_ne_zero hda hdb), num_eq_mul_den, num_eq_mul_den]
  ring

theorem qsub_eq (a b : ℚ) : qsub a b = a - b := by
  have hda : ((a.den : ℚ)) ≠ 0 := by exact_mod_cast a.den_nz
  have hdb : ((b.den : ℚ)) ≠ 0 := by exact_mod_cast b.den_nz
  rw [qsub, mkRat_eq_divQ]
  push_cast
  rw [div_eq_iff (mul_ne_zero hda hdb), num_eq_mul_den, num_eq_mul_den]
  ring

theorem qhalf_eq (a : ℚ) : qhalf a = a / 2 := by
  have hda : ((a.den : ℚ)) ≠ 0 := by exact_mod_cast a.den_nz
  rw [qhalf, mkRat_eq_divQ]
  push_cast
  rw [div_eq_iff (by simp [hda]), num_eq_mul_den]
  ring

/-! ### Binary64 rounding, modelling CPython `float`

Only the `total_volume` statistic touches floats:
`self.statistics["total_volume"] += float(quantity)` in
`_execute_match`.  `float64` is round-to-nearest, ties-to-even onto a
53-bit significand; `floatAdd` is the correctly rounded IEEE addition. -/

/-- Integer as a rational, kernel-computably. -/
def qofInt (n : ℤ) : ℚ := mkRat n 1

theorem qofInt_eq (n : ℤ) : qofInt n = (n : ℚ) := by
  rw [qofInt, mkRat_eq_divQ]; simp

/-- Multiply by a (possibly negative) power of two, kernel-computably. -/
def qmul2pow (a : ℚ) : ℤ → ℚ
  | .ofNat k => mkRat (a.num * (2:ℤ) ^ k) a.den
  | .negSucc k => mkRat a.num (a.den * 2 ^ (k + 1))

theorem qmul2pow_eq (a : ℚ) (k : ℤ) : qmul2pow a k = a * (2:ℚ) ^ k := by
  have hda : ((a.den : ℚ)) ≠ 0 := by exact_mod_cast a.den_nz
  cases k with
  | ofNat k =>
    rw [qmul2pow, mkRat_eq_divQ]
    push_cast
    rw [div_eq_iff hda, num_eq_mul_den]
    push_cast
    rw [Int.ofNat_eq_natCast, zpow_natCast]
    ring
  | negSucc k =>
    rw [qmul2pow, mkRat_eq_divQ, Int.negSucc_eq]
    push_cast
    rw [div_eq_iff (by positivity), num_eq_mul_den, zpow_neg]
    push_cast
    field_simp
    rw [num_eq_mul_den, zpow_add₀ (by norm_num : (2:ℚ) ≠ 0), zpow_one, zpow_natCast]
    ring

/-- Round a rational to the nearest integer, ties to even. -/
def rnte (x : ℚ) : ℤ :=
  let f := ⌊x⌋
  if qsub x (qofInt f) < mkRat 1 2 then f
  else if mkRat 1 2 < qsub x (qofInt f) then f + 1
  else if f % 2 = 0 then f else f + 1

/-- Fuelled `⌊log₂⌋` on naturals (the fuel argument only makes the
recursion structural; `log2Fuel n n` is exact for every `n`). -/
def log2Fuel : ℕ → ℕ → ℕ
  | 0, _ => 0
  | fuel + 1, n => if 2 ≤ n then log2Fuel fuel (n / 2) + 1 else 0

/-- Fuelled `⌈log₂⌉` on naturals. -/
def clog2Fuel : ℕ → ℕ → ℕ
  | 0, _ => 0
  | fuel + 1, n => if 2 ≤ n then clog2Fuel fuel ((n + 1) / 2) + 1 else 0

/-- `⌊log₂ q⌋` for rationals: for `q ≥ 1` the floor's bit count, for
`0 < q < 1` the negated ceiling log of the reciprocal's ceiling
(`⌈den/num⌉` computed on the numerator and denominator). -/
def recipCeil (q : ℚ) : ℕ := (q.den + q.num.toNat - 1) / q.num.toNat

def intLog2 (q : ℚ) : ℤ :=
  if 1 ≤ q then (log2Fuel ⌊q⌋.toNat ⌊q⌋.toNat : ℤ)
  else -(clog2Fuel (recipCeil q) (recipCeil q) : ℤ)

/-- Nearest binary64 value (normal range) to a positive rational:
round the significand scaled into the 53-bit window of the binade. -/
def float64Pos (a : ℚ) : ℚ :=
  let e : ℤ := intLog2 a
  qmul2pow (qofInt (rnte (qmul2pow a ((52:ℤ) - e)))) (e - (52:ℤ))

/-- Nearest binary64 value (normal range) to a rational; models the
CPython conversion `float(Decimal(...))`. -/
def float64 (q : ℚ) : ℚ :=
  if q = 0 then 0
  else if q < 0 then -float64Pos (-q)
  else float64Pos q

/-- IEEE-754 binary64 addition (correctly rounded), modelling the
Python float `+=` on the `total_volume` statistic. -/
def floatAdd (x y : ℚ) : ℚ := float64 (qadd x y)

/-! ### Order operations (`order.py`) -/

/-- `Order.is_fully_filled`: `remaining_quantity == 0`. -/
def Order.isFullyFilled (o : Order) : Bool := o.remaining = 0

def Order.isBuy (o : Order) : Bool := o.side = Side.buy

/-- `Order.update_fill(filled_qty)`: add to `filled_quantity`, recompute
`remaining_quantity = quantity - filled_quantity`, set status `FILLED`
when remaining hits 0 else `PARTIAL` when filled is positive.  The
source's `ValueError` guards (non-positive or over-large fill) are
unreachable in engine flow and not modelled. -/
def Order.updateFill (o : Order) (q : ℚ) : Order :=
  let filled' := qadd o.filled q
  let remaining' := qsub o.quantity filled'
  { o with
    filled := filled'
    remaining := remaining'
    status :=
      if remaining' = 0 then OrderStatus.filled
      else if 0 < filled' then OrderStatus.partiallyFilled
      else o.status }

/-- `not self.symbol or not self.symbol.strip()`: the symbol is empty
or consists only of whitespace. -/
def symbolBlank (s : String) : Bool := s.data.all Char.isWhitespace

/-- `Order.validate()` from `order.py`, raising `ValueError` on bad
quantity/filled/price/symbol. -/
def validateOrder (o : Order) : Except EngErr Unit :=
  if o.quantity ≤ 0 then .error .valueError
  else if o.filled < 0 then .error .valueError
  else if o.quantity < o.filled then .error .valueError
  else if o.otype = OrderType.limit ∨ o.otype = OrderType.ioc ∨ o.otype = OrderType.fok then
    match o.price with
    | none => .error .valueError
    | some p => if p ≤ 0 then .error .valueError
                else if symbolBlank o.symbol then .error .valueError
                else .ok ()
  else if symbolBlank o.symbol then .error .valueError
  else .ok ()

/-! ### Association-list helpers (for `order_registry` and the books
dictionary; Python dict lookup / assignment / deletion semantics). -/

def lookupKey {α : Type} (l : List (String × α)) (k : String) : Option α :=
  (l.find? (fun kv => kv.1 = k)).map Prod.snd

def setKey {α : Type} (l : List (String × α)) (k : String) (v : α) : List (String × α) :=
  match l with
  | [] => [(k, v)]
  | kv :: rest => if kv.1 = k then (k, v) :: rest else kv :: setKey rest k v

def regLookup (r : List (ℕ × Order)) (k : ℕ) : Option Order :=
  (r.find? (fun kv => kv.1 = k)).map Prod.snd

def regSet (r : List (ℕ × Order)) (k : ℕ) (v : Order) : List (ℕ × Order) :=
  match r with
  | [] => [(k, v)]
  | kv :: rest => if kv.1 = k then (k, v) :: rest else kv :: regSet rest k v

def regErase (r : List (ℕ × Order)) (k : ℕ) : List (ℕ × Order) :=
  match r with
  | [] => []
  | kv :: rest => if kv.1 = k then rest else kv :: regErase rest k

/-! ### Price-level and book-side operations

A `SortedDict` side is a sorted list of levels; iteration order of
`keys()` is the list order (bids: descending price, asks: ascending). -/

/-- Is price `a` ahead of price `b` in iteration order on this side?
Asks ascend, bids descend (the `SortedDict(lambda x: -x)`). -/
def priceBefore (sd : Side) (a b : ℚ) : Prop :=
  match sd with
  | .sell => a < b   -- ask side: lower price first
  | .buy => b < a    -- bid side: higher price first

instance (sd : Side) (a b : ℚ) : Decidable (priceBefore sd a b) := by
  cases sd <;> simp only [priceBefore] <;> infer_instance

/-- Insert a new level keeping the side's sort order (the `SortedDict`
insertion performed by `_add_to_price_level` when the price is new). -/
def insertLevel (sd : Side) (p : ℚ) (os : List Order) : List Level → List Level
  | [] => [(p, os)]
  | l :: rest =>
    if priceBefore sd p l.1 then (p, os) :: l :: rest
    else l :: insertLevel sd p os rest

/-- Append an order at an existing price, or create the level
(`OrderBook._add_to_price_level` + `PriceLevel.add_order`). -/
def sideAddOrder (sd : Side) (o : Order) (p : ℚ) (side : List Level) : List Level :=
  if side.any (fun l => l.1 = p) then
    side.map (fun l => if l.1 = p then (l.1, l.2 ++ [o]) else l)
  else
    insertLevel sd p [o] side

/-- Remove the first order with the given id from a level's deque
(`PriceLevel.remove_order`: `deque.remove` with `Order.__eq__` by id). -/
def levelEraseId (os : List Order) (oid : ℕ) : List Order :=
  match os with
  | [] => []
  | o :: rest => if o.orderId = oid then rest else o :: levelEraseId rest oid

/-- Replace the first order with the given id in a level's deque by a
new record.  Models the aliasing between the deque entry and the order
object mutated by `update_fill`. -/
def levelSetId (os : List Order) (o' : Order) : List Order :=
  match os with
  | [] => []
  | o :: rest => if o.orderId = o'.orderId then o' :: rest else o :: levelSetId rest o'

/-- `OrderBook._cleanup_empty_levels`: drop every empty level on both
sides. -/
def Book.cleanupEmptyLevels (bk : Book) : Book :=
  { bk with
    bids := bk.bids.filter (fun l => ¬ l.2.isEmpty)
    asks := bk.asks.filter (fun l => ¬ l.2.isEmpty) }

/-- The side an order rests on. -/
def Book.sideOf (bk : Book) (sd : Side) : List Level :=
  match sd with
  | .buy => bk.bids
  | .sell => bk.asks

def Book.setSide (bk : Book) (sd : Side) (side : List Level) : Book :=
  match sd with
  | .buy => { bk with bids := side }
  | .sell => { bk with asks := side }

def sideLookup (side : List Level) (p : ℚ) : Option (List Order) :=
  (side.find? (fun l => l.1 = p)).map Prod.snd

/-- `OrderBook._remove_from_price_level(order)`: find the level at the
order's price on its side, remove the order by id, and clean up empty
levels if the level became empty.  A priceless order (market) or a
missing price is a no-op, as in the source (`if price not in book: return`). -/
def Book.removeFromPriceLevel (bk : Book) (o : Order) : Book :=
  match o.price with
  | none => bk
  | some p =>
    let side := bk.sideOf o.side
    match sideLookup side p with
    | none => bk
    | some os =>
      let os' := levelEraseId os o.orderId
      let bk' := bk.setSide o.side
        (side.map (fun l => if l.1 = p then (l.1, os') else l))
      if os'.isEmpty then bk'.cleanupEmptyLevels else bk'

/-- `OrderBook.get_best_bid` / `get_best_ask`: the first key of the
sorted side. -/
def Book.bestBid (bk : Book) : Option ℚ := bk.bids.head?.map Prod.fst

def Book.bestAsk (bk : Book) : Option ℚ := bk.asks.head?.map Prod.fst

/-- `OrderBook.spread` property: `ask - bid` when both exist. -/
def Book.spread (bk : Book) : Option ℚ :=
  match bk.bestBid, bk.bestAsk with
  | some b, some a => some (qsub a b)
  | _, _ => none

/-- `OrderBook.mid_price` property: `(bid + ask) / 2` when both exist. -/
def Book.midPrice (bk : Book) : Option ℚ :=
  match bk.bestBid, bk.bestAsk with
  | some b, some a => some (qhalf (qadd b a))
  | _, _ => none

/-- `PriceLevel.get_total_quantity` / `total_volume`: sum of remaining
quantities at the level. -/
def levelTotalVolume (os : List Order) : ℚ :=
  (os.map Order.remaining).foldr qadd 0

/-- `OrderBook.add_order(order)`: duplicate-id check against the
registry, remaining-quantity and price checks, insert into the correct
side, then register.  (The BBO recompute has no effect on modelled
state.) -/
def Book.addOrder (bk : Book) (o : Order) : Except EngErr Book :=
  if (regLookup bk.registry o.orderId).isSome then .error .duplicateOrder
  else if o.remaining ≤ 0 then .error .orderBookError
  else match o.price with
  | none => .error .orderBookError
  | some p =>
    let bk1 := bk.setSide o.side (sideAddOrder o.side o p (bk.sideOf o.side))
    .ok { bk1 with registry := regSet bk1.registry o.orderId o }

/-- `OrderBook.remove_order(order_id)`: registry lookup; if present,
remove from its price level and delete the registry entry.  Returns
the removed order. -/
def Book.removeOrder (bk : Book) (oid : ℕ) : Book × Option Order :=
  match regLookup bk.registry oid with
  | none => (bk, none)
  | some od =>
    let bk1 := bk.removeFromPriceLevel od
    ({ bk1 with registry := regErase bk1.registry oid }, some od)

/-- `OrderBook.remove_from_book_only(order_id)`: like `remove_order`
but keeps the registry entry (used for fully filled makers). -/
def Book.removeFromBookOnly (bk : Book) (oid : ℕ) : Book :=
  match regLookup bk.registry oid with
  | none => bk
  | some od => bk.removeFromPriceLevel od

/-! ### MatchingEngine (`matching_engine.py`) -/

/-- `MAX_TRADE_JOURNAL_SIZE = 10000`. -/
def maxTradeJournalSize : ℕ := 10000

/-- Append to the bounded journal (`deque(maxlen=10000)` drops the
oldest entry on overflow). -/
def journalPush (j : List Trade) (t : Trade) : List Trade :=
  (if j.length = maxTradeJournalSize then j.drop 1 else j) ++ [t]

/-- The book side an aggressor consumes: buys match against asks,
sells against bids (`_fill_against_book`). -/
def consumedSide (takerSide : Side) : Side :=
  match takerSide with
  | .buy => .sell
  | .sell => .buy

/-- The limit-price break test of `_fill_against_book` /
`_check_can_fill_fok` at one level: for a buy stop when the level
price exceeds the limit, for a sell when it is below. -/
def limitStop (tk : Order) (lp : Option ℚ) (p : ℚ) : Bool :=
  match lp with
  | none => false
  | some l => if tk.isBuy then decide (l < p) else decide (p < l)

/-- `MatchingEngine._is_marketable(order, order_book)`. -/
def isMarketable (o : Order) (bk : Book) : Bool :=
  match o.price with
  | none => true
  | some p =>
    if o.isBuy then
      match bk.bestAsk with
      | some a => a ≤ p
      | none => false
    else
      match bk.bestBid with
      | some b => p ≤ b
      | none => false

/-- `MatchingEngine._execute_match(taker, maker, quantity, price, book)`:
fill both orders, detach the maker from the book when fully filled
(`remove_from_book_only`, keeping its registry entry) or propagate the
maker mutation into its level (aliasing), create the trade, append the
journal, invoke the callbacks with `(trade, taker_order_id)`, bump the
statistics (`total_volume` in binary floating point), and finally call
`_notify_execution(trade)` which invokes every callback again with
`(trade)` alone. -/
def execMatch (tk mk : Order) (q price : ℚ) (bk : Book) (ax : Aux) :
    Order × Book × Aux × Trade :=
  let tk' := tk.updateFill q
  let mk' := mk.updateFill q
  let bk1 := { bk with registry := regSet bk.registry mk'.orderId mk' }
  let bk2 :=
    if mk'.isFullyFilled then
      bk1.removeFromBookOnly mk'.orderId
    else
      match mk'.price with
      | none => bk1
      | some p =>
        let sd := mk'.side
        bk1.setSide sd ((bk1.sideOf sd).map
          (fun l => if l.1 = p then (l.1, levelSetId l.2 mk') else l))
  let tr : Trade :=
    { tradeId := ax.nextTradeId, symbol := tk.symbol, price := price
      quantity := q, aggressorSide := tk.side
      makerOrderId := mk.orderId, takerOrderId := tk.orderId }
  let ax' : Aux :=
    { journal := journalPush ax.journal tr
      nextTradeId := ax.nextTradeId + 1
      stats := { ax.stats with
                 tradesExecuted := ax.stats.tradesExecuted + 1
                 totalVolume := floatAdd ax.stats.totalVolume (float64 q) }
      callbacks := ax.callbacks
      callLog := ax.callLog
        ++ ax.callbacks.map (fun c => CallEvent.mk c tr (.withTakerId tk.orderId))
        ++ ax.callbacks.map (fun c => CallEvent.mk c tr .tradeOnly) }
  (tk', bk2, ax', tr)

/-- The inner `while` of `_fill_against_book`: consume the level at
`p` head-first until it empties or the taker is filled.  The source
loops on the live level object; the model re-reads the level from the
book each iteration.  `fuel` bounds the iteration count (level length
+ 1 suffices: each pass either fully fills the head maker, removing
it, or fully fills the taker, ending the loop). -/
def fillLevelFuel : ℕ → Order → ℚ → Book → Aux → Order × Book × Aux × List Trade
  | 0, tk, _, bk, ax => (tk, bk, ax, [])
  | fuel + 1, tk, p, bk, ax =>
    match sideLookup (bk.sideOf (consumedSide tk.side)) p with
    | none => (tk, bk, ax, [])
    | some os =>
      if os.isEmpty ∨ tk.isFullyFilled then (tk, bk, ax, [])
      else
        match os.head? with
        | none => (tk, bk, ax, [])
        | some mk =>
          let q := min tk.remaining mk.remaining
          let r := execMatch tk mk q p bk ax
          let r2 := fillLevelFuel fuel r.1 p r.2.1 r.2.2.1
          (r2.1, r2.2.1, r2.2.2.1, r.2.2.2 :: r2.2.2.2)

/-- The outer `for price in list(levels.keys())` of
`_fill_against_book`, iterating a snapshot of the side's prices in
priority order with the limit-price break. -/
def fillPrices (prices : List ℚ) (tk : Order) (limitPrice : Option ℚ)
    (bk : Book) (ax : Aux) : Order × Book × Aux × List Trade :=
  match prices with
  | [] => (tk, bk, ax, [])
  | p :: rest =>
    if tk.isFullyFilled then (tk, bk, ax, [])
    else
      if limitStop tk limitPrice p then (tk, bk, ax, [])
      else
        match sideLookup (bk.sideOf (consumedSide tk.side)) p with
        | none => fillPrices rest tk limitPrice bk ax
        | some os =>
          let r := fillLevelFuel (os.length + 1) tk p bk ax
          let r2 := fillPrices rest r.1 limitPrice r.2.1 r.2.2.1
          (r2.1, r2.2.1, r2.2.2.1, r.2.2.2 ++ r2.2.2.2)

/-- `MatchingEngine._fill_against_book(order, order_book, limit_price)`. -/
def fillAgainstBook (tk : Order) (bk : Book) (ax : Aux) (limitPrice : Option ℚ) :
    Order × Book × Aux × List Trade :=
  fillPrices ((bk.sideOf (consumedSide tk.side)).map Prod.fst) tk limitPrice bk ax

/-- The per-level scan of `_check_can_fill_fok`: accumulate
`(maker, take_quantity)` pairs from the level until the requested
quantity is exhausted. -/
def fokScanLevel (os : List Order) (remaining : ℚ)
    (plan : List (Order × ℚ)) : ℚ × List (Order × ℚ) :=
  match os with
  | [] => (remaining, plan)
  | mk :: rest =>
    if remaining = 0 then (remaining, plan)
    else
      let fq := min remaining mk.remaining
      fokScanLevel rest (qsub remaining fq) (plan ++ [(mk, fq)])

/-- The price-level walk of `_check_can_fill_fok`, honoring the FOK
limit price. -/
def fokScanPrices (prices : List ℚ) (o : Order) (remaining : ℚ)
    (plan : List (Order × ℚ)) (bk : Book) : ℚ × List (Order × ℚ) :=
  match prices with
  | [] => (remaining, plan)
  | p :: rest =>
    if remaining = 0 then (remaining, plan)
    else
      if limitStop o o.price p then (remaining, plan)
      else
        match sideLookup (bk.sideOf (consumedSide o.side)) p with
        | none => fokScanPrices rest o remaining plan bk
        | some os =>
          let r := fokScanLevel os remaining plan
          fokScanPrices rest o r.1 r.2 bk

/-- `MatchingEngine._check_can_fill_fok(order, order_book)`: returns
`(can_fill, fill_plan)`; the plan is discarded when the scan cannot
exhaust the requested quantity. -/
def checkCanFillFok (o : Order) (bk : Book) : Bool × List (Order × ℚ) :=
  let r :=
    fokScanPrices ((bk.sideOf (consumedSide o.side)).map Prod.fst)
      o o.quantity [] bk
  if r.1 = 0 then (true, r.2) else (false, [])

/-- Execute a FOK fill plan through `_execute_match` in plan order. -/
def fokExecPlan (plan : List (Order × ℚ)) (tk : Order) (bk : Book) (ax : Aux) :
    Order × Book × Aux × List Trade :=
  match plan with
  | [] => (tk, bk, ax, [])
  | (mk, fq) :: rest =>
    let r := execMatch tk mk fq (mk.price.getD 0) bk ax
    let r2 := fokExecPlan rest r.1 r.2.1 r.2.2.1
    (r2.1, r2.2.1, r2.2.2.1, r.2.2.2 :: r2.2.2.2)

/-- Result type of the order-type processors: the mutated book and aux
plus the post-match taker and the trades, or the error together with
the state as mutated so far. -/
abbrev ProcResult := Except (EngErr × Book × Aux) (Book × Aux × Order × List Trade)

/-- `order_book.order_registry[order.order_id] = order`: register (or
overwrite) an order in the registry without touching the book. -/
def Book.registerOrder (bk : Book) (o : Order) : Book :=
  { bk with registry := regSet bk.registry o.orderId o }

/-- `MatchingEngine._process_market_order`: fill with no limit price,
register the order, cancel any unfilled remainder (`CANCELLED` with no
trades, `PARTIAL` otherwise). -/
def processMarketOrder (o : Order) (bk : Book) (ax : Aux) : ProcResult :=
  let f := fillAgainstBook o bk ax none
  let o2 :=
    if ¬ f.1.isFullyFilled then
      { f.1 with status := if f.2.2.2.isEmpty then OrderStatus.cancelled
                           else OrderStatus.partiallyFilled }
    else f.1
  .ok ({ f.2.1 with registry := regSet f.2.1.registry o2.orderId o2 }, f.2.2.1, o2, f.2.2.2)

/-- `MatchingEngine._process_limit_order`: fill the marketable portion
with `limit_price = order.price`, then either rest the remainder on
the book (`add_order`, status `PARTIAL`/`PENDING`) or register the
fully filled order.  A failing `add_order` propagates with the book
already mutated by the preceding fill. -/
def processLimitOrder (o : Order) (bk : Book) (ax : Aux) : ProcResult :=
  if o.price = none then .error (.invalidOrder, bk, ax)
  else
    let f :=
      if isMarketable o bk then fillAgainstBook o bk ax o.price
      else (o, bk, ax, [])
    if ¬ f.1.isFullyFilled then
      match f.2.1.addOrder { f.1 with status := if f.2.2.2.isEmpty then OrderStatus.pending
                                                else OrderStatus.partiallyFilled } with
      | .error er => .error (er, f.2.1, f.2.2.1)
      | .ok bk2 =>
        .ok (bk2, f.2.2.1,
          { f.1 with status := if f.2.2.2.isEmpty then OrderStatus.pending
                               else OrderStatus.partiallyFilled }, f.2.2.2)
    else
      .ok ({ f.2.1 with registry := regSet f.2.1.registry f.1.orderId f.1 },
        f.2.2.1, f.1, f.2.2.2)

/-- `MatchingEngine._process_ioc_order`: fill with
`limit_price = order.price` (no marketability pre-check), register,
cancel any unfilled remainder. -/
def processIocOrder (o : Order) (bk : Book) (ax : Aux) : ProcResult :=
  let f := fillAgainstBook o bk ax o.price
  let o2 :=
    if ¬ f.1.isFullyFilled then
      { f.1 with status := if f.2.2.2.isEmpty then OrderStatus.cancelled
                           else OrderStatus.partiallyFilled }
    else f.1
  .ok ({ f.2.1 with registry := regSet f.2.1.registry o2.orderId o2 }, f.2.2.1, o2, f.2.2.2)

/-- `MatchingEngine._process_fok_order`: register the order, plan via
`_check_can_fill_fok`, kill (status `CANCELLED`, no trades) when the
plan cannot cover the full quantity, otherwise execute the plan
atomically.  The final taker state is written to the registry, which
in the source holds the same mutated object. -/
def processFokOrder (o : Order) (bk : Book) (ax : Aux) : ProcResult :=
  if ¬ (checkCanFillFok o (bk.registerOrder o)).1 then
    .ok ((bk.registerOrder o).registerOrder { o with status := OrderStatus.cancelled },
      ax, { o with status := OrderStatus.cancelled }, [])
  else
    .ok ((fokExecPlan (checkCanFillFok o (bk.registerOrder o)).2 o (bk.registerOrder o)
            ax).2.1.registerOrder
          (fokExecPlan (checkCanFillFok o (bk.registerOrder o)).2 o (bk.registerOrder o) ax).1,
      (fokExecPlan (checkCanFillFok o (bk.registerOrder o)).2 o (bk.registerOrder o) ax).2.2.1,
      (fokExecPlan (checkCanFillFok o (bk.registerOrder o)).2 o (bk.registerOrder o) ax).1,
      (fokExecPlan (checkCanFillFok o (bk.registerOrder o)).2 o (bk.registerOrder o) ax).2.2.2)

/-- `MatchingEngine._generate_result_message` (the interpolated
numbers of the f-strings are omitted). -/
def genResultMessage (o : Order) (trades : List Trade) : String :=
  if o.isFullyFilled then "Order fully filled"
  else if 0 < o.filled then "Order partially filled"
  else if o.status = OrderStatus.cancelled then "Order cancelled - no fill"
  else if o.status = OrderStatus.pending then "Order added to book"
  else "Order processed"

/-- The statistics update in `submit_order` after a successful
dispatch: `orders_processed` always, then exactly one of
`orders_filled` / `orders_partial` / `orders_cancelled` by the
post-match order state. -/
def bumpSubmitStats (st : Stats) (o : Order) : Stats :=
  let st1 := { st with ordersProcessed := st.ordersProcessed + 1 }
  if o.isFullyFilled then { st1 with ordersFilled := st1.ordersFilled + 1 }
  else if 0 < o.filled then { st1 with ordersPartial := st1.ordersPartial + 1 }
  else if o.status = OrderStatus.cancelled then
    { st1 with ordersCancelled := st1.ordersCancelled + 1 }
  else st1

/-- The by-type dispatch of `submit_order` (its `if/elif` chain; the
`else` arm raising `InvalidOrder` for an unknown type is unreachable
because `OrderType` has exactly the four members). -/
def submitDispatch (o : Order) (bk : Book) (ax : Aux) : ProcResult :=
  match o.otype with
  | .market => processMarketOrder o bk ax
  | .limit => processLimitOrder o bk ax
  | .ioc => processIocOrder o bk ax
  | .fok => processFokOrder o bk ax

/-- The tail of `submit_order` after dispatch: on success bump the
statistics and build the `OrderResult`; on an exception let it
propagate with the state as mutated. -/
def submitFinish (o : Order) (books1 : List (String × Book)) :
    ProcResult → Outcome OrderResult
  | .error (er, bk', ax') =>
    .err er { books := setKey books1 o.symbol bk', aux := ax' }
  | .ok (bk', ax', o', trades) =>
    .ok { books := setKey books1 o.symbol bk'
          aux := { ax' with stats := bumpSubmitStats ax'.stats o' } }
      { order := o', trades := trades, status := o'.status
        message := genResultMessage o' trades }

/-- `_get_or_create_order_book`'s effect on the books dictionary. -/
def booksWith (books : List (String × Book)) (sym : String) : List (String × Book) :=
  match lookupKey books sym with
  | some _ => books
  | none => books ++ [(sym, Book.empty sym)]

/-- `MatchingEngine.submit_order(order)`: validate, locate or lazily
create the symbol's book, dispatch by order type, bump statistics and
build the `OrderResult`.  A raising dispatch propagates with the state
as mutated up to the raise (the book created by
`_get_or_create_order_book` included). -/
def submitOrder (e : Engine) (o : Order) : Outcome OrderResult :=
  match validateOrder o with
  | .error er => .err er e
  | .ok _ =>
    submitFinish o (booksWith e.books o.symbol)
      (submitDispatch o
        ((lookupKey (booksWith e.books o.symbol) o.symbol).getD (Book.empty o.symbol))
        e.aux)

/-- `MatchingEngine.cancel_order(order_id, symbol)`: missing book or
registry miss raise `OrderNotFound`; otherwise the order is removed
from its level and the registry, its status is set to `CANCELLED`, the
`orders_cancelled` counter is bumped, and `True` is returned. -/
def cancelOrder (e : Engine) (oid : ℕ) (sym : String) : Outcome Bool :=
  match lookupKey e.books sym with
  | none => .err .orderNotFound e
  | some bk =>
    match bk.removeOrder oid with
    | (_, none) => .err .orderNotFound e
    | (bk', some _) =>
      let ax' := { e.aux with stats :=
        { e.aux.stats with ordersCancelled := e.aux.stats.ordersCancelled + 1 } }
      .ok { books := setKey e.books sym bk', aux := ax' } true

/-- `MatchingEngine.get_order_status(order_id, symbol)`. -/
def getOrderStatus (e : Engine) (oid : ℕ) (sym : String) : Option Order :=
  match lookupKey e.books sym with
  | none => none
  | some bk => regLookup bk.registry oid

/-- `MatchingEngine.register_trade_callback(fn)`: appends to the
single `execution_callbacks` list. -/
def registerTradeCallback (e : Engine) (cb : ℕ) : Engine :=
  { e with aux := { e.aux with callbacks := e.aux.callbacks ++ [cb] } }

/-- An external call into the engine, for reachability statements. -/
inductive Op where
  | submit (o : Order)
  | cancel (oid : ℕ) (sym : String)
  | registerCb (cb : ℕ)
deriving Repr

/-- The engine state after one external call, whether it returned
normally or raised. -/
def applyOp (e : Engine) (op : Op) : Engine :=
  match op with
  | .submit o => (submitOrder e o).state
  | .cancel oid sym => (cancelOrder e oid sym).state
  | .registerCb cb => registerTradeCallback e cb

/-- The engine state reached from a fresh engine by a call sequence. -/
def runOps (ops : List Op) : Engine := ops.foldl applyOp Engine.init

/-! ### Construction helpers and concrete fixtures -/

/-- Construction of an `Order` through the dataclass defaults
(`status = PENDING`, `filled_quantity = 0`,
`remaining_quantity := quantity` in `__post_init__`) — the way every
submission entering the engine is built by the API layer. -/
def mkOrder (id : ℕ) (ot : OrderType) (sd : Side) (q : ℚ) (p : Option ℚ) : Order :=
  { orderId := id, symbol := "BTC-USDT", otype := ot, side := sd, quantity := q
    price := p, status := .pending, filled := 0, remaining := q }

/-- A fresh order: the state every order has right after construction. -/
def Order.fresh (o : Order) : Prop :=
  o.filled = 0 ∧ o.remaining = o.quantity ∧ o.status = OrderStatus.pending

/-- The book an engine holds for a symbol (empty if none yet). -/
def bookAt (e : Engine) (sym : String) : Book :=
  (lookupKey e.books sym).getD (Book.empty sym)

/-- Fixture: one resting limit sell `1 @ 50000`. -/
def engRest : Engine :=
  (submitOrder Engine.init (mkOrder 1 .limit .sell 1 (some 50000))).state

/-- Fixture: `engRest` after a market buy fully fills the maker; order 1
is terminated (`FILLED`), off the book, still in the registry. -/
def engFilled : Engine :=
  (submitOrder engRest (mkOrder 2 .market .buy 1 none)).state

/-! ### Association-list and basic lemmas -/

theorem lookupKey_setKey_self {α : Type} (l : List (String × α)) (k : String) (v : α) :
    lookupKey (setKey l k v) k = some v := by
  induction l with
  | nil => simp [setKey, lookupKey, List.find?]
  | cons kv rest ih =>
    by_cases h : kv.1 = k
    · simp [setKey, h, lookupKey, List.find?]
    · simp only [setKey, if_neg h, lookupKey, List.find?]
      rw [show (decide (kv.1 = k)) = false from decide_eq_false h]
      exact ih

theorem lookupKey_setKey_other {α : Type} (l : List (String × α)) (k k' : String) (v : α)
    (h : k' ≠ k) : lookupKey (setKey l k v) k' = lookupKey l k' := by
  induction l with
  | nil =>
    simp only [setKey, lookupKey, List.find?]
    rw [show (decide (k = k')) = false from decide_eq_false (fun e => h e.symm)]
  | cons kv rest ih =>
    by_cases hk : kv.1 = k
    · simp only [setKey, if_pos hk, lookupKey, List.find?]
      rw [show (decide (k = k')) = false from decide_eq_false (fun e => h e.symm),
        show (decide (kv.1 = k')) = false from decide_eq_false (hk ▸ fun e => h e.symm)]
    · simp only [setKey, if_neg hk, lookupKey, List.find?]
      cases hd : decide (kv.1 = k') with
      | true => rfl
      | false => exact ih

theorem regLookup_regSet_self (r : List (ℕ × Order)) (k : ℕ) (v : Order) :
    regLookup (regSet r k v) k = some v := by
  induction r with
  | nil => simp [regSet, regLookup, List.find?]
  | cons kv rest ih =>
    by_cases h : kv.1 = k
    · simp [regSet, h, regLookup, List.find?]
    · simp only [regSet, if_neg h, regLookup, List.find?]
      rw [show (decide (kv.1 = k)) = false from decide_eq_false h]
      exact ih

theorem regLookup_regSet_other (r : List (ℕ × Order)) (k k' : ℕ) (v : Order)
    (h : k' ≠ k) : regLookup (regSet r k v) k' = regLookup r k' := by
  induction r with
  | nil =>
    simp only [regSet, regLookup, List.find?]
    rw [show (decide (k = k')) = false from decide_eq_false (fun e => h e.symm)]
  | cons kv rest ih =>
    by_cases hk : kv.1 = k
    · simp only [regSet, if_pos hk, regLookup, List.find?]
      rw [show (decide (k = k')) = false from decide_eq_false (fun e => h e.symm),
        show (decide (kv.1 = k')) = false from decide_eq_false (hk ▸ fun e => h e.symm)]
    · simp only [regSet, if_neg hk, regLookup, List.find?]
      cases hd : decide (kv.1 = k') with
      | true => rfl
      | false => exact ih

theorem regLookup_regErase_self (r : List (ℕ × Order)) (k : ℕ)
    (hnd : (r.map Prod.fst).Nodup) : regLookup (regErase r k) k = none := by
  induction r with
  | nil => simp [regErase, regLookup, List.find?]
  | cons kv rest ih =>
    simp only [List.map_cons, List.nodup_cons] at hnd
    by_cases h : kv.1 = k
    · simp only [regErase, if_pos h]
      subst h
      unfold regLookup
      rw [List.find?_eq_none.mpr]
      · rfl
      · intro x hx hxk
        have hx1 : x.1 = kv.1 := of_decide_eq_true hxk
        exact hnd.1 (hx1 ▸ List.mem_map_of_mem Prod.fst hx)
    · simp only [regErase, if_neg h, regLookup, List.find?]
      rw [show (decide (kv.1 = k)) = false from decide_eq_false h]
      exact ih hnd.2

theorem setSide_registry (bk : Book) (sd : Side) (side : List Level) :
    (bk.setSide sd side).registry = bk.registry := by
  cases sd <;> rfl

theorem cleanupEmptyLevels_registry (bk : Book) :
    bk.cleanupEmptyLevels.registry = bk.registry := rfl

theorem removeFromPriceLevel_registry (bk : Book) (o : Order) :
    (bk.removeFromPriceLevel o).registry = bk.registry := by
  unfold Book.removeFromPriceLevel
  cases hp : o.price with
  | none => simp only [hp]
  | some p =>
    simp only [hp]
    cases hs : sideLookup (bk.sideOf o.side) p with
    | none => simp only [hs]
    | some os =>
      simp only [hs]
      by_cases he : (levelEraseId os o.orderId).isEmpty
      · simp only [he, if_true, cleanupEmptyLevels_registry, setSide_registry]
      · rw [if_neg (by simpa using he), setSide_registry]

/-! ## C4 — cancelling an already-terminated order

The claim says `cancel_order` on a terminated (Filled/Cancelled) order
— present in the registry but not resting — fails with `OrderNotFound`
and changes nothing.  The code keys `remove_order` on the *registry*,
not the book: any registered order id cancels successfully, is removed
from the registry, and bumps `orders_cancelled`. -/

/-- C4 counterexample: in `engFilled`, order 1 is terminated (`FILLED`),
absent from every price level, yet `cancel_order(1, "BTC-USDT")`
returns `True` (no `OrderNotFound`) and evicts it from the registry. -/
theorem c4_cancel_terminated_counterexample :
    (getOrderStatus engFilled 1 "BTC-USDT").map Order.status = some OrderStatus.filled
    ∧ ((bookAt engFilled "BTC-USDT").asks.all (fun l => l.2.all (fun o => o.orderId ≠ 1))) = true
    ∧ ((bookAt engFilled "BTC-USDT").bids.all (fun l => l.2.all (fun o => o.orderId ≠ 1))) = true
    ∧ (cancelOrder engFilled 1 "BTC-USDT").isOk = true
    ∧ getOrderStatus (cancelOrder engFilled 1 "BTC-USDT").state 1 "BTC-USDT" = none := by
  decide

/-- C4 amended: `cancel_order` succeeds for *any* order id present in
the symbol's registry, resting or terminated: it returns `True`,
removes the registry entry, and increments `orders_cancelled`;
`OrderNotFound` is raised only when the symbol has no book or the id is
not in the registry. -/
theorem c4_cancel_registered_succeeds (e : Engine) (bk : Book) (oid : ℕ) (sym : String)
    (od : Order)
    (hbk : lookupKey e.books sym = some bk)
    (hreg : regLookup bk.registry oid = some od)
    (hnd : (bk.registry.map Prod.fst).Nodup) :
    (cancelOrder e oid sym).isOk = true
    ∧ (∃ bk', lookupKey (cancelOrder e oid sym).state.books sym = some bk'
        ∧ regLookup bk'.registry oid = none)
    ∧ (cancelOrder e oid sym).state.aux.stats.ordersCancelled
        = e.aux.stats.ordersCancelled + 1 := by
  simp only [cancelOrder, hbk, Book.removeOrder, hreg, Outcome.isOk, Outcome.state]
  refine ⟨trivial, ⟨_, lookupKey_setKey_self _ _ _, ?_⟩, trivial⟩
  rw [removeFromPriceLevel_registry]
  exact regLookup_regErase_self _ _ hnd

/-- C4 witness: the amended theorem applied to the concrete engine
`engFilled` where order 1 is a terminated (fully filled) maker. -/
theorem c4_cancel_registered_succeeds_witness :
    (cancelOrder engFilled 1 "BTC-USDT").isOk = true
    ∧ (∃ bk', lookupKey (cancelOrder engFilled 1 "BTC-USDT").state.books "BTC-USDT" = some bk'
        ∧ regLookup bk'.registry 1 = none)
    ∧ (cancelOrder engFilled 1 "BTC-USDT").state.aux.stats.ordersCancelled
        = engFilled.aux.stats.ordersCancelled + 1 :=
  c4_cancel_registered_succeeds engFilled (bookAt engFilled "BTC-USDT") 1 "BTC-USDT"
    { orderId := 1, symbol := "BTC-USDT", otype := .limit, side := .sell, quantity := 1
      price := some 50000, status := .filled, filled := 1, remaining := 0 }
    (by decide) (by decide) (by decide)

/-! ## C5 — failing submissions and partial mutation

The claim says a failing submission never partially mutates engine
state, and in particular a Limit failing with `DuplicateOrder` has
emitted no trades.  But `_process_limit_order` matches *before*
`add_order` performs its duplicate check: a marketable duplicate Limit
trades first and only then raises. -/

/-- The error kind a call raised, if any. -/
def Outcome.errCode {α : Type} : Outcome α → Option EngErr
  | .ok _ _ => none
  | .err er _ => some er

deriving instance DecidableEq for Except

theorem setKey_lookup_self {α : Type} [DecidableEq α] (l : List (String × α)) (k : String)
    (v : α) (h : lookupKey l k = some v) : setKey l k v = l := by
  induction l with
  | nil => simp [lookupKey, List.find?] at h
  | cons kv rest ih =>
    by_cases hk : kv.1 = k
    · have hv2 : kv.2 = v := by
        simp only [lookupKey, List.find?] at h
        rw [show (decide (kv.1 = k)) = true from decide_eq_true hk] at h
        simpa using h
      subst hk
      simp only [setKey, if_pos rfl, ← hv2]
      simp [Prod.mk.eta]
    · simp only [lookupKey, List.find?] at h
      rw [show (decide (kv.1 = k)) = false from decide_eq_false hk] at h
      simp only [setKey, if_neg hk, ih h]

/-- A successfully validated Limit/IOC/FOK order carries a positive
price (`validate()` would have raised otherwise). -/
theorem validated_price (o : Order)
    (ht : o.otype = OrderType.limit ∨ o.otype = OrderType.ioc ∨ o.otype = OrderType.fok)
    (hv : validateOrder o = .ok ()) : ∃ p, o.price = some p ∧ 0 < p := by
  unfold validateOrder at hv
  by_cases h1 : o.quantity ≤ 0
  · simp [h1] at hv
  by_cases h2 : o.filled < 0
  · simp [h1, h2] at hv
  by_cases h3 : o.quantity < o.filled
  · simp [h1, h2, h3] at hv
  simp only [h1, h2, h3, if_false, if_pos ht] at hv
  cases hp : o.price with
  | none => rw [hp] at hv; cases hv
  | some p =>
    rw [hp] at hv
    by_cases h4 : p ≤ 0
    · simp [h4] at hv
    · exact ⟨p, rfl, not_le.mp h4⟩

/-- Fixture: one resting limit sell with id 7, `1 @ 100`. -/
def engDup : Engine :=
  (submitOrder Engine.init (mkOrder 7 .limit .sell 1 (some 100))).state

/-- A marketable limit buy with the duplicate id 7. -/
def dupBuy : Order := mkOrder 7 .limit .buy 2 (some 100)

/-- C5 counterexample: submitting a *marketable* Limit whose id is
already registered raises `DuplicateOrder`, but only after matching:
one trade was executed, journaled and counted, and the resting maker
was consumed off the book — the engine is left partially mutated. -/
theorem c5_partial_mutation_counterexample :
    (submitOrder engDup dupBuy).errCode = some EngErr.duplicateOrder
    ∧ (submitOrder engDup dupBuy).state.aux.stats.tradesExecuted
        = engDup.aux.stats.tradesExecuted + 1
    ∧ (submitOrder engDup dupBuy).state.aux.journal.length
        = engDup.aux.journal.length + 1
    ∧ (bookAt (submitOrder engDup dupBuy).state "BTC-USDT").asks
        ≠ (bookAt engDup "BTC-USDT").asks := by
  decide

/-- C5 amended: a submission that fails *validation* leaves the engine
exactly unchanged; and a Limit submission that fails with
`DuplicateOrder` leaves the engine exactly unchanged (no trades, no
book mutation) when it is *not marketable* on entry — a marketable
duplicate may trade before failing, as the counterexample shows. -/
theorem booksWith_of_lookup {books : List (String × Book)} {sym : String} {bk : Book}
    (h : lookupKey books sym = some bk) : booksWith books sym = books := by
  unfold booksWith
  rw [h]

theorem c5_failing_submission_state (e : Engine) (o : Order) (er : EngErr) :
    (validateOrder o = .error er → submitOrder e o = .err er e)
    ∧ (∀ bk, o.otype = OrderType.limit →
        lookupKey e.books o.symbol = some bk →
        validateOrder o = .ok () →
        isMarketable o bk = false →
        o.remaining ≠ 0 →
        (regLookup bk.registry o.orderId).isSome = true →
        submitOrder e o = .err EngErr.duplicateOrder e) := by
  constructor
  · intro hv
    unfold submitOrder
    rw [hv]
  · intro bk hlim hbk hv hmk hrem hdup
    obtain ⟨p, hp, _⟩ := validated_price o (Or.inl hlim) hv
    simp only [submitOrder, hv, booksWith_of_lookup hbk, hbk, Option.getD_some,
      submitDispatch, hlim, processLimitOrder, hp, hmk, Bool.false_eq_true, if_false,
      reduceCtorEq, reduceIte]
    rw [if_pos (show ¬(Order.isFullyFilled o = true) by
      simpa [Order.isFullyFilled] using hrem)]
    simp only [Book.addOrder, List.isEmpty_nil, if_true]
    rw [if_pos hdup]
    simp only [submitFinish]
    rw [setKey_lookup_self e.books o.symbol bk hbk]

/-- C5 witness: the amended theorem applied to a validation-failing
market order (part 1) and to a non-marketable duplicate limit buy
(part 2) against the concrete engine `engDup`. -/
theorem c5_failing_submission_state_witness :
    (submitOrder engDup (mkOrder 8 .market .buy 0 none)
      = .err EngErr.valueError engDup)
    ∧ (submitOrder engDup (mkOrder 7 .limit .buy 2 (some 50))
      = .err EngErr.duplicateOrder engDup) :=
  ⟨(c5_failing_submission_state engDup (mkOrder 8 .market .buy 0 none)
      EngErr.valueError).1 (by decide),
   (c5_failing_submission_state engDup (mkOrder 7 .limit .buy 2 (some 50))
      EngErr.valueError).2 (bookAt engDup "BTC-USDT") (by decide) (by decide)
      (by decide) (by decide) (by decide) (by decide)⟩

/-! ### Pipeline lemmas: how matching transforms the taker and the
engine-wide `Aux` state

Every trade execution goes through `_execute_match`; these lemmas
characterise the taker order, the trades list and the `Aux` evolution
produced by the fill loops, in terms of the emitted trade list. -/

/-- Apply the taker-side `update_fill` of each trade in order. -/
def Order.applyFills (o : Order) (trs : List Trade) : Order :=
  trs.foldl (fun a t => a.updateFill t.quantity) o

/-- The `Aux` evolution `_execute_match` performs once per trade:
journal append, trade-id bump, statistics (`total_volume` through
binary floating point), the two-argument callback sweep followed by
`_notify_execution`'s one-argument sweep. -/
def auxAfterTrades (ax : Aux) (trs : List Trade) (takerId : ℕ) : Aux :=
  trs.foldl (fun a t =>
    { journal := journalPush a.journal t
      nextTradeId := a.nextTradeId + 1
      stats := { a.stats with
                 tradesExecuted := a.stats.tradesExecuted + 1
                 totalVolume := floatAdd a.stats.totalVolume (float64 t.quantity) }
      callbacks := a.callbacks
      callLog := a.callLog
        ++ a.callbacks.map (fun c => CallEvent.mk c t (.withTakerId takerId))
        ++ a.callbacks.map (fun c => CallEvent.mk c t .tradeOnly) }) ax

theorem updateFill_orderId (o : Order) (q : ℚ) : (o.updateFill q).orderId = o.orderId := rfl

theorem updateFill_side (o : Order) (q : ℚ) : (o.updateFill q).side = o.side := rfl

theorem updateFill_symbol (o : Order) (q : ℚ) : (o.updateFill q).symbol = o.symbol := rfl

theorem updateFill_price (o : Order) (q : ℚ) : (o.updateFill q).price = o.price := rfl

theorem updateFill_quantity (o : Order) (q : ℚ) : (o.updateFill q).quantity = o.quantity := rfl

theorem updateFill_otype (o : Order) (q : ℚ) : (o.updateFill q).otype = o.otype := rfl

theorem updateFill_filled (o : Order) (q : ℚ) :
    (o.updateFill q).filled = o.filled + q := by
  simp [Order.updateFill, qadd_eq]

theorem updateFill_remaining (o : Order) (q : ℚ) :
    (o.updateFill q).remaining = o.quantity - (o.filled + q) := by
  simp [Order.updateFill, qadd_eq, qsub_eq]

theorem applyFills_nil (o : Order) : o.applyFills [] = o := rfl

theorem applyFills_cons (o : Order) (t : Trade) (trs : List Trade) :
    o.applyFills (t :: trs) = (o.updateFill t.quantity).applyFills trs := rfl

theorem applyFills_orderId (o : Order) (trs : List Trade) :
    (o.applyFills trs).orderId = o.orderId := by
  induction trs generalizing o with
  | nil => rfl
  | cons t ts ih => rw [applyFills_cons, ih, updateFill_orderId]

theorem applyFills_side (o : Order) (trs : List Trade) :
    (o.applyFills trs).side = o.side := by
  induction trs generalizing o with
  | nil => rfl
  | cons t ts ih => rw [applyFills_cons, ih, updateFill_side]

theorem applyFills_symbol (o : Order) (trs : List Trade) :
    (o.applyFills trs).symbol = o.symbol := by
  induction trs generalizing o with
  | nil => rfl
  | cons t ts ih => rw [applyFills_cons, ih, updateFill_symbol]

theorem applyFills_price (o : Order) (trs : List Trade) :
    (o.applyFills trs).price = o.price := by
  induction trs generalizing o with
  | nil => rfl
  | cons t ts ih => rw [applyFills_cons, ih, updateFill_price]

theorem applyFills_quantity (o : Order) (trs : List Trade) :
    (o.applyFills trs).quantity = o.quantity := by
  induction trs generalizing o with
  | nil => rfl
  | cons t ts ih => rw [applyFills_cons, ih, updateFill_quantity]

theorem applyFills_filled (o : Order) (trs : List Trade) :
    (o.applyFills trs).filled = o.filled + (trs.map Trade.quantity).sum := by
  induction trs generalizing o with
  | nil => simp [applyFills_nil]
  | cons t ts ih =>
    rw [applyFills_cons, ih, updateFill_filled]
    simp [add_assoc]

theorem applyFills_remaining (o : Order) (trs : List Trade) (h : trs ≠ []) :
    (o.applyFills trs).remaining
      = o.quantity - (o.filled + (trs.map Trade.quantity).sum) := by
  induction trs generalizing o with
  | nil => exact absurd rfl h
  | cons t ts ih =>
    rw [applyFills_cons]
    cases ts with
    | nil =>
      simp [applyFills_nil, updateFill_remaining]
    | cons t2 ts2 =>
      rw [ih _ (by simp), updateFill_quantity, updateFill_filled]
      simp [add_assoc]

theorem auxAfterTrades_nil (ax : Aux) (tid : ℕ) : auxAfterTrades ax [] tid = ax := rfl

theorem auxAfterTrades_cons (ax : Aux) (t : Trade) (trs : List Trade) (tid : ℕ) :
    auxAfterTrades ax (t :: trs) tid
      = auxAfterTrades (auxAfterTrades ax [t] tid) trs tid := rfl

theorem auxAfterTrades_append (ax : Aux) (l1 l2 : List Trade) (tid : ℕ) :
    auxAfterTrades ax (l1 ++ l2) tid
      = auxAfterTrades (auxAfterTrades ax l1 tid) l2 tid := by
  unfold auxAfterTrades
  exact List.foldl_append _ _ _ _

theorem auxAfterTrades_callbacks (ax : Aux) (trs : List Trade) (tid : ℕ) :
    (auxAfterTrades ax trs tid).callbacks = ax.callbacks := by
  induction trs generalizing ax with
  | nil => rfl
  | cons t ts ih => rw [auxAfterTrades_cons, ih]; rfl

/-- The callback invocations `_execute_match` plus `_notify_execution`
record for one trade list. -/
def callLogDelta (cbs : List ℕ) (trs : List Trade) (takerId : ℕ) : List CallEvent :=
  trs.flatMap (fun t =>
    cbs.map (fun c => CallEvent.mk c t (.withTakerId takerId))
    ++ cbs.map (fun c => CallEvent.mk c t .tradeOnly))

theorem auxAfterTrades_callLog (ax : Aux) (trs : List Trade) (tid : ℕ) :
    (auxAfterTrades ax trs tid).callLog
      = ax.callLog ++ callLogDelta ax.callbacks trs tid := by
  induction trs generalizing ax with
  | nil => simp [auxAfterTrades_nil, callLogDelta]
  | cons t ts ih =>
    rw [auxAfterTrades_cons, ih]
    simp [auxAfterTrades, callLogDelta, List.append_assoc]

theorem auxAfterTrades_totalVolume (ax : Aux) (trs : List Trade) (tid : ℕ) :
    (auxAfterTrades ax trs tid).stats.totalVolume
      = trs.foldl (fun v t => floatAdd v (float64 t.quantity)) ax.stats.totalVolume := by
  induction trs generalizing ax with
  | nil => rfl
  | cons t ts ih => rw [auxAfterTrades_cons, ih]; rfl

theorem auxAfterTrades_tradesExecuted (ax : Aux) (trs : List Trade) (tid : ℕ) :
    (auxAfterTrades ax trs tid).stats.tradesExecuted
      = ax.stats.tradesExecuted + trs.length := by
  induction trs generalizing ax with
  | nil => rfl
  | cons t ts ih =>
    rw [auxAfterTrades_cons, ih]
    simp [auxAfterTrades]
    omega

/-! #### Step equations for the fill recursions -/

theorem execMatch_eq (tk mk : Order) (q p : ℚ) (bk : Book) (ax : Aux) :
    execMatch tk mk q p bk ax
      = (tk.updateFill q, (execMatch tk mk q p bk ax).2.1,
         auxAfterTrades ax
           [Trade.mk ax.nextTradeId tk.symbol p q tk.side mk.orderId tk.orderId]
           tk.orderId,
         Trade.mk ax.nextTradeId tk.symbol p q tk.side mk.orderId tk.orderId) := rfl

theorem fillLevelFuel_zero (tk : Order) (p : ℚ) (bk : Book) (ax : Aux) :
    fillLevelFuel 0 tk p bk ax = (tk, bk, ax, []) := rfl

theorem fillLevelFuel_none (fuel : ℕ) (tk : Order) (p : ℚ) (bk : Book) (ax : Aux)
    (hs : sideLookup (bk.sideOf (consumedSide tk.side)) p = none) :
    fillLevelFuel (fuel + 1) tk p bk ax = (tk, bk, ax, []) := by
  simp only [fillLevelFuel, hs]

theorem fillLevelFuel_exit (fuel : ℕ) (tk : Order) (p : ℚ) (bk : Book) (ax : Aux)
    (os : List Order)
    (hs : sideLookup (bk.sideOf (consumedSide tk.side)) p = some os)
    (hg : os.isEmpty = true ∨ tk.isFullyFilled = true) :
    fillLevelFuel (fuel + 1) tk p bk ax = (tk, bk, ax, []) := by
  simp only [fillLevelFuel, hs]
  rw [if_pos hg]

theorem fillLevelFuel_step (fuel : ℕ) (tk : Order) (p : ℚ) (bk : Book) (ax : Aux)
    (os : List Order) (mk : Order)
    (hs : sideLookup (bk.sideOf (consumedSide tk.side)) p = some os)
    (hne : os.isEmpty = false) (hnf : tk.isFullyFilled = false)
    (hhd : os.head? = some mk) :
    fillLevelFuel (fuel + 1) tk p bk ax
      = ((fillLevelFuel fuel
            (execMatch tk mk (min tk.remaining mk.remaining) p bk ax).1 p
            (execMatch tk mk (min tk.remaining mk.remaining) p bk ax).2.1
            (execMatch tk mk (min tk.remaining mk.remaining) p bk ax).2.2.1).1,
         (fillLevelFuel fuel
            (execMatch tk mk (min tk.remaining mk.remaining) p bk ax).1 p
            (execMatch tk mk (min tk.remaining mk.remaining) p bk ax).2.1
            (execMatch tk mk (min tk.remaining mk.remaining) p bk ax).2.2.1).2.1,
         (fillLevelFuel fuel
            (execMatch tk mk (min tk.remaining mk.remaining) p bk ax).1 p
            (execMatch tk mk (min tk.remaining mk.remaining) p bk ax).2.1
            (execMatch tk mk (min tk.remaining mk.remaining) p bk ax).2.2.1).2.2.1,
         (execMatch tk mk (min tk.remaining mk.remaining) p bk ax).2.2.2
           :: (fillLevelFuel fuel
            (execMatch tk mk (min tk.remaining mk.remaining) p bk ax).1 p
            (execMatch tk mk (min tk.remaining mk.remaining) p bk ax).2.1
            (execMatch tk mk (min tk.remaining mk.remaining) p bk ax).2.2.1).2.2.2) := by
  simp only [fillLevelFuel, hs]
  rw [if_neg (by simp [hne, hnf])]
  simp only [hhd]

/-- Every trade emitted while consuming one level updates the taker by
its own quantity and evolves `Aux` by the per-trade `_execute_match`
effects; trades carry the taker's id, symbol and side. -/
theorem fillLevelFuel_spec (fuel : ℕ) (tk : Order) (p : ℚ) (bk : Book) (ax : Aux) :
    (fillLevelFuel fuel tk p bk ax).1
        = tk.applyFills (fillLevelFuel fuel tk p bk ax).2.2.2
    ∧ (fillLevelFuel fuel tk p bk ax).2.2.1
        = auxAfterTrades ax (fillLevelFuel fuel tk p bk ax).2.2.2 tk.orderId
    ∧ ∀ t ∈ (fillLevelFuel fuel tk p bk ax).2.2.2,
        t.takerOrderId = tk.orderId ∧ t.symbol = tk.symbol ∧ t.aggressorSide = tk.side := by
  induction fuel generalizing tk bk ax with
  | zero =>
    rw [fillLevelFuel_zero]
    exact ⟨rfl, rfl, by simp⟩
  | succ fuel ih =>
    cases hs : sideLookup (bk.sideOf (consumedSide tk.side)) p with
    | none =>
      rw [fillLevelFuel_none fuel tk p bk ax hs]
      exact ⟨rfl, rfl, by simp⟩
    | some os =>
      by_cases hg : os.isEmpty = true ∨ tk.isFullyFilled = true
      · rw [fillLevelFuel_exit fuel tk p bk ax os hs hg]
        exact ⟨rfl, rfl, by simp⟩
      · push_neg at hg
        cases hhd : os.head? with
        | none =>
          exact absurd (List.isEmpty_iff.mpr (List.head?_eq_none_iff.mp hhd))
            (by simpa using hg.1)
        | some mk =>
          rw [fillLevelFuel_step fuel tk p bk ax os mk hs
            (by simpa using hg.1) (by simpa using hg.2) hhd]
          set q := min tk.remaining mk.remaining with hq
          set r := execMatch tk mk q p bk ax with hr
          obtain ⟨ih1, ih2, ih3⟩ := ih r.1 r.2.1 r.2.2.1
          have hrt : r.1 = tk.updateFill q := by rw [hr, execMatch_eq]
          have hra : r.2.2.1 = auxAfterTrades ax [r.2.2.2] tk.orderId := by
            rw [hr, execMatch_eq]
          have hrtr : r.2.2.2
              = Trade.mk ax.nextTradeId tk.symbol p q tk.side mk.orderId tk.orderId := by
            rw [hr, execMatch_eq]
          refine ⟨?_, ?_, ?_⟩
          · rw [ih1, hrt, applyFills_cons, hrtr]
          · rw [ih2, hra, hrt, updateFill_orderId, ← auxAfterTrades_cons]
          · intro t ht
            rcases List.mem_cons.mp ht with h | h
            · subst h
              rw [hrtr]
              exact ⟨rfl, rfl, rfl⟩
            · have := ih3 t h
              rw [hrt, updateFill_orderId, updateFill_symbol, updateFill_side] at this
              exact this

theorem fillPrices_nil (tk : Order) (lp : Option ℚ) (bk : Book) (ax : Aux) :
    fillPrices [] tk lp bk ax = (tk, bk, ax, []) := rfl

theorem fillPrices_filled (p : ℚ) (ps : List ℚ) (tk : Order) (lp : Option ℚ)
    (bk : Book) (ax : Aux) (hf : tk.isFullyFilled = true) :
    fillPrices (p :: ps) tk lp bk ax = (tk, bk, ax, []) := by
  simp only [fillPrices, hf, if_true]

theorem fillPrices_stop (p : ℚ) (ps : List ℚ) (tk : Order) (lp : Option ℚ)
    (bk : Book) (ax : Aux) (hf : tk.isFullyFilled = false)
    (hstop : limitStop tk lp p = true) :
    fillPrices (p :: ps) tk lp bk ax = (tk, bk, ax, []) := by
  simp only [fillPrices, hf, Bool.false_eq_true, if_false, hstop, if_true]

theorem fillPrices_skip (p : ℚ) (ps : List ℚ) (tk : Order) (lp : Option ℚ)
    (bk : Book) (ax : Aux) (hf : tk.isFullyFilled = false)
    (hstop : limitStop tk lp p = false)
    (hs : sideLookup (bk.sideOf (consumedSide tk.side)) p = none) :
    fillPrices (p :: ps) tk lp bk ax = fillPrices ps tk lp bk ax := by
  simp only [fillPrices, hf, Bool.false_eq_true, if_false, hstop, hs]

theorem fillPrices_step (p : ℚ) (ps : List ℚ) (tk : Order) (lp : Option ℚ)
    (bk : Book) (ax : Aux) (os : List Order) (hf : tk.isFullyFilled = false)
    (hstop : limitStop tk lp p = false)
    (hs : sideLookup (bk.sideOf (consumedSide tk.side)) p = some os) :
    fillPrices (p :: ps) tk lp bk ax
      = ((fillPrices ps (fillLevelFuel (os.length + 1) tk p bk ax).1 lp
            (fillLevelFuel (os.length + 1) tk p bk ax).2.1
            (fillLevelFuel (os.length + 1) tk p bk ax).2.2.1).1,
         (fillPrices ps (fillLevelFuel (os.length + 1) tk p bk ax).1 lp
            (fillLevelFuel (os.length + 1) tk p bk ax).2.1
            (fillLevelFuel (os.length + 1) tk p bk ax).2.2.1).2.1,
         (fillPrices ps (fillLevelFuel (os.length + 1) tk p bk ax).1 lp
            (fillLevelFuel (os.length + 1) tk p bk ax).2.1
            (fillLevelFuel (os.length + 1) tk p bk ax).2.2.1).2.2.1,
         (fillLevelFuel (os.length + 1) tk p bk ax).2.2.2
           ++ (fillPrices ps (fillLevelFuel (os.length + 1) tk p bk ax).1 lp
            (fillLevelFuel (os.length + 1) tk p bk ax).2.1
            (fillLevelFuel (os.length + 1) tk p bk ax).2.2.1).2.2.2) := by
  simp only [fillPrices, hf, Bool.false_eq_true, if_false, hstop, hs]

/-- Same taker/Aux characterisation lifted over the price walk of
`_fill_against_book`. -/
theorem fillPrices_spec (ps : List ℚ) (tk : Order) (lp : Option ℚ) (bk : Book) (ax : Aux) :
    (fillPrices ps tk lp bk ax).1
        = tk.applyFills (fillPrices ps tk lp bk ax).2.2.2
    ∧ (fillPrices ps tk lp bk ax).2.2.1
        = auxAfterTrades ax (fillPrices ps tk lp bk ax).2.2.2 tk.orderId
    ∧ ∀ t ∈ (fillPrices ps tk lp bk ax).2.2.2,
        t.takerOrderId = tk.orderId ∧ t.symbol = tk.symbol ∧ t.aggressorSide = tk.side := by
  induction ps generalizing tk bk ax with
  | nil =>
    rw [fillPrices_nil]
    exact ⟨rfl, rfl, by simp⟩
  | cons p ps ih =>
    by_cases hf : tk.isFullyFilled = true
    · rw [fillPrices_filled p ps tk lp bk ax hf]
      exact ⟨rfl, rfl, by simp⟩
    · replace hf : tk.isFullyFilled = false := by simpa using hf
      by_cases hstop : limitStop tk lp p = true
      · rw [fillPrices_stop p ps tk lp bk ax hf hstop]
        exact ⟨rfl, rfl, by simp⟩
      · replace hstop : limitStop tk lp p = false := by simpa using hstop
        cases hs : sideLookup (bk.sideOf (consumedSide tk.side)) p with
        | none =>
          rw [fillPrices_skip p ps tk lp bk ax hf hstop hs]
          exact ih tk bk ax
        | some os =>
          rw [fillPrices_step p ps tk lp bk ax os hf hstop hs]
          obtain ⟨hl1, hl2, hl3⟩ := fillLevelFuel_spec (os.length + 1) tk p bk ax
          set r := fillLevelFuel (os.length + 1) tk p bk ax with hr
          obtain ⟨ih1, ih2, ih3⟩ := ih r.1 r.2.1 r.2.2.1
          have hid : r.1.orderId = tk.orderId := by
            rw [hl1, applyFills_orderId]
          refine ⟨?_, ?_, ?_⟩
          · rw [ih1, hl1, Order.applyFills, Order.applyFills, Order.applyFills,
              List.foldl_append]
          · rw [ih2, hl2, hid, auxAfterTrades_append]
          · intro t ht
            rcases List.mem_append.mp ht with h | h
            · exact hl3 t h
            · have := ih3 t h
              rw [hid, hl1, applyFills_symbol, applyFills_side] at this
              exact this

/-- `_fill_against_book` characterisation. -/
theorem fillAgainstBook_spec (tk : Order) (bk : Book) (ax : Aux) (lp : Option ℚ) :
    (fillAgainstBook tk bk ax lp).1
        = tk.applyFills (fillAgainstBook tk bk ax lp).2.2.2
    ∧ (fillAgainstBook tk bk ax lp).2.2.1
        = auxAfterTrades ax (fillAgainstBook tk bk ax lp).2.2.2 tk.orderId
    ∧ ∀ t ∈ (fillAgainstBook tk bk ax lp).2.2.2,
        t.takerOrderId = tk.orderId ∧ t.symbol = tk.symbol ∧ t.aggressorSide = tk.side :=
  fillPrices_spec _ tk lp bk ax

/-- `_process_fok_order`'s execution loop characterisation. -/
theorem fokExecPlan_spec (plan : List (Order × ℚ)) (tk : Order) (bk : Book) (ax : Aux) :
    (fokExecPlan plan tk bk ax).1
        = tk.applyFills (fokExecPlan plan tk bk ax).2.2.2
    ∧ (fokExecPlan plan tk bk ax).2.2.1
        = auxAfterTrades ax (fokExecPlan plan tk bk ax).2.2.2 tk.orderId
    ∧ (∀ t ∈ (fokExecPlan plan tk bk ax).2.2.2,
        t.takerOrderId = tk.orderId ∧ t.symbol = tk.symbol ∧ t.aggressorSide = tk.side)
    ∧ (fokExecPlan plan tk bk ax).2.2.2.map Trade.quantity = plan.map Prod.snd := by
  induction plan generalizing tk bk ax with
  | nil =>
    exact ⟨rfl, rfl, by simp [fokExecPlan], rfl⟩
  | cons e rest ih =>
    obtain ⟨mk, fq⟩ := e
    simp only [fokExecPlan]
    set r := execMatch tk mk fq (mk.price.getD 0) bk ax with hr
    have hrt : r.1 = tk.updateFill fq := by rw [hr, execMatch_eq]
    have hra : r.2.2.1 = auxAfterTrades ax [r.2.2.2] tk.orderId := by rw [hr, execMatch_eq]
    have hrtr : r.2.2.2 = Trade.mk ax.nextTradeId tk.symbol (mk.price.getD 0) fq tk.side
        mk.orderId tk.orderId := by rw [hr, execMatch_eq]
    obtain ⟨ih1, ih2, ih3, ih4⟩ := ih r.1 r.2.1 r.2.2.1
    have hid : r.1.orderId = tk.orderId := by rw [hrt, updateFill_orderId]
    refine ⟨?_, ?_, ?_, ?_⟩
    · rw [ih1, hrt, applyFills_cons, hrtr]
    · rw [ih2, hra, hid, ← auxAfterTrades_cons]
    · intro t ht
      rcases List.mem_cons.mp ht with h | h
      · subst h
        rw [hrtr]
        exact ⟨rfl, rfl, rfl⟩
      · have := ih3 t h
        rw [hid, hrt, updateFill_symbol, updateFill_side] at this
        exact this
    · simp only [List.map_cons, ih4, hrtr]

theorem status_set_filled (o : Order) (s : OrderStatus) :
    ({ o with status := s } : Order).filled = o.filled := rfl

/-- Components of a successful `_process_market_order`. -/
theorem processMarketOrder_ok (o : Order) (bk : Book) (ax : Aux)
    (bk' : Book) (ax' : Aux) (o' : Order) (trades : List Trade)
    (h : processMarketOrder o bk ax = .ok (bk', ax', o', trades)) :
    o'.orderId = o.orderId ∧ o'.quantity = o.quantity
    ∧ o'.filled = (o.applyFills trades).filled
    ∧ o'.remaining = (o.applyFills trades).remaining
    ∧ ax' = auxAfterTrades ax trades o.orderId
    ∧ (∀ t ∈ trades,
        t.takerOrderId = o.orderId ∧ t.symbol = o.symbol ∧ t.aggressorSide = o.side) := by
  unfold processMarketOrder at h
  obtain ⟨f1, f2, f3⟩ := fillAgainstBook_spec o bk ax none
  set f := fillAgainstBook o bk ax none with hf
  simp only [Except.ok.injEq, Prod.mk.injEq] at h
  obtain ⟨-, hax', ho', htr⟩ := h
  subst hax' htr
  have hproj : o'.orderId = f.1.orderId ∧ o'.quantity = f.1.quantity
      ∧ o'.filled = f.1.filled ∧ o'.remaining = f.1.remaining := by
    rw [← ho']; split <;> exact ⟨rfl, rfl, rfl, rfl⟩
  exact ⟨by rw [hproj.1, f1, applyFills_orderId],
    by rw [hproj.2.1, f1, applyFills_quantity],
    by rw [hproj.2.2.1, f1],
    by rw [hproj.2.2.2, f1],
    f2, f3⟩

/-- Components of a successful `_process_ioc_order`. -/
theorem processIocOrder_ok (o : Order) (bk : Book) (ax : Aux)
    (bk' : Book) (ax' : Aux) (o' : Order) (trades : List Trade)
    (h : processIocOrder o bk ax = .ok (bk', ax', o', trades)) :
    o'.orderId = o.orderId ∧ o'.quantity = o.quantity
    ∧ o'.filled = (o.applyFills trades).filled
    ∧ o'.remaining = (o.applyFills trades).remaining
    ∧ ax' = auxAfterTrades ax trades o.orderId
    ∧ (∀ t ∈ trades,
        t.takerOrderId = o.orderId ∧ t.symbol = o.symbol ∧ t.aggressorSide = o.side) := by
  unfold processIocOrder at h
  obtain ⟨f1, f2, f3⟩ := fillAgainstBook_spec o bk ax o.price
  set f := fillAgainstBook o bk ax o.price with hf
  simp only [Except.ok.injEq, Prod.mk.injEq] at h
  obtain ⟨-, hax', ho', htr⟩ := h
  subst hax' htr
  have hproj : o'.orderId = f.1.orderId ∧ o'.quantity = f.1.quantity
      ∧ o'.filled = f.1.filled ∧ o'.remaining = f.1.remaining := by
    rw [← ho']; split <;> exact ⟨rfl, rfl, rfl, rfl⟩
  exact ⟨by rw [hproj.1, f1, applyFills_orderId],
    by rw [hproj.2.1, f1, applyFills_quantity],
    by rw [hproj.2.2.1, f1],
    by rw [hproj.2.2.2, f1],
    f2, f3⟩

/-- Components of a successful `_process_limit_order`. -/
theorem processLimitOrder_ok (o : Order) (bk : Book) (ax : Aux)
    (bk' : Book) (ax' : Aux) (o' : Order) (trades : List Trade)
    (h : processLimitOrder o bk ax = .ok (bk', ax', o', trades)) :
    o'.orderId = o.orderId ∧ o'.quantity = o.quantity
    ∧ o'.filled = (o.applyFills trades).filled
    ∧ o'.remaining = (o.applyFills trades).remaining
    ∧ ax' = auxAfterTrades ax trades o.orderId
    ∧ (∀ t ∈ trades,
        t.takerOrderId = o.orderId ∧ t.symbol = o.symbol ∧ t.aggressorSide = o.side) := by
  unfold processLimitOrder at h
  by_cases hp : o.price = none
  · rw [if_pos hp] at h; cases h
  · rw [if_neg hp] at h
    obtain ⟨f1, f2, f3⟩ : (if isMarketable o bk then fillAgainstBook o bk ax o.price
          else (o, bk, ax, ([] : List Trade))).1
          = o.applyFills (if isMarketable o bk then fillAgainstBook o bk ax o.price
          else (o, bk, ax, ([] : List Trade))).2.2.2
        ∧ (if isMarketable o bk then fillAgainstBook o bk ax o.price
          else (o, bk, ax, ([] : List Trade))).2.2.1
          = auxAfterTrades ax (if isMarketable o bk then fillAgainstBook o bk ax o.price
          else (o, bk, ax, ([] : List Trade))).2.2.2 o.orderId
        ∧ ∀ t ∈ (if isMarketable o bk then fillAgainstBook o bk ax o.price
          else (o, bk, ax, ([] : List Trade))).2.2.2,
            t.takerOrderId = o.orderId ∧ t.symbol = o.symbol
            ∧ t.aggressorSide = o.side := by
      split
      · exact fillAgainstBook_spec o bk ax o.price
      · exact ⟨rfl, rfl, by simp⟩
    set f := (if isMarketable o bk then fillAgainstBook o bk ax o.price
          else (o, bk, ax, ([] : List Trade))) with hf
    by_cases hful : f.1.isFullyFilled = true
    · rw [if_neg (by simp [hful])] at h
      simp only [Except.ok.injEq, Prod.mk.injEq] at h
      obtain ⟨-, hax', ho', htr⟩ := h
      subst hax' htr ho'
      exact ⟨by rw [f1, applyFills_orderId],
        by rw [f1, applyFills_quantity],
        by rw [f1], by rw [f1], f2, f3⟩
    · rw [if_pos (by simpa using hful)] at h
      cases ha : Book.addOrder f.2.1
          ({ f.1 with status := if f.2.2.2.isEmpty then OrderStatus.pending
                       else OrderStatus.partiallyFilled } : Order) with
      | error er => rw [ha] at h; cases h
      | ok bk2 =>
        rw [ha] at h
        simp only [Except.ok.injEq, Prod.mk.injEq] at h
        obtain ⟨-, hax', ho', htr⟩ := h
        subst hax' htr
        have hproj : o'.orderId = f.1.orderId ∧ o'.quantity = f.1.quantity
            ∧ o'.filled = f.1.filled ∧ o'.remaining = f.1.remaining := by
          rw [← ho']; exact ⟨rfl, rfl, rfl, rfl⟩
        exact ⟨by rw [hproj.1, f1, applyFills_orderId],
          by rw [hproj.2.1, f1, applyFills_quantity],
          by rw [hproj.2.2.1, f1],
          by rw [hproj.2.2.2, f1],
          f2, f3⟩

/-- Components of a successful `_process_fok_order`. -/
theorem processFokOrder_ok (o : Order) (bk : Book) (ax : Aux)
    (bk' : Book) (ax' : Aux) (o' : Order) (trades : List Trade)
    (h : processFokOrder o bk ax = .ok (bk', ax', o', trades)) :
    o'.orderId = o.orderId ∧ o'.quantity = o.quantity
    ∧ o'.filled = (o.applyFills trades).filled
    ∧ o'.remaining = (o.applyFills trades).remaining
    ∧ ax' = auxAfterTrades ax trades o.orderId
    ∧ (∀ t ∈ trades,
        t.takerOrderId = o.orderId ∧ t.symbol = o.symbol ∧ t.aggressorSide = o.side) := by
  unfold processFokOrder at h
  by_cases hcan : (checkCanFillFok o (bk.registerOrder o)).1 = true
  · rw [if_neg (by simp [hcan])] at h
    obtain ⟨g1, g2, g3, -⟩ :=
      fokExecPlan_spec (checkCanFillFok o (bk.registerOrder o)).2 o (bk.registerOrder o) ax
    simp only [Except.ok.injEq, Prod.mk.injEq] at h
    obtain ⟨-, hax', ho', htr⟩ := h
    subst hax' htr ho'
    exact ⟨by rw [g1, applyFills_orderId],
      by rw [g1, applyFills_quantity],
      by rw [g1], by rw [g1], g2, g3⟩
  · rw [if_pos (by simpa using hcan)] at h
    simp only [Except.ok.injEq, Prod.mk.injEq] at h
    obtain ⟨-, hax', ho', htr⟩ := h
    subst hax' htr
    subst ho'
    exact ⟨rfl, rfl, rfl, rfl, rfl, by simp⟩

/-- What a successful `submit_order` returns and does to the
engine-wide `Aux` state: the result order is the submitted order with
the taker-side fills of the returned trades applied (plus a possible
status overwrite), the result `status` mirrors the order's, and `Aux`
evolves by exactly the per-trade `_execute_match` effects followed by
the submit-time statistics bump. -/
theorem submit_ok_spec (e : Engine) (o : Order) (e' : Engine) (r : OrderResult)
    (h : submitOrder e o = .ok e' r) :
    r.order.orderId = o.orderId
    ∧ r.order.quantity = o.quantity
    ∧ r.order.filled = (o.applyFills r.trades).filled
    ∧ r.order.remaining = (o.applyFills r.trades).remaining
    ∧ r.status = r.order.status
    ∧ e'.aux = { auxAfterTrades e.aux r.trades o.orderId with
                 stats := bumpSubmitStats
                   (auxAfterTrades e.aux r.trades o.orderId).stats r.order }
    ∧ (∀ t ∈ r.trades,
        t.takerOrderId = o.orderId ∧ t.symbol = o.symbol ∧ t.aggressorSide = o.side) := by
  unfold submitOrder at h
  cases hv : validateOrder o with
  | error er => rw [hv] at h; cases h
  | ok u =>
    cases u
    rw [hv] at h
    cases hpr : submitDispatch o
        ((lookupKey (booksWith e.books o.symbol) o.symbol).getD (Book.empty o.symbol))
        e.aux with
    | error t =>
      rw [hpr] at h
      obtain ⟨er2, bk2, ax2⟩ := t
      simp [submitFinish] at h
    | ok t =>
      obtain ⟨bk', ax', o', trades⟩ := t
      rw [hpr] at h
      simp only [submitFinish, Outcome.ok.injEq] at h
      obtain ⟨he', hr⟩ := h
      have hcomp : o'.orderId = o.orderId ∧ o'.quantity = o.quantity
          ∧ o'.filled = (o.applyFills trades).filled
          ∧ o'.remaining = (o.applyFills trades).remaining
          ∧ ax' = auxAfterTrades e.aux trades o.orderId
          ∧ (∀ t ∈ trades,
              t.takerOrderId = o.orderId ∧ t.symbol = o.symbol
              ∧ t.aggressorSide = o.side) := by
        unfold submitDispatch at hpr
        cases hot : o.otype with
        | market => rw [hot] at hpr; exact processMarketOrder_ok _ _ _ _ _ _ _ hpr
        | limit => rw [hot] at hpr; exact processLimitOrder_ok _ _ _ _ _ _ _ hpr
        | ioc => rw [hot] at hpr; exact processIocOrder_ok _ _ _ _ _ _ _ hpr
        | fok => rw [hot] at hpr; exact processFokOrder_ok _ _ _ _ _ _ _ hpr
      obtain ⟨h1, h2, h3, h4, h5, h6⟩ := hcomp
      subst hr
      refine ⟨h1, h2, h3, h4, rfl, ?_, h6⟩
      rw [← he', h5]

/-! ## C3 — trade callbacks

The claim says each function registered via `register_trade_callback`
is invoked exactly once per trade, with `(trade, taker_order_id)`.
`_execute_match` invokes every callback with `(trade, taker_order_id)`
and then calls `_notify_execution(trade)`, which sweeps the same
`execution_callbacks` list again passing `(trade)` alone: every
registered function is called twice per trade. -/

/-- A default-valued projection of a successful result (junk on error;
used only to name the result of calls known to succeed). -/
def okResult : Outcome OrderResult → OrderResult
  | .ok _ r => r
  | .err _ _ =>
    { order := mkOrder 0 .market .buy 1 none, trades := [],
      status := .rejected, message := "" }

/-- Fixture: `engRest` with one registered trade callback (index 0). -/
def engCb : Engine := registerTradeCallback engRest 0

/-- C3 counterexample: a market buy that produces exactly one trade
causes the single registered callback to be invoked twice for that
trade — once with `(trade, taker_order_id)` and once, via
`_notify_execution`, with `(trade)` alone — not exactly once. -/
theorem c3_double_invocation_counterexample :
    (okResult (submitOrder engCb (mkOrder 2 .market .buy 1 none))).trades.length = 1
    ∧ (submitOrder engCb (mkOrder 2 .market .buy 1 none)).state.aux.callLog.length = 2
    ∧ ((submitOrder engCb (mkOrder 2 .market .buy 1 none)).state.aux.callLog.map
        CallEvent.form) = [CallForm.withTakerId 2, CallForm.tradeOnly]
    ∧ ((submitOrder engCb (mkOrder 2 .market .buy 1 none)).state.aux.callLog.map
        CallEvent.cb) = [0, 0] := by
  decide

theorem bumpSubmitStats_totalVolume (st : Stats) (o : Order) :
    (bumpSubmitStats st o).totalVolume = st.totalVolume := by
  unfold bumpSubmitStats
  split
  · rfl
  · split
    · rfl
    · split <;> rfl

theorem bumpSubmitStats_callLike (st : Stats) (o : Order) :
    (bumpSubmitStats st o).tradesExecuted = st.tradesExecuted := by
  unfold bumpSubmitStats
  split
  · rfl
  · split
    · rfl
    · split <;> rfl

/-- C3 amended: for every successful submission, each registered
callback is invoked exactly *twice* per emitted trade, synchronously
and in execution order: first with `(trade, taker_order_id)` from the
callback loop in `_execute_match`, then with `(trade)` alone from
`_notify_execution`; exceptions from either call are swallowed.  The
callback list itself is unchanged by the submission. -/
theorem c3_callbacks_invoked_twice_per_trade (e : Engine) (o : Order) (e' : Engine)
    (r : OrderResult) (h : submitOrder e o = .ok e' r) :
    e'.aux.callbacks = e.aux.callbacks
    ∧ e'.aux.callLog = e.aux.callLog ++ callLogDelta e.aux.callbacks r.trades o.orderId := by
  obtain ⟨-, -, -, -, -, haux, -⟩ := submit_ok_spec e o e' r h
  constructor
  · rw [haux]
    show (auxAfterTrades e.aux r.trades o.orderId).callbacks = _
    exact auxAfterTrades_callbacks _ _ _
  · rw [haux]
    show (auxAfterTrades e.aux r.trades o.orderId).callLog = _
    exact auxAfterTrades_callLog _ _ _

/-- C3 witness: the amended theorem applied to the concrete engine
`engCb` and a market buy producing one trade. -/
theorem c3_callbacks_invoked_twice_per_trade_witness :
    (submitOrder engCb (mkOrder 2 .market .buy 1 none)).state.aux.callbacks
      = engCb.aux.callbacks
    ∧ (submitOrder engCb (mkOrder 2 .market .buy 1 none)).state.aux.callLog
      = engCb.aux.callLog
        ++ callLogDelta engCb.aux.callbacks
             (okResult (submitOrder engCb (mkOrder 2 .market .buy 1 none))).trades 2 :=
  c3_callbacks_invoked_twice_per_trade engCb (mkOrder 2 .market .buy 1 none)
    (submitOrder engCb (mkOrder 2 .market .buy 1 none)).state
    (okResult (submitOrder engCb (mkOrder 2 .market .buy 1 none)))
    (by decide)

/-! ## C9 — exact decimal arithmetic

The claim says every computation on prices and quantities, including
the engine's `total_volume` statistic, is exact decimal with no binary
floating point.  `_execute_match` does
`self.statistics["total_volume"] += float(quantity)`: the statistic is
accumulated in IEEE-754 binary64 and loses precision. -/

/-- Fixture: one resting limit sell `0.1 @ 50000`. -/
def engTenth : Engine :=
  (submitOrder Engine.init (mkOrder 1 .limit .sell (mkRat 1 10) (some 50000))).state

/-- C9 counterexample: a single trade of quantity `0.1` is recorded
exactly in the trade itself, but the `total_volume` statistic becomes
`float(Decimal("0.1")) = 3602879701896397 / 2^55 ≠ 1/10`: the
statistic went through binary floating point and lost precision. -/
theorem c9_totalVolume_float_counterexample :
    (okResult (submitOrder engTenth (mkOrder 2 .market .buy (mkRat 1 10) none))).trades.map
        Trade.quantity = [mkRat 1 10]
    ∧ (submitOrder engTenth (mkOrder 2 .market .buy (mkRat 1 10) none)).state.aux.stats.totalVolume
        = mkRat 3602879701896397 36028797018963968
    ∧ (submitOrder engTenth (mkOrder 2 .market .buy (mkRat 1 10) none)).state.aux.stats.totalVolume
        ≠ mkRat 1 10 := by
  decide

/-- C9 amended: all computations except the `total_volume` statistic
are exact: execution quantities accumulate into the order's filled
quantity as exact rationals, and `spread` / `mid_price` are the exact
`ask - bid` and `(bid + ask) / 2`.  The `total_volume` statistic alone
is accumulated in binary floating point: each trade quantity passes
through `float(...)` and IEEE-754 addition. -/
theorem c9_exact_except_totalVolume (e : Engine) (o : Order) (e' : Engine)
    (r : OrderResult) (h : submitOrder e o = .ok e' r) :
    e'.aux.stats.totalVolume
      = r.trades.foldl (fun v t => floatAdd v (float64 t.quantity))
          e.aux.stats.totalVolume
    ∧ r.order.filled = o.filled + (r.trades.map Trade.quantity).sum
    ∧ (∀ bk : Book, ∀ s, bk.spread = some s →
        ∃ b a, bk.bestBid = some b ∧ bk.bestAsk = some a ∧ s = a - b)
    ∧ (∀ bk : Book, ∀ m, bk.midPrice = some m →
        ∃ b a, bk.bestBid = some b ∧ bk.bestAsk = some a ∧ m = (b + a) / 2) := by
  obtain ⟨-, -, hfil, -, -, haux, -⟩ := submit_ok_spec e o e' r h
  refine ⟨?_, ?_, ?_, ?_⟩
  · rw [haux]
    show (bumpSubmitStats (auxAfterTrades e.aux r.trades o.orderId).stats r.order).totalVolume = _
    rw [bumpSubmitStats_totalVolume, auxAfterTrades_totalVolume]
  · rw [hfil, applyFills_filled]
  · intro bk s hs
    unfold Book.spread at hs
    cases hb : bk.bestBid with
    | none => rw [hb] at hs; cases hs
    | some b =>
      cases ha : bk.bestAsk with
      | none => rw [hb, ha] at hs; cases hs
      | some a =>
        rw [hb, ha] at hs
        simp only [Option.some_inj] at hs
        exact ⟨b, a, rfl, rfl, by rw [← hs, qsub_eq]⟩
  · intro bk m hm
    unfold Book.midPrice at hm
    cases hb : bk.bestBid with
    | none => rw [hb] at hm; cases hm
    | some b =>
      cases ha : bk.bestAsk with
      | none => rw [hb, ha] at hm; cases hm
      | some a =>
        rw [hb, ha] at hm
        simp only [Option.some_inj] at hm
        exact ⟨b, a, rfl, rfl, by rw [← hm, qadd_eq, qhalf_eq]⟩

/-- C9 witness: the amended theorem at the concrete `0.1` trade. -/
theorem c9_exact_except_totalVolume_witness :
    (submitOrder engTenth (mkOrder 2 .market .buy (mkRat 1 10) none)).state.aux.stats.totalVolume
      = (okResult (submitOrder engTenth (mkOrder 2 .market .buy (mkRat 1 10) none))).trades.foldl
          (fun v t => floatAdd v (float64 t.quantity)) engTenth.aux.stats.totalVolume :=
  (c9_exact_except_totalVolume engTenth (mkOrder 2 .market .buy (mkRat 1 10) none)
    (submitOrder engTenth (mkOrder 2 .market .buy (mkRat 1 10) none)).state
    (okResult (submitOrder engTenth (mkOrder 2 .market .buy (mkRat 1 10) none)))
    (by decide)).1

/-! ## C10 — a resting Limit increments only `orders_processed` -/

theorem lookupKey_append_single {α : Type} (l : List (String × α)) (k : String) (v : α)
    (h : lookupKey l k = none) : lookupKey (l ++ [(k, v)]) k = some v := by
  induction l with
  | nil => simp [lookupKey, List.find?]
  | cons kv rest ih =>
    simp only [lookupKey, List.find?] at h ⊢
    cases hd : decide (kv.1 = k) with
    | true => rw [hd] at h; cases h
    | false =>
      rw [hd] at h
      simpa [lookupKey] using ih (by simpa [lookupKey] using h)

theorem getD_booksWith (e : Engine) (sym : String) :
    (lookupKey (booksWith e.books sym) sym).getD (Book.empty sym) = bookAt e sym := by
  unfold booksWith bookAt
  cases h : lookupKey e.books sym with
  | some bk => rw [h]
  | none =>
    rw [lookupKey_append_single e.books sym (Book.empty sym) h]
    rfl

/-- A successfully validated order has positive quantity. -/
theorem validated_quantity (o : Order) (hv : validateOrder o = .ok ()) :
    0 < o.quantity := by
  unfold validateOrder at hv
  by_cases h1 : o.quantity ≤ 0
  · simp [h1] at hv
  · exact not_le.mp h1

/-- C10: a Limit submission that is not marketable on entry (it matches
nothing) rests on the book with status `PENDING`, returns no trades,
and bumps `orders_processed` alone: `orders_filled`, `orders_partial`,
`orders_cancelled`, `trades_executed` and `total_volume` are unchanged. -/
theorem c10_resting_limit_stats (e : Engine) (o : Order)
    (hlim : o.otype = OrderType.limit)
    (hv : validateOrder o = .ok ())
    (hfresh : o.remaining = o.quantity ∧ o.filled = 0)
    (hmk : isMarketable o (bookAt e o.symbol) = false)
    (hdup : (regLookup (bookAt e o.symbol).registry o.orderId).isSome = false) :
    (submitOrder e o).isOk = true
    ∧ (okResult (submitOrder e o)).status = OrderStatus.pending
    ∧ (okResult (submitOrder e o)).trades = []
    ∧ (submitOrder e o).state.aux.stats
        = { e.aux.stats with ordersProcessed := e.aux.stats.ordersProcessed + 1 } := by
  obtain ⟨p, hp, hppos⟩ := validated_price o (Or.inl hlim) hv
  have hq : 0 < o.quantity := validated_quantity o hv
  have hrem : ¬ o.remaining ≤ 0 := by rw [hfresh.1]; exact not_le.mpr hq
  have hfull : o.isFullyFilled = false := by
    simp [Order.isFullyFilled]
    rw [hfresh.1]
    exact ne_of_gt hq
  simp only [submitOrder, hv, submitDispatch, hlim, processLimitOrder, getD_booksWith,
    hmk, Bool.false_eq_true, if_false]
  rw [if_neg (by simp [hp])]
  rw [if_pos (by simp [hfull])]
  simp only [Book.addOrder, List.isEmpty_nil, if_true]
  rw [if_neg (by simp [hdup]), if_neg (by simpa using hrem)]
  rw [show ({ o with status := OrderStatus.pending } : Order).price = some p from hp]
  simp only [submitFinish, Outcome.isOk, okResult, Outcome.state]
  refine ⟨trivial, trivial, trivial, ?_⟩
  unfold bumpSubmitStats
  rw [if_neg (by simp [Order.isFullyFilled]; rw [hfresh.1]; exact ne_of_gt hq)]
  rw [if_neg (by simp [hfresh.2])]
  rw [if_neg (by simp)]

/-- C10 witness: a non-marketable limit sell on a fresh engine. -/
theorem c10_resting_limit_stats_witness :
    (submitOrder Engine.init (mkOrder 1 .limit .sell 1 (some 50000))).isOk = true
    ∧ (okResult (submitOrder Engine.init (mkOrder 1 .limit .sell 1 (some 50000)))).status
        = OrderStatus.pending
    ∧ (okResult (submitOrder Engine.init (mkOrder 1 .limit .sell 1 (some 50000)))).trades = []
    ∧ (submitOrder Engine.init (mkOrder 1 .limit .sell 1 (some 50000))).state.aux.stats
        = { Engine.init.aux.stats with
            ordersProcessed := Engine.init.aux.stats.ordersProcessed + 1 } :=
  c10_resting_limit_stats Engine.init (mkOrder 1 .limit .sell 1 (some 50000))
    (by decide) (by decide) (by decide) (by decide) (by decide)

/-! ## C1 — FOK atomicity -/

theorem fokScanLevel_sum (os : List Order) (rem : ℚ) (plan : List (Order × ℚ)) :
    (fokScanLevel os rem plan).1 + ((fokScanLevel os rem plan).2.map Prod.snd).sum
      = rem + (plan.map Prod.snd).sum := by
  induction os generalizing rem plan with
  | nil => rfl
  | cons mk rest ih =>
    by_cases h0 : rem = 0
    · simp only [fokScanLevel, h0, if_true]
    · simp only [fokScanLevel, h0, if_false]
      rw [ih]
      rw [qsub_eq]
      simp

theorem fokScanPrices_sum (ps : List ℚ) (o : Order) (rem : ℚ)
    (plan : List (Order × ℚ)) (bk : Book) :
    (fokScanPrices ps o rem plan bk).1
        + ((fokScanPrices ps o rem plan bk).2.map Prod.snd).sum
      = rem + (plan.map Prod.snd).sum := by
  induction ps generalizing rem plan with
  | nil => rfl
  | cons p rest ih =>
    by_cases h0 : rem = 0
    · simp only [fokScanPrices, h0, if_true]
    · simp only [fokScanPrices, h0, if_false]
      by_cases hstop : limitStop o o.price p = true
      · rw [hstop]
        simp
      · rw [show limitStop o o.price p = false by simpa using hstop]
        simp only [Bool.false_eq_true, if_false]
        cases hs : sideLookup (bk.sideOf (consumedSide o.side)) p with
        | none => exact ih rem plan
        | some os => rw [ih, fokScanLevel_sum]

/-- When `_check_can_fill_fok` reports the order fillable, the plan's
quantities sum exactly to the requested quantity. -/
theorem checkCanFillFok_sum (o : Order) (bk : Book)
    (h : (checkCanFillFok o bk).1 = true) :
    (((checkCanFillFok o bk).2.map Prod.snd).sum) = o.quantity := by
  unfold checkCanFillFok at h ⊢
  have hsum := fokScanPrices_sum ((bk.sideOf (consumedSide o.side)).map Prod.fst)
    o o.quantity [] bk
  by_cases h0 : (fokScanPrices ((bk.sideOf (consumedSide o.side)).map Prod.fst)
      o o.quantity [] bk).1 = 0
  · simp only [h0, if_true]
    rw [h0] at hsum
    simpa using hsum
  · simp only [h0, if_false] at h
    cases h

theorem registerOrder_bids (bk : Book) (o : Order) :
    (bk.registerOrder o).bids = bk.bids := rfl

theorem registerOrder_asks (bk : Book) (o : Order) :
    (bk.registerOrder o).asks = bk.asks := rfl

/-- C1: a FOK submission either emits trades whose quantities sum
exactly to the requested quantity, or emits zero trades, ends
`CANCELLED`, and leaves every price level of the book — prices, order
sequence and remaining quantities — exactly as before the submission. -/
theorem c1_fok_atomicity (e : Engine) (o : Order) (e' : Engine) (r : OrderResult)
    (hfok : o.otype = OrderType.fok)
    (h : submitOrder e o = .ok e' r) :
    ((r.trades.map Trade.quantity).sum = o.quantity)
    ∨ (r.trades = [] ∧ r.status = OrderStatus.cancelled
       ∧ (bookAt e' o.symbol).bids = (bookAt e o.symbol).bids
       ∧ (bookAt e' o.symbol).asks = (bookAt e o.symbol).asks) := by
  unfold submitOrder at h
  cases hv : validateOrder o with
  | error er => rw [hv] at h; cases h
  | ok u =>
    cases u
    rw [hv] at h
    rw [getD_booksWith] at h
    unfold submitDispatch at h
    rw [hfok] at h
    unfold processFokOrder at h
    by_cases hcan : (checkCanFillFok o ((bookAt e o.symbol).registerOrder o)).1 = true
    · rw [if_neg (by simp [hcan])] at h
      left
      unfold submitFinish at h
      simp only [Outcome.ok.injEq] at h
      obtain ⟨-, hr⟩ := h
      obtain ⟨-, -, -, hq⟩ :=
        fokExecPlan_spec (checkCanFillFok o ((bookAt e o.symbol).registerOrder o)).2 o
          ((bookAt e o.symbol).registerOrder o) e.aux
      have htr : r.trades = (fokExecPlan
          (checkCanFillFok o ((bookAt e o.symbol).registerOrder o)).2 o
          ((bookAt e o.symbol).registerOrder o) e.aux).2.2.2 := by rw [← hr]
      rw [htr, hq]
      exact checkCanFillFok_sum o ((bookAt e o.symbol).registerOrder o) hcan
    · rw [if_pos (by simpa using hcan)] at h
      right
      unfold submitFinish at h
      simp only [Outcome.ok.injEq] at h
      obtain ⟨he', hr⟩ := h
      have hbkAt : bookAt e' o.symbol
          = ((bookAt e o.symbol).registerOrder o).registerOrder
              { o with status := OrderStatus.cancelled } := by
        unfold bookAt
        rw [← he']
        show (lookupKey (setKey (booksWith e.books o.symbol) o.symbol _) o.symbol).getD _ = _
        rw [lookupKey_setKey_self]
        rfl
      refine ⟨by rw [← hr], by rw [← hr], ?_, ?_⟩
      · rw [hbkAt, registerOrder_bids, registerOrder_bids]
      · rw [hbkAt, registerOrder_asks, registerOrder_asks]

/-- C1 witness: the FOK kill scenario — one resting ask `1 @ 50000`, a
FOK buy for 2 is killed with zero trades and an untouched book. -/
theorem c1_fok_atomicity_witness :
    (((okResult (submitOrder engRest (mkOrder 2 .fok .buy 2 (some 50000)))).trades.map
        Trade.quantity).sum = (mkOrder 2 .fok .buy 2 (some 50000)).quantity)
    ∨ ((okResult (submitOrder engRest (mkOrder 2 .fok .buy 2 (some 50000)))).trades = []
       ∧ (okResult (submitOrder engRest (mkOrder 2 .fok .buy 2 (some 50000)))).status
           = OrderStatus.cancelled
       ∧ (bookAt (submitOrder engRest (mkOrder 2 .fok .buy 2 (some 50000))).state
            "BTC-USDT").bids = (bookAt engRest "BTC-USDT").bids
       ∧ (bookAt (submitOrder engRest (mkOrder 2 .fok .buy 2 (some 50000))).state
            "BTC-USDT").asks = (bookAt engRest "BTC-USDT").asks) :=
  c1_fok_atomicity engRest (mkOrder 2 .fok .buy 2 (some 50000))
    (submitOrder engRest (mkOrder 2 .fok .buy 2 (some 50000))).state
    (okResult (submitOrder engRest (mkOrder 2 .fok .buy 2 (some 50000))))
    (by decide) (by decide)

/-! ## C7 — fill accounting of a successful submission -/

/-- C7: for every submission (of a freshly constructed order) that
returns successfully, the returned trades' quantities sum to the
returned order's `filled_quantity`, and
`filled_quantity + remaining_quantity = quantity`. -/
theorem c7_fill_accounting (e : Engine) (o : Order) (e' : Engine) (r : OrderResult)
    (hfresh : o.filled = 0 ∧ o.remaining = o.quantity)
    (h : submitOrder e o = .ok e' r) :
    (r.trades.map Trade.quantity).sum = r.order.filled
    ∧ r.order.filled + r.order.remaining = r.order.quantity := by
  obtain ⟨-, hqty, hfil, hrem, -, -, -⟩ := submit_ok_spec e o e' r h
  have h1 : r.order.filled = (r.trades.map Trade.quantity).sum := by
    rw [hfil, applyFills_filled, hfresh.1, zero_add]
  refine ⟨h1.symm, ?_⟩
  cases htr : r.trades with
  | nil =>
    rw [h1, htr]
    simp only [List.map_nil, List.sum_nil, zero_add]
    rw [hrem, htr, applyFills_nil, hfresh.2, hqty]
  | cons t ts =>
    rw [hrem, htr, applyFills_remaining _ _ (by simp), hfresh.1, zero_add, hqty, h1, htr]
    ring

/-- C7 witness: the partially filled market buy of `engFilled`'s
construction — reapplied here to a fresh engine and checked through
the theorem. -/
theorem c7_fill_accounting_witness :
    ((okResult (submitOrder engRest (mkOrder 2 .market .buy 2 none))).trades.map
        Trade.quantity).sum
      = (okResult (submitOrder engRest (mkOrder 2 .market .buy 2 none))).order.filled
    ∧ (okResult (submitOrder engRest (mkOrder 2 .market .buy 2 none))).order.filled
        + (okResult (submitOrder engRest (mkOrder 2 .market .buy 2 none))).order.remaining
      = (okResult (submitOrder engRest (mkOrder 2 .market .buy 2 none))).order.quantity :=
  c7_fill_accounting engRest (mkOrder 2 .market .buy 2 none)
    (submitOrder engRest (mkOrder 2 .market .buy 2 none)).state
    (okResult (submitOrder engRest (mkOrder 2 .market .buy 2 none)))
    (by decide) (by decide)

/-! ## C2 — execution price is the maker's resting price, bounded by
the taker's limit

Infrastructure: `InBook` membership and a simulation relation
`BookSub` saying every order resting in the evolved book descends
(same id, same price) from one resting at the same level price in the
original book.  Matching only removes orders or replaces them by
`update_fill`ed copies, so `BookSub` holds along the whole fill. -/

/-- `m` rests at a level with price `p` on side `sd` of the book. -/
def InBook (bk : Book) (sd : Side) (p : ℚ) (m : Order) : Prop :=
  ∃ os, (p, os) ∈ bk.sideOf sd ∧ m ∈ os

/-- Every resting order of `bk'` descends — same id, price field and
side field — from an order resting at the same level price in `bk`. -/
def BookSub (bk' bk : Book) : Prop :=
  ∀ sd p m', InBook bk' sd p m' →
    ∃ m, InBook bk sd p m ∧ m'.orderId = m.orderId ∧ m'.price = m.price ∧ m'.side = m.side

theorem BookSub.refl (bk : Book) : BookSub bk bk :=
  fun _ _ m' h => ⟨m', h, rfl, rfl, rfl⟩

theorem BookSub.trans {bk1 bk2 bk3 : Book} (h12 : BookSub bk1 bk2)
    (h23 : BookSub bk2 bk3) : BookSub bk1 bk3 := by
  intro sd p m' h
  obtain ⟨m2, hm2, hid2, hp2, hs2⟩ := h12 sd p m' h
  obtain ⟨m3, hm3, hid3, hp3, hs3⟩ := h23 sd p m2 hm2
  exact ⟨m3, hm3, hid2.trans hid3, hp2.trans hp3, hs2.trans hs3⟩

theorem levelEraseId_subset (os : List Order) (oid : ℕ) :
    ∀ m ∈ levelEraseId os oid, m ∈ os := by
  induction os with
  | nil => simp [levelEraseId]
  | cons o rest ih =>
    intro m hm
    unfold levelEraseId at hm
    by_cases h : o.orderId = oid
    · rw [if_pos h] at hm
      exact List.mem_cons_of_mem o hm
    · rw [if_neg h] at hm
      rcases List.mem_cons.mp hm with h' | h'
      · exact h' ▸ List.mem_cons_self o rest
      · exact List.mem_cons_of_mem o (ih m h')

theorem levelSetId_mem (os : List Order) (x : Order) :
    ∀ m ∈ levelSetId os x, m = x ∨ m ∈ os := by
  induction os with
  | nil => simp [levelSetId]
  | cons o rest ih =>
    intro m hm
    unfold levelSetId at hm
    by_cases h : o.orderId = x.orderId
    · rw [if_pos h] at hm
      rcases List.mem_cons.mp hm with h' | h'
      · exact Or.inl h'
      · exact Or.inr (List.mem_cons_of_mem o h')
    · rw [if_neg h] at hm
      rcases List.mem_cons.mp hm with h' | h'
      · exact Or.inr (h' ▸ List.mem_cons_self o rest)
      · rcases ih m h' with h'' | h''
        · exact Or.inl h''
        · exact Or.inr (List.mem_cons_of_mem o h'')

theorem sideOf_setSide_same (bk : Book) (sd : Side) (side : List Level) :
    (bk.setSide sd side).sideOf sd = side := by
  cases sd <;> rfl

theorem sideOf_setSide_other (bk : Book) (sd sd' : Side) (side : List Level)
    (h : sd' ≠ sd) : (bk.setSide sd side).sideOf sd' = bk.sideOf sd' := by
  cases sd <;> cases sd' <;> first | rfl | exact absurd rfl h

theorem cleanup_sideOf_mem (bk : Book) (sd : Side) (p : ℚ) (os : List Order)
    (h : (p, os) ∈ bk.cleanupEmptyLevels.sideOf sd) : (p, os) ∈ bk.sideOf sd := by
  cases sd <;>
    exact List.mem_of_mem_filter h

theorem sideLookup_mem {side : List Level} {p : ℚ} {os : List Order}
    (h : sideLookup side p = some os) : (p, os) ∈ side := by
  induction side with
  | nil => simp [sideLookup, List.find?] at h
  | cons l rest ih =>
    simp only [sideLookup, List.find?] at h
    cases hd : decide (l.1 = p) with
    | true =>
      rw [hd] at h
      have hp1 : l.1 = p := of_decide_eq_true hd
      have h2 : l.2 = os := by simpa using h
      have hl : (p, os) = l := by rw [← hp1, ← h2]
      exact hl ▸ List.mem_cons_self l rest
    | false =>
      rw [hd] at h
      exact List.mem_cons_of_mem l (ih (show sideLookup rest p = some os from h))

theorem mem_map_level_const {side : List Level} {p p0 : ℚ} {os os' : List Order}
    (h : (p, os) ∈ side.map (fun l => if l.1 = p0 then (l.1, os') else l)) :
    (p = p0 ∧ os = os' ∧ ∃ os0, (p, os0) ∈ side) ∨ (p, os) ∈ side := by
  rcases List.mem_map.mp h with ⟨l, hl, hleq⟩
  by_cases hlp : l.1 = p0
  · rw [if_pos hlp] at hleq
    have h1 : l.1 = p := by
      have := congrArg Prod.fst hleq; simpa using this
    have h2 : os' = os := by
      have := congrArg Prod.snd hleq; simpa using this
    left
    exact ⟨h1 ▸ hlp, h2.symm, l.2, by rw [← h1]; exact hl⟩
  · rw [if_neg hlp] at hleq
    right
    exact hleq ▸ hl

theorem mem_map_levelSetId {side : List Level} {p p0 : ℚ} {os : List Order} {x : Order}
    (h : (p, os) ∈ side.map (fun l => if l.1 = p0 then (l.1, levelSetId l.2 x) else l)) :
    (p = p0 ∧ ∃ os0, (p, os0) ∈ side ∧ os = levelSetId os0 x) ∨ (p, os) ∈ side := by
  rcases List.mem_map.mp h with ⟨l, hl, hleq⟩
  by_cases hlp : l.1 = p0
  · rw [if_pos hlp] at hleq
    have h1 : l.1 = p := by
      have := congrArg Prod.fst hleq; simpa using this
    have h2 : levelSetId l.2 x = os := by
      have := congrArg Prod.snd hleq; simpa using this
    left
    exact ⟨h1 ▸ hlp, l.2, by rw [← h1]; exact hl, h2.symm⟩
  · rw [if_neg hlp] at hleq
    right
    exact hleq ▸ hl

/-- `_remove_from_price_level` only shrinks the book. -/
theorem removeFromPriceLevel_bookSub (bk : Book) (o : Order) :
    BookSub (bk.removeFromPriceLevel o) bk := by
  unfold Book.removeFromPriceLevel
  cases hp : o.price with
  | none => simp only [hp]; exact BookSub.refl bk
  | some p0 =>
    simp only [hp]
    cases hs : sideLookup (bk.sideOf o.side) p0 with
    | none => simp only [hs]; exact BookSub.refl bk
    | some os0 =>
      simp only [hs]
      intro sd p m' hm'
      have main : ∀ os, (p, os) ∈ (bk.setSide o.side
            ((bk.sideOf o.side).map
              (fun l => if l.1 = p0 then (l.1, levelEraseId os0 o.orderId) else l))).sideOf sd →
          m' ∈ os →
          ∃ m, InBook bk sd p m ∧ m'.orderId = m.orderId ∧ m'.price = m.price
            ∧ m'.side = m.side := by
        intro os hosmem hmem
        by_cases hsd : sd = o.side
        · subst hsd
          rw [sideOf_setSide_same] at hosmem
          rcases mem_map_level_const hosmem with ⟨hpp, hoseq, _⟩ | hos1
          · refine ⟨m', ⟨os0, ?_, ?_⟩, rfl, rfl, rfl⟩
            · rw [hpp]; exact sideLookup_mem hs
            · exact levelEraseId_subset os0 o.orderId m' (hoseq ▸ hmem)
          · exact ⟨m', ⟨os, hos1, hmem⟩, rfl, rfl, rfl⟩
        · rw [sideOf_setSide_other _ _ _ _ hsd] at hosmem
          exact ⟨m', ⟨os, hosmem, hmem⟩, rfl, rfl, rfl⟩
      by_cases he : (levelEraseId os0 o.orderId).isEmpty
      · rw [if_pos he] at hm'
        obtain ⟨os, hosmem, hmem⟩ := hm'
        exact main os (cleanup_sideOf_mem _ sd p os hosmem) hmem
      · rw [if_neg he] at hm'
        obtain ⟨os, hosmem, hmem⟩ := hm'
        exact main os hosmem hmem

theorem mem_of_head_some {α : Type} {l : List α} {a : α} (h : l.head? = some a) :
    a ∈ l := by
  cases l with
  | nil => simp at h
  | cons b t =>
    simp only [List.head?_cons, Option.some.injEq] at h
    exact h ▸ List.mem_cons_self b t

/-- The order/price-level coherence `OrderBook.add_order` establishes:
every order in a bid (ask) level carries `price = some` the level key
and side `buy` (`sell`). -/
def PriceSideWF (bk : Book) : Prop :=
  (∀ l ∈ bk.bids, ∀ m ∈ l.2, m.price = some l.1 ∧ m.side = Side.buy) ∧
  (∀ l ∈ bk.asks, ∀ m ∈ l.2, m.price = some l.1 ∧ m.side = Side.sell)

instance (bk : Book) : Decidable (PriceSideWF bk) := by
  unfold PriceSideWF
  exact inferInstance

theorem PriceSideWF.inBook {bk : Book} (h : PriceSideWF bk) {sd : Side} {p : ℚ} {m : Order}
    (hm : InBook bk sd p m) : m.price = some p ∧ m.side = sd := by
  obtain ⟨os, hos, hmm⟩ := hm
  cases sd
  · exact h.1 (p, os) hos m hmm
  · exact h.2 (p, os) hos m hmm

theorem sideOf_registerOrder (bk : Book) (o : Order) (sd : Side) :
    (bk.registerOrder o).sideOf sd = bk.sideOf sd := by
  cases sd <;> rfl

theorem bookSub_registerOrder (bk : Book) (o : Order) :
    BookSub (bk.registerOrder o) bk := by
  intro sd p m' hm'
  obtain ⟨os, hos, hm⟩ := hm'
  rw [sideOf_registerOrder] at hos
  exact ⟨m', ⟨os, hos, hm⟩, rfl, rfl, rfl⟩

/-- `remove_from_book_only` only shrinks the book. -/
theorem removeFromBookOnly_bookSub (bk : Book) (oid : ℕ) :
    BookSub (bk.removeFromBookOnly oid) bk := by
  unfold Book.removeFromBookOnly
  cases hr : regLookup bk.registry oid with
  | none => simp only [hr]; exact BookSub.refl bk
  | some od => simp only [hr]; exact removeFromPriceLevel_bookSub bk od

/-- The book component of `_execute_match`, unfolded. -/
theorem execMatch_book (tk mk : Order) (q p : ℚ) (bk : Book) (ax : Aux) :
    (execMatch tk mk q p bk ax).2.1
      = (if (mk.updateFill q).isFullyFilled then
           (bk.registerOrder (mk.updateFill q)).removeFromBookOnly mk.orderId
         else
           match mk.price with
           | none => bk.registerOrder (mk.updateFill q)
           | some p0 =>
             (bk.registerOrder (mk.updateFill q)).setSide mk.side
               (((bk.registerOrder (mk.updateFill q)).sideOf mk.side).map
                 (fun l => if l.1 = p0 then (l.1, levelSetId l.2 (mk.updateFill q)) else l))) :=
  rfl

/-- `_execute_match` only shrinks the book, provided the maker itself
descends from a resting order at its own price. -/
theorem execMatch_bookSub (tk mk : Order) (q p : ℚ) (bk : Book) (ax : Aux)
    (hmk : ∀ pm, mk.price = some pm →
      ∃ m, InBook bk mk.side pm m ∧ mk.orderId = m.orderId
        ∧ mk.price = m.price ∧ mk.side = m.side) :
    BookSub (execMatch tk mk q p bk ax).2.1 bk := by
  rw [execMatch_book]
  by_cases hff : (mk.updateFill q).isFullyFilled = true
  · rw [if_pos hff]
    exact BookSub.trans (removeFromBookOnly_bookSub _ _) (bookSub_registerOrder _ _)
  · rw [if_neg (by simp [hff])]
    cases hp : mk.price with
    | none => simp only [hp]; exact bookSub_registerOrder _ _
    | some p0 =>
      simp only [hp]
      intro sd pv m' hm'
      obtain ⟨os, hos, hm⟩ := hm'
      by_cases hsd : sd = mk.side
      · subst hsd
        rw [sideOf_setSide_same] at hos
        rcases mem_map_levelSetId hos with ⟨hpv, os0a, hos0a, hoseq⟩ | huntouched
        · rcases levelSetId_mem os0a (mk.updateFill q) m' (hoseq ▸ hm) with hmm | hmm
          · subst hmm
            obtain ⟨m, hmIn, hid, hpr, hsd2⟩ := hmk p0 hp
            refine ⟨m, ?_, ?_, ?_, ?_⟩
            · rw [hpv]; exact hmIn
            · rw [updateFill_orderId]; exact hid
            · rw [updateFill_price]; exact hpr
            · rw [updateFill_side]; exact hsd2
          · rw [sideOf_registerOrder] at hos0a
            exact ⟨m', ⟨os0a, hos0a, hmm⟩, rfl, rfl, rfl⟩
        · rw [sideOf_registerOrder] at huntouched
          exact ⟨m', ⟨os, huntouched, hm⟩, rfl, rfl, rfl⟩
      · rw [sideOf_setSide_other _ _ _ _ hsd, sideOf_registerOrder] at hos
        exact ⟨m', ⟨os, hos, hm⟩, rfl, rfl, rfl⟩

/-- The level loop of `_fill_against_book` keeps the book a
sub-book of any well-formed origin book, and every emitted trade is
priced at the level key and matched against a maker descending from an
origin-book resting order at exactly that price. -/
theorem fillLevelFuel_c2 (bk0 : Book) (hwf : PriceSideWF bk0) :
    ∀ (fuel : ℕ) (tk : Order) (p : ℚ) (bk : Book) (ax : Aux),
    BookSub bk bk0 →
    BookSub (fillLevelFuel fuel tk p bk ax).2.1 bk0
    ∧ ∀ t ∈ (fillLevelFuel fuel tk p bk ax).2.2.2,
        t.price = p
        ∧ ∃ m, InBook bk0 (consumedSide tk.side) p m
            ∧ m.orderId = t.makerOrderId ∧ m.price = some p := by
  intro fuel
  induction fuel with
  | zero =>
    intro tk p bk ax hsub
    rw [fillLevelFuel_zero]
    exact ⟨hsub, by simp⟩
  | succ fuel ih =>
    intro tk p bk ax hsub
    cases hs : sideLookup (bk.sideOf (consumedSide tk.side)) p with
    | none =>
      rw [fillLevelFuel_none fuel tk p bk ax hs]
      exact ⟨hsub, by simp⟩
    | some os =>
      by_cases hg : os.isEmpty = true ∨ tk.isFullyFilled = true
      · rw [fillLevelFuel_exit fuel tk p bk ax os hs hg]
        exact ⟨hsub, by simp⟩
      · push_neg at hg
        cases hhd : os.head? with
        | none =>
          exact absurd (List.isEmpty_iff.mpr (List.head?_eq_none_iff.mp hhd))
            (by simpa using hg.1)
        | some mk =>
          rw [fillLevelFuel_step fuel tk p bk ax os mk hs
            (by simpa using hg.1) (by simpa using hg.2) hhd]
          set q := min tk.remaining mk.remaining with hq
          set r := execMatch tk mk q p bk ax with hr
          have hmkIn : InBook bk (consumedSide tk.side) p mk :=
            ⟨os, sideLookup_mem hs, mem_of_head_some hhd⟩
          obtain ⟨m0, hm0In, hid0, hpr0, hsd0⟩ := hsub _ p mk hmkIn
          obtain ⟨hm0p, hm0s⟩ := hwf.inBook hm0In
          have hmkp : mk.price = some p := by rw [hpr0, hm0p]
          have hmks : mk.side = consumedSide tk.side := by rw [hsd0, hm0s]
          have hstep : BookSub r.2.1 bk := by
            rw [hr]
            refine execMatch_bookSub tk mk q p bk ax ?_
            intro pm hpm
            have hpm2 : p = pm := by
              rw [hmkp] at hpm
              exact Option.some_injective ℚ hpm
            subst hpm2
            exact ⟨mk, by rw [hmks]; exact hmkIn, rfl, rfl, rfl⟩
          have hsub2 : BookSub r.2.1 bk0 := BookSub.trans hstep hsub
          obtain ⟨ihS, ihT⟩ := ih r.1 p r.2.1 r.2.2.1 hsub2
          have hrt : r.1 = tk.updateFill q := by rw [hr, execMatch_eq]
          have hrtr : r.2.2.2
              = Trade.mk ax.nextTradeId tk.symbol p q tk.side mk.orderId tk.orderId := by
            rw [hr, execMatch_eq]
          refine ⟨ihS, ?_⟩
          intro t ht
          rcases List.mem_cons.mp ht with h | h
          · subst h
            rw [hrtr]
            exact ⟨rfl, m0, hm0In, hid0.symm, hm0p⟩
          · have := ihT t h
            rw [hrt, updateFill_side] at this
            exact this

theorem limitStop_congr (tk tk2 : Order) (lp : Option ℚ) (x : ℚ)
    (h : tk2.side = tk.side) : limitStop tk2 lp x = limitStop tk lp x := by
  unfold limitStop Order.isBuy
  rw [h]

/-- The price walk of `_fill_against_book`: sub-book preservation plus,
for every emitted trade, the limit-price guard and the origin maker. -/
theorem fillPrices_c2 (bk0 : Book) (hwf : PriceSideWF bk0) :
    ∀ (ps : List ℚ) (tk : Order) (lp : Option ℚ) (bk : Book) (ax : Aux),
    BookSub bk bk0 →
    BookSub (fillPrices ps tk lp bk ax).2.1 bk0
    ∧ ∀ t ∈ (fillPrices ps tk lp bk ax).2.2.2,
        limitStop tk lp t.price = false
        ∧ ∃ m, InBook bk0 (consumedSide tk.side) t.price m
            ∧ m.orderId = t.makerOrderId ∧ m.price = some t.price := by
  intro ps
  induction ps with
  | nil =>
    intro tk lp bk ax hsub
    rw [fillPrices_nil]
    exact ⟨hsub, by simp⟩
  | cons p ps ih =>
    intro tk lp bk ax hsub
    by_cases hf : tk.isFullyFilled = true
    · rw [fillPrices_filled p ps tk lp bk ax hf]
      exact ⟨hsub, by simp⟩
    · replace hf : tk.isFullyFilled = false := by simpa using hf
      by_cases hstop : limitStop tk lp p = true
      · rw [fillPrices_stop p ps tk lp bk ax hf hstop]
        exact ⟨hsub, by simp⟩
      · replace hstop : limitStop tk lp p = false := by simpa using hstop
        cases hs : sideLookup (bk.sideOf (consumedSide tk.side)) p with
        | none =>
          rw [fillPrices_skip p ps tk lp bk ax hf hstop hs]
          exact ih tk lp bk ax hsub
        | some os =>
          rw [fillPrices_step p ps tk lp bk ax os hf hstop hs]
          obtain ⟨hlS, hlT⟩ := fillLevelFuel_c2 bk0 hwf (os.length + 1) tk p bk ax hsub
          obtain ⟨hl1, -, -⟩ := fillLevelFuel_spec (os.length + 1) tk p bk ax
          set r := fillLevelFuel (os.length + 1) tk p bk ax with hr
          have hside : r.1.side = tk.side := by rw [hl1, applyFills_side]
          obtain ⟨ihS, ihT⟩ := ih r.1 lp r.2.1 r.2.2.1 hlS
          refine ⟨ihS, ?_⟩
          intro t ht
          rcases List.mem_append.mp ht with h | h
          · obtain ⟨htp, hex⟩ := hlT t h
            rw [htp]
            exact ⟨hstop, hex⟩
          · obtain ⟨hls, hex⟩ := ihT t h
            rw [limitStop_congr tk r.1 lp t.price hside] at hls
            rw [hside] at hex
            exact ⟨hls, hex⟩

/-- `_fill_against_book` over a well-formed book: every trade clears
the limit guard and hits a maker resting at exactly the trade price. -/
theorem fillAgainstBook_c2 (tk : Order) (bk : Book) (ax : Aux) (lp : Option ℚ)
    (hwf : PriceSideWF bk) :
    ∀ t ∈ (fillAgainstBook tk bk ax lp).2.2.2,
      limitStop tk lp t.price = false
      ∧ ∃ m, InBook bk (consumedSide tk.side) t.price m
          ∧ m.orderId = t.makerOrderId ∧ m.price = some t.price :=
  (fillPrices_c2 bk hwf _ tk lp bk ax (BookSub.refl bk)).2

theorem fokScanLevel_mem (os : List Order) :
    ∀ (rem : ℚ) (plan : List (Order × ℚ)),
    ∀ e ∈ (fokScanLevel os rem plan).2, e ∈ plan ∨ e.1 ∈ os := by
  induction os with
  | nil => intro rem plan e he; exact Or.inl he
  | cons mk rest ih =>
    intro rem plan e he
    simp only [fokScanLevel] at he
    by_cases hz : rem = 0
    · rw [if_pos hz] at he; exact Or.inl he
    · rw [if_neg hz] at he
      rcases ih _ _ e he with h | h
      · rcases List.mem_append.mp h with h2 | h2
        · exact Or.inl h2
        · have h3 : e = (mk, min rem mk.remaining) := List.mem_singleton.mp h2
          right
          rw [h3]
          exact List.mem_cons_self mk rest
      · exact Or.inr (List.mem_cons_of_mem mk h)

theorem fokScanPrices_mem (bk : Book) (o : Order) :
    ∀ (prices : List ℚ) (rem : ℚ) (plan : List (Order × ℚ)),
    ∀ e ∈ (fokScanPrices prices o rem plan bk).2,
      e ∈ plan ∨ ∃ pl, limitStop o o.price pl = false
        ∧ InBook bk (consumedSide o.side) pl e.1 := by
  intro prices
  induction prices with
  | nil => intro rem plan e he; exact Or.inl he
  | cons p rest ih =>
    intro rem plan e he
    simp only [fokScanPrices] at he
    by_cases hz : rem = 0
    · rw [if_pos hz] at he; exact Or.inl he
    · rw [if_neg hz] at he
      by_cases hstop : limitStop o o.price p = true
      · rw [if_pos hstop] at he; exact Or.inl he
      · rw [if_neg hstop] at he
        cases hs : sideLookup (bk.sideOf (consumedSide o.side)) p with
        | none =>
          simp only [hs] at he
          exact ih _ _ e he
        | some os =>
          simp only [hs] at he
          rcases ih _ _ e he with h | h
          · rcases fokScanLevel_mem os _ _ e h with h2 | h2
            · exact Or.inl h2
            · exact Or.inr ⟨p, by simpa using hstop,
                ⟨os, sideLookup_mem hs, h2⟩⟩
          · exact Or.inr h

theorem checkCanFillFok_mem (o : Order) (bk : Book) :
    ∀ e ∈ (checkCanFillFok o bk).2,
      ∃ pl, limitStop o o.price pl = false
        ∧ InBook bk (consumedSide o.side) pl e.1 := by
  intro e he
  simp only [checkCanFillFok] at he
  by_cases hz : (fokScanPrices ((bk.sideOf (consumedSide o.side)).map Prod.fst)
      o o.quantity [] bk).1 = 0
  · rw [if_pos hz] at he
    rcases fokScanPrices_mem bk o _ _ _ e he with h | h
    · simp at h
    · exact h
  · rw [if_neg hz] at he
    simp at he

theorem fokExecPlan_trades :
    ∀ (plan : List (Order × ℚ)) (tk : Order) (bk : Book) (ax : Aux),
    ∀ t ∈ (fokExecPlan plan tk bk ax).2.2.2,
      ∃ e, e ∈ plan ∧ t.price = e.1.price.getD 0 ∧ t.makerOrderId = e.1.orderId := by
  intro plan
  induction plan with
  | nil => intro tk bk ax t ht; simp [fokExecPlan] at ht
  | cons pe rest ih =>
    intro tk bk ax t ht
    obtain ⟨mk, fq⟩ := pe
    simp only [fokExecPlan] at ht
    rcases List.mem_cons.mp ht with h | h
    · have h4 : (execMatch tk mk fq (mk.price.getD 0) bk ax).2.2.2
          = Trade.mk ax.nextTradeId tk.symbol (mk.price.getD 0) fq tk.side
              mk.orderId tk.orderId := by
        rw [execMatch_eq]
      rw [h, h4]
      exact ⟨(mk, fq), List.mem_cons_self _ _, rfl, rfl⟩
    · obtain ⟨e, hemem, hp1, hp2⟩ := ih _ _ _ t h
      exact ⟨e, List.mem_cons_of_mem _ hemem, hp1, hp2⟩

/-- `_process_market_order` trades come from makers resting at the
trade price in the pre-submission book. -/
theorem processMarketOrder_c2 (o : Order) (bk : Book) (ax : Aux)
    (bk' : Book) (ax' : Aux) (o' : Order) (trades : List Trade)
    (h : processMarketOrder o bk ax = .ok (bk', ax', o', trades))
    (hwf : PriceSideWF bk) :
    ∀ t ∈ trades,
      ∃ m, InBook bk (consumedSide o.side) t.price m
        ∧ m.orderId = t.makerOrderId ∧ m.price = some t.price := by
  unfold processMarketOrder at h
  simp only [Except.ok.injEq, Prod.mk.injEq] at h
  obtain ⟨-, -, -, htr⟩ := h
  subst htr
  intro t ht
  exact (fillAgainstBook_c2 o bk ax none hwf t ht).2

/-- `_process_ioc_order` trades clear the limit guard and come from
makers resting at the trade price. -/
theorem processIocOrder_c2 (o : Order) (bk : Book) (ax : Aux)
    (bk' : Book) (ax' : Aux) (o' : Order) (trades : List Trade)
    (h : processIocOrder o bk ax = .ok (bk', ax', o', trades))
    (hwf : PriceSideWF bk) :
    ∀ t ∈ trades,
      limitStop o o.price t.price = false
      ∧ ∃ m, InBook bk (consumedSide o.side) t.price m
          ∧ m.orderId = t.makerOrderId ∧ m.price = some t.price := by
  unfold processIocOrder at h
  simp only [Except.ok.injEq, Prod.mk.injEq] at h
  obtain ⟨-, -, -, htr⟩ := h
  subst htr
  intro t ht
  exact fillAgainstBook_c2 o bk ax o.price hwf t ht

/-- `_process_limit_order` trades clear the limit guard and come from
makers resting at the trade price. -/
theorem processLimitOrder_c2 (o : Order) (bk : Book) (ax : Aux)
    (bk' : Book) (ax' : Aux) (o' : Order) (trades : List Trade)
    (h : processLimitOrder o bk ax = .ok (bk', ax', o', trades))
    (hwf : PriceSideWF bk) :
    ∀ t ∈ trades,
      limitStop o o.price t.price = false
      ∧ ∃ m, InBook bk (consumedSide o.side) t.price m
          ∧ m.orderId = t.makerOrderId ∧ m.price = some t.price := by
  unfold processLimitOrder at h
  by_cases hp : o.price = none
  · rw [if_pos hp] at h; cases h
  · rw [if_neg hp] at h
    have hfact : ∀ t ∈ (if isMarketable o bk then fillAgainstBook o bk ax o.price
          else (o, bk, ax, ([] : List Trade))).2.2.2,
        limitStop o o.price t.price = false
        ∧ ∃ m, InBook bk (consumedSide o.side) t.price m
            ∧ m.orderId = t.makerOrderId ∧ m.price = some t.price := by
      split
      · exact fillAgainstBook_c2 o bk ax o.price hwf
      · simp
    set f := (if isMarketable o bk then fillAgainstBook o bk ax o.price
          else (o, bk, ax, ([] : List Trade))) with hf
    by_cases hful : f.1.isFullyFilled = true
    · rw [if_neg (by simp [hful])] at h
      simp only [Except.ok.injEq, Prod.mk.injEq] at h
      obtain ⟨-, -, -, htr⟩ := h
      subst htr
      exact hfact
    · rw [if_pos (by simpa using hful)] at h
      cases ha : Book.addOrder f.2.1
          ({ f.1 with status := if f.2.2.2.isEmpty then OrderStatus.pending
                       else OrderStatus.partiallyFilled } : Order) with
      | error er => rw [ha] at h; cases h
      | ok bk2 =>
        rw [ha] at h
        simp only [Except.ok.injEq, Prod.mk.injEq] at h
        obtain ⟨-, -, -, htr⟩ := h
        subst htr
        exact hfact

/-- `_process_fok_order` trades clear the FOK limit guard and come
from makers resting at the trade price. -/
theorem processFokOrder_c2 (o : Order) (bk : Book) (ax : Aux)
    (bk' : Book) (ax' : Aux) (o' : Order) (trades : List Trade)
    (h : processFokOrder o bk ax = .ok (bk', ax', o', trades))
    (hwf : PriceSideWF bk) :
    ∀ t ∈ trades,
      limitStop o o.price t.price = false
      ∧ ∃ m, InBook bk (consumedSide o.side) t.price m
          ∧ m.orderId = t.makerOrderId ∧ m.price = some t.price := by
  unfold processFokOrder at h
  by_cases hcan : (checkCanFillFok o (bk.registerOrder o)).1 = true
  · rw [if_neg (by simp [hcan])] at h
    simp only [Except.ok.injEq, Prod.mk.injEq] at h
    obtain ⟨-, -, -, htr⟩ := h
    subst htr
    intro t ht
    obtain ⟨ep, hemem, htp, hmid⟩ := fokExecPlan_trades _ _ _ _ t ht
    obtain ⟨pl, hstop, hIn⟩ := checkCanFillFok_mem o (bk.registerOrder o) ep hemem
    have hIn0 : InBook bk (consumedSide o.side) pl ep.1 := by
      obtain ⟨os, hos, hm⟩ := hIn
      rw [sideOf_registerOrder] at hos
      exact ⟨os, hos, hm⟩
    obtain ⟨hep, -⟩ := hwf.inBook hIn0
    have htp2 : t.price = pl := by rw [htp, hep]; rfl
    refine ⟨?_, ep.1, ?_, hmid.symm, ?_⟩
    · rw [htp2]; exact hstop
    · rw [htp2]; exact hIn0
    · rw [htp2]; exact hep
  · rw [if_pos (by simpa using hcan)] at h
    simp only [Except.ok.injEq, Prod.mk.injEq] at h
    obtain ⟨-, -, -, htr⟩ := h
    subst htr
    intro t ht
    simp at ht

theorem limitStop_false_bound (o : Order) (L x : ℚ)
    (hs : limitStop o (some L) x = false) :
    (o.side = Side.buy → x ≤ L) ∧ (o.side = Side.sell → L ≤ x) := by
  unfold limitStop Order.isBuy at hs
  cases hsd : o.side with
  | buy =>
    rw [hsd] at hs
    simp only [decide_eq_true_eq, if_true, decide_eq_false_iff_not, not_lt] at hs
    refine ⟨fun _ => hs, fun h2 => ?_⟩
    simp at h2
  | sell =>
    rw [hsd] at hs
    simp only [decide_eq_true_eq, decide_eq_false_iff_not, not_lt] at hs
    rw [if_neg (by simp)] at hs
    refine ⟨fun h2 => ?_, fun _ => ?_⟩
    · simp at h2
    · exact le_of_not_lt (by simpa using hs)

/-- C2: for every trade emitted by a successful submission into a
well-formed book (orders rest at the level keyed by their own price,
on their own side — the invariant `add_order` establishes), the
execution price is the price at which the matched maker was resting:
a maker with the trade's `maker_order_id` rested at exactly
`trade.price` in the pre-submission book.  Moreover for a Limit, IOC
or FOK taker with limit price `L`, every trade satisfies
`trade.price ≤ L` when the taker buys and `trade.price ≥ L` when it
sells. -/
theorem c2_trade_price_bound (e : Engine) (o : Order) (e' : Engine) (r : OrderResult)
    (h : submitOrder e o = .ok e' r)
    (hwf : PriceSideWF (bookAt e o.symbol)) :
    ∀ t ∈ r.trades,
      (∃ m, InBook (bookAt e o.symbol) (consumedSide o.side) t.price m
        ∧ m.orderId = t.makerOrderId ∧ m.price = some t.price)
      ∧ (∀ L, o.price = some L →
          (o.otype = OrderType.limit ∨ o.otype = OrderType.ioc
            ∨ o.otype = OrderType.fok) →
          (o.side = Side.buy → t.price ≤ L) ∧ (o.side = Side.sell → L ≤ t.price)) := by
  unfold submitOrder at h
  cases hv : validateOrder o with
  | error er => rw [hv] at h; cases h
  | ok u =>
    cases u
    rw [hv, getD_booksWith] at h
    cases hpr : submitDispatch o (bookAt e o.symbol) e.aux with
    | error t =>
      rw [hpr] at h
      obtain ⟨er2, bk2, ax2⟩ := t
      simp [submitFinish] at h
    | ok t =>
      obtain ⟨bk', ax', o', trades⟩ := t
      rw [hpr] at h
      simp only [submitFinish, Outcome.ok.injEq] at h
      obtain ⟨-, hr⟩ := h
      have htrades : r.trades = trades := by rw [← hr]
      rw [htrades]
      unfold submitDispatch at hpr
      intro t ht
      cases hot : o.otype with
      | market =>
        rw [hot] at hpr
        refine ⟨processMarketOrder_c2 _ _ _ _ _ _ _ hpr hwf t ht, ?_⟩
        intro L hL hty
        rcases hty with h1 | h1 | h1 <;> cases h1
      | limit =>
        rw [hot] at hpr
        obtain ⟨hls, hex⟩ := processLimitOrder_c2 _ _ _ _ _ _ _ hpr hwf t ht
        refine ⟨hex, ?_⟩
        intro L hL hty
        rw [hL] at hls
        exact limitStop_false_bound o L t.price hls
      | ioc =>
        rw [hot] at hpr
        obtain ⟨hls, hex⟩ := processIocOrder_c2 _ _ _ _ _ _ _ hpr hwf t ht
        refine ⟨hex, ?_⟩
        intro L hL hty
        rw [hL] at hls
        exact limitStop_false_bound o L t.price hls
      | fok =>
        rw [hot] at hpr
        obtain ⟨hls, hex⟩ := processFokOrder_c2 _ _ _ _ _ _ _ hpr hwf t ht
        refine ⟨hex, ?_⟩
        intro L hL hty
        rw [hL] at hls
        exact limitStop_false_bound o L t.price hls

/-- C2 witness: a marketable limit buy `1 @ 50000` against the resting
ask `1 @ 50000` of `engRest`; its one trade executes at the maker's
resting price, within the taker's limit. -/
def c2hit : Trade :=
  { tradeId := 0, symbol := "BTC-USDT", price := 50000, quantity := 1
    aggressorSide := Side.buy, makerOrderId := 1, takerOrderId := 2 }

theorem c2_trade_price_bound_witness :
    (∃ m, InBook (bookAt engRest "BTC-USDT") (consumedSide Side.buy) c2hit.price m
        ∧ m.orderId = c2hit.makerOrderId ∧ m.price = some c2hit.price)
    ∧ c2hit.price ≤ (50000 : ℚ) := by
  have h := c2_trade_price_bound engRest (mkOrder 2 .limit .buy 1 (some 50000))
    (submitOrder engRest (mkOrder 2 .limit .buy 1 (some 50000))).state
    (okResult (submitOrder engRest (mkOrder 2 .limit .buy 1 (some 50000))))
    (by decide) (by decide) c2hit (by decide)
  exact ⟨h.1, ((h.2 50000 rfl (Or.inl rfl)).1 rfl)⟩

/-! ## C8 — price-time priority

The fill walk visits levels in book order and consumes each level
head-first, so the makers hit by one submission form a prefix of the
side's priority flattening (levels in order, orders in deque order).
`SideWF` is the shape `add_order`/`_cleanup_empty_levels` maintain on
one side: distinct level keys, no empty level, and every order keyed
by its own price on its own side. -/

def SideWF (sd : Side) (side : List Level) : Prop :=
  (side.map Prod.fst).Nodup
  ∧ (∀ l ∈ side, l.2 ≠ [])
  ∧ (∀ l ∈ side, ∀ m ∈ l.2,
      m.price = some l.1 ∧ m.side = sd ∧ qadd m.filled m.remaining = m.quantity)

instance (sd : Side) (side : List Level) : Decidable (SideWF sd side) := by
  unfold SideWF
  exact inferInstance

/-- The priority flattening of a side: levels in book order, each
level's orders in deque (arrival) order. -/
def sideOrders : List Level → List Order
  | [] => []
  | l :: rest => l.2 ++ sideOrders rest

/-- The orders a price walk over `ps` would visit in a fixed book
side. -/
def ordersAlong (side0 : List Level) : List ℚ → List Order
  | [] => []
  | p :: rest =>
    (match sideLookup side0 p with
     | some os => os
     | none => []) ++ ordersAlong side0 rest

theorem sideLookup_cons (l : Level) (ls : List Level) (p : ℚ) :
    sideLookup (l :: ls) p = if l.1 = p then some l.2 else sideLookup ls p := by
  simp only [sideLookup, List.find?]
  cases hd : decide (l.1 = p) with
  | true =>
    simp only [hd]
    rw [if_pos (of_decide_eq_true hd)]
    rfl
  | false =>
    simp only [hd]
    rw [if_neg (of_decide_eq_false hd)]

theorem sideLookup_eq_none (side : List Level) (p : ℚ)
    (h : ∀ l ∈ side, l.1 ≠ p) : sideLookup side p = none := by
  induction side with
  | nil => rfl
  | cons l ls ih =>
    rw [sideLookup_cons, if_neg (h l (List.mem_cons_self l ls))]
    exact ih fun l2 h2 => h l2 (List.mem_cons_of_mem l h2)

theorem sideLookup_setId_self (side : List Level) (p : ℚ) (os0 : List Order) (x : Order)
    (h : sideLookup side p = some os0) :
    sideLookup (side.map (fun l => if l.1 = p then (l.1, levelSetId l.2 x) else l)) p
      = some (levelSetId os0 x) := by
  induction side with
  | nil => simp [sideLookup] at h
  | cons l ls ih =>
    rw [sideLookup_cons] at h
    by_cases hk : l.1 = p
    · rw [if_pos hk] at h
      simp only [List.map_cons, if_pos hk]
      rw [sideLookup_cons, if_pos hk]
      rw [Option.some.injEq] at h
      rw [h]
    · rw [if_neg hk] at h
      simp only [List.map_cons, if_neg hk]
      rw [sideLookup_cons, if_neg hk]
      exact ih h

theorem sideLookup_setId_other (side : List Level) (p p' : ℚ) (x : Order)
    (hne : p' ≠ p) :
    sideLookup (side.map (fun l => if l.1 = p then (l.1, levelSetId l.2 x) else l)) p'
      = sideLookup side p' := by
  induction side with
  | nil => rfl
  | cons l ls ih =>
    by_cases hk : l.1 = p
    · simp only [List.map_cons, if_pos hk]
      rw [sideLookup_cons, sideLookup_cons]
      rw [if_neg (by rw [hk]; exact fun h2 => hne h2.symm),
        if_neg (by rw [hk]; exact fun h2 => hne h2.symm)]
      exact ih
    · simp only [List.map_cons, if_neg hk]
      rw [sideLookup_cons, sideLookup_cons]
      by_cases hk2 : l.1 = p'
      · rw [if_pos hk2, if_pos hk2]
      · rw [if_neg hk2, if_neg hk2]
        exact ih

theorem sideLookup_const_self (side : List Level) (p : ℚ) (os0 os' : List Order)
    (h : sideLookup side p = some os0) :
    sideLookup (side.map (fun l => if l.1 = p then (l.1, os') else l)) p
      = some os' := by
  induction side with
  | nil => simp [sideLookup] at h
  | cons l ls ih =>
    rw [sideLookup_cons] at h
    by_cases hk : l.1 = p
    · simp only [List.map_cons, if_pos hk]
      rw [sideLookup_cons, if_pos hk]
    · rw [if_neg hk] at h
      simp only [List.map_cons, if_neg hk]
      rw [sideLookup_cons, if_neg hk]
      exact ih h

theorem sideLookup_const_other (side : List Level) (p p' : ℚ) (os' : List Order)
    (hne : p' ≠ p) :
    sideLookup (side.map (fun l => if l.1 = p then (l.1, os') else l)) p'
      = sideLookup side p' := by
  induction side with
  | nil => rfl
  | cons l ls ih =>
    by_cases hk : l.1 = p
    · simp only [List.map_cons, if_pos hk]
      rw [sideLookup_cons, sideLookup_cons]
      rw [if_neg (by rw [hk]; exact fun h2 => hne h2.symm),
        if_neg (by rw [hk]; exact fun h2 => hne h2.symm)]
      exact ih
    · simp only [List.map_cons, if_neg hk]
      rw [sideLookup_cons, sideLookup_cons]
      by_cases hk2 : l.1 = p'
      · rw [if_pos hk2, if_pos hk2]
      · rw [if_neg hk2, if_neg hk2]
        exact ih

theorem sideLookup_filter_keep (side : List Level) (p' : ℚ)
    (h : ∀ os, sideLookup side p' = some os → os ≠ []) :
    sideLookup (side.filter (fun l => ¬ l.2.isEmpty)) p' = sideLookup side p' := by
  induction side with
  | nil => rfl
  | cons l ls ih =>
    rw [List.filter_cons]
    by_cases hk : l.1 = p'
    · have hos : l.2 ≠ [] := h l.2 (by rw [sideLookup_cons, if_pos hk])
      rw [if_pos (by simpa using hos)]
      rw [sideLookup_cons, sideLookup_cons, if_pos hk, if_pos hk]
    · by_cases he : l.2.isEmpty = true
      · rw [if_neg (by simp [he])]
        rw [sideLookup_cons, if_neg hk]
        exact ih fun os hos => h os (by rw [sideLookup_cons, if_neg hk]; exact hos)
      · rw [if_pos (by simpa using he)]
        rw [sideLookup_cons, sideLookup_cons, if_neg hk, if_neg hk]
        exact ih fun os hos => h os (by rw [sideLookup_cons, if_neg hk]; exact hos)

theorem sideLookup_filter_drop (side : List Level) (p : ℚ)
    (hnodup : (side.map Prod.fst).Nodup)
    (h : sideLookup side p = some []) :
    sideLookup (side.filter (fun l => ¬ l.2.isEmpty)) p = none := by
  induction side with
  | nil => simp [sideLookup] at h
  | cons l ls ih =>
    rw [List.map_cons, List.nodup_cons] at hnodup
    rw [sideLookup_cons] at h
    rw [List.filter_cons]
    by_cases hk : l.1 = p
    · rw [if_pos hk, Option.some.injEq] at h
      rw [if_neg (by simp [← h])]
      refine sideLookup_eq_none _ p fun l2 h2 hkey => ?_
      have h3 : l2 ∈ ls := List.mem_of_mem_filter h2
      exact hnodup.1 (by rw [hk, ← hkey]; exact List.mem_map_of_mem Prod.fst h3)
    · rw [if_neg hk] at h
      by_cases he : l.2.isEmpty = true
      · rw [if_neg (by simp [he])]
        exact ih hnodup.2 h
      · rw [if_pos (by simpa using he)]
        rw [sideLookup_cons, if_neg hk]
        exact ih hnodup.2 h

theorem eq_cons_of_head {α : Type} {l : List α} {a : α} (h : l.head? = some a) :
    l = a :: l.tail := by
  cases l with
  | nil => simp at h
  | cons b t =>
    simp only [List.head?_cons, Option.some.injEq] at h
    subst h
    rfl

theorem levelEraseId_head (mk : Order) (tail : List Order) :
    levelEraseId (mk :: tail) mk.orderId = tail := by
  simp [levelEraseId]

theorem levelSetId_head (mk : Order) (tail : List Order) (q : ℚ) :
    levelSetId (mk :: tail) (mk.updateFill q) = mk.updateFill q :: tail := by
  simp [levelSetId, updateFill_orderId]

theorem levelSetId_ne_nil (os : List Order) (x : Order) (h : os ≠ []) :
    levelSetId os x ≠ [] := by
  cases os with
  | nil => exact absurd rfl h
  | cons o rest =>
    unfold levelSetId
    by_cases hk : o.orderId = x.orderId
    · rw [if_pos hk]; exact List.cons_ne_nil _ _
    · rw [if_neg hk]; exact List.cons_ne_nil _ _

theorem keys_map_const (side : List Level) (p : ℚ) (os' : List Order) :
    (side.map (fun l => if l.1 = p then (l.1, os') else l)).map Prod.fst
      = side.map Prod.fst := by
  induction side with
  | nil => rfl
  | cons l ls ih =>
    simp only [List.map_cons]
    by_cases hk : l.1 = p
    · rw [if_pos hk, ih]
    · rw [if_neg hk, ih]

theorem keys_map_setId (side : List Level) (p : ℚ) (x : Order) :
    (side.map (fun l => if l.1 = p then (l.1, levelSetId l.2 x) else l)).map Prod.fst
      = side.map Prod.fst := by
  induction side with
  | nil => rfl
  | cons l ls ih =>
    simp only [List.map_cons]
    by_cases hk : l.1 = p
    · rw [if_pos hk, ih]
    · rw [if_neg hk, ih]

theorem sideWF_update_const (sd : Side) (side : List Level) (p : ℚ)
    (os os' : List Order) (hwf : SideWF sd side)
    (hlev : sideLookup side p = some os)
    (hne : os' ≠ []) (hsub : ∀ m ∈ os', m ∈ os) :
    SideWF sd (side.map (fun l => if l.1 = p then (l.1, os') else l)) := by
  refine ⟨by rw [keys_map_const]; exact hwf.1, ?_, ?_⟩
  · intro l hl
    rcases List.mem_map.mp hl with ⟨l0, hl0, hleq⟩
    by_cases hk : l0.1 = p
    · rw [if_pos hk] at hleq
      rw [← hleq]
      exact hne
    · rw [if_neg hk] at hleq
      rw [← hleq]
      exact hwf.2.1 l0 hl0
  · intro l hl m hm
    rcases List.mem_map.mp hl with ⟨l0, hl0, hleq⟩
    by_cases hk : l0.1 = p
    · rw [if_pos hk] at hleq
      rw [← hleq] at hm ⊢
      have hmos := hwf.2.2 (p, os) (sideLookup_mem hlev) m (hsub m hm)
      exact ⟨by rw [show ((l0.1, os') : Level).1 = p from hk]; exact hmos.1,
        hmos.2.1, hmos.2.2⟩
    · rw [if_neg hk] at hleq
      rw [← hleq] at hm ⊢
      exact hwf.2.2 l0 hl0 m hm

theorem sideWF_update_setId (sd : Side) (side : List Level) (p : ℚ) (x : Order)
    (hwf : SideWF sd side) (hxp : x.price = some p) (hxs : x.side = sd)
    (hxinv : qadd x.filled x.remaining = x.quantity) :
    SideWF sd (side.map (fun l => if l.1 = p then (l.1, levelSetId l.2 x) else l)) := by
  refine ⟨by rw [keys_map_setId]; exact hwf.1, ?_, ?_⟩
  · intro l hl
    rcases List.mem_map.mp hl with ⟨l0, hl0, hleq⟩
    by_cases hk : l0.1 = p
    · rw [if_pos hk] at hleq
      rw [← hleq]
      exact levelSetId_ne_nil _ _ (hwf.2.1 l0 hl0)
    · rw [if_neg hk] at hleq
      rw [← hleq]
      exact hwf.2.1 l0 hl0
  · intro l hl m hm
    rcases List.mem_map.mp hl with ⟨l0, hl0, hleq⟩
    by_cases hk : l0.1 = p
    · rw [if_pos hk] at hleq
      rw [← hleq] at hm ⊢
      rcases levelSetId_mem l0.2 x m hm with hmx | hmos
      · rw [hmx]
        exact ⟨by rw [show ((l0.1, levelSetId l0.2 x) : Level).1 = p from hk]; exact hxp,
          hxs, hxinv⟩
      · exact hwf.2.2 l0 hl0 m hmos
    · rw [if_neg hk] at hleq
      rw [← hleq] at hm ⊢
      exact hwf.2.2 l0 hl0 m hm

theorem sideWF_filter (sd : Side) (side : List Level) (hwf : SideWF sd side) :
    SideWF sd (side.filter (fun l => ¬ l.2.isEmpty)) := by
  refine ⟨?_, ?_, ?_⟩
  · exact hwf.1.sublist (List.Sublist.map Prod.fst (List.filter_sublist side))
  · intro l hl
    exact hwf.2.1 l (List.mem_of_mem_filter hl)
  · intro l hl
    exact hwf.2.2 l (List.mem_of_mem_filter hl)

theorem updateFill_inv (o : Order) (q : ℚ) :
    (o.updateFill q).filled + (o.updateFill q).remaining = (o.updateFill q).quantity := by
  rw [updateFill_filled, updateFill_remaining, updateFill_quantity]
  ring

theorem taker_full_of_maker_partial (tk mk : Order)
    (htk : tk.filled + tk.remaining = tk.quantity)
    (hmk : mk.filled + mk.remaining = mk.quantity)
    (h : (mk.updateFill (min tk.remaining mk.remaining)).isFullyFilled = false) :
    (tk.updateFill (min tk.remaining mk.remaining)).isFullyFilled = true := by
  unfold Order.isFullyFilled at h ⊢
  rw [updateFill_remaining] at h ⊢
  rcases min_choice tk.remaining mk.remaining with hc | hc
  · rw [hc]
    simp only [decide_eq_true_eq]
    linarith
  · rw [hc] at h
    simp only [decide_eq_false_iff_not] at h
    exact absurd (by linarith) h

theorem fillLevelFuel_full (fuel : ℕ) (tk : Order) (p : ℚ) (bk : Book) (ax : Aux)
    (h : tk.isFullyFilled = true) :
    fillLevelFuel fuel tk p bk ax = (tk, bk, ax, []) := by
  cases fuel with
  | zero => rfl
  | succ n =>
    cases hs : sideLookup (bk.sideOf (consumedSide tk.side)) p with
    | none => exact fillLevelFuel_none n tk p bk ax hs
    | some os => exact fillLevelFuel_exit n tk p bk ax os hs (Or.inr h)

theorem fillLevelFuel_noLevel (fuel : ℕ) (tk : Order) (p : ℚ) (bk : Book) (ax : Aux)
    (h : sideLookup (bk.sideOf (consumedSide tk.side)) p = none) :
    fillLevelFuel fuel tk p bk ax = (tk, bk, ax, []) := by
  cases fuel with
  | zero => rfl
  | succ n => exact fillLevelFuel_none n tk p bk ax h

theorem cleanup_sideOf (bk : Book) (sd : Side) :
    bk.cleanupEmptyLevels.sideOf sd
      = (bk.sideOf sd).filter (fun l => ¬ l.2.isEmpty) := by
  cases sd <;> rfl

theorem execMatch_side_erase_keep (tk mk : Order) (q p : ℚ) (bk : Book) (ax : Aux)
    (os : List Order)
    (hmkp : mk.price = some p) (hmks : mk.side = consumedSide tk.side)
    (hlev : sideLookup (bk.sideOf (consumedSide tk.side)) p = some os)
    (hmf : (mk.updateFill q).isFullyFilled = true)
    (hne : (levelEraseId os mk.orderId).isEmpty = false) :
    (execMatch tk mk q p bk ax).2.1.sideOf (consumedSide tk.side)
      = (bk.sideOf (consumedSide tk.side)).map
          (fun l => if l.1 = p then (l.1, levelEraseId os mk.orderId) else l) := by
  rw [execMatch_book, if_pos hmf]
  have hreg : regLookup (bk.registerOrder (mk.updateFill q)).registry mk.orderId
      = some (mk.updateFill q) := regLookup_regSet_self _ _ _
  simp only [Book.removeFromBookOnly, hreg]
  simp only [Book.removeFromPriceLevel, updateFill_price, hmkp, updateFill_side, hmks,
    sideOf_registerOrder, hlev, updateFill_orderId, hne, Bool.false_eq_true, if_false]
  rw [sideOf_setSide_same]

theorem execMatch_side_erase_clean (tk mk : Order) (q p : ℚ) (bk : Book) (ax : Aux)
    (os : List Order)
    (hmkp : mk.price = some p) (hmks : mk.side = consumedSide tk.side)
    (hlev : sideLookup (bk.sideOf (consumedSide tk.side)) p = some os)
    (hmf : (mk.updateFill q).isFullyFilled = true)
    (he : (levelEraseId os mk.orderId).isEmpty = true) :
    (execMatch tk mk q p bk ax).2.1.sideOf (consumedSide tk.side)
      = ((bk.sideOf (consumedSide tk.side)).map
          (fun l => if l.1 = p then (l.1, levelEraseId os mk.orderId) else l)).filter
          (fun l => ¬ l.2.isEmpty) := by
  rw [execMatch_book, if_pos hmf]
  have hreg : regLookup (bk.registerOrder (mk.updateFill q)).registry mk.orderId
      = some (mk.updateFill q) := regLookup_regSet_self _ _ _
  simp only [Book.removeFromBookOnly, hreg]
  simp only [Book.removeFromPriceLevel, updateFill_price, hmkp, updateFill_side, hmks,
    sideOf_registerOrder, hlev, updateFill_orderId, he, if_true]
  rw [cleanup_sideOf, sideOf_setSide_same]

theorem execMatch_side_setId (tk mk : Order) (q p : ℚ) (bk : Book) (ax : Aux)
    (hmkp : mk.price = some p) (hmks : mk.side = consumedSide tk.side)
    (hmf : (mk.updateFill q).isFullyFilled = false) :
    (execMatch tk mk q p bk ax).2.1.sideOf (consumedSide tk.side)
      = (bk.sideOf (consumedSide tk.side)).map
          (fun l => if l.1 = p then (l.1, levelSetId l.2 (mk.updateFill q)) else l) := by
  rw [execMatch_book, if_neg (by simp [hmf])]
  simp only [updateFill_price, hmkp, updateFill_side, hmks, sideOf_registerOrder]
  rw [sideOf_setSide_same]

theorem sideWF_filter_weak (sd : Side) (side' : List Level)
    (hkeys : (side'.map Prod.fst).Nodup)
    (hord : ∀ l ∈ side', ∀ m ∈ l.2,
      m.price = some l.1 ∧ m.side = sd ∧ qadd m.filled m.remaining = m.quantity) :
    SideWF sd (side'.filter (fun l => ¬ l.2.isEmpty)) := by
  refine ⟨hkeys.sublist (List.Sublist.map Prod.fst (List.filter_sublist side')), ?_,
    fun l hl => hord l (List.mem_of_mem_filter hl)⟩
  intro l hl
  have h2 := List.of_mem_filter hl
  simpa using h2

theorem ord_update_const (sd : Side) (side : List Level) (p : ℚ)
    (os os' : List Order) (hwf : SideWF sd side)
    (hlev : sideLookup side p = some os) (hsub : ∀ m ∈ os', m ∈ os) :
    ∀ l ∈ side.map (fun l => if l.1 = p then (l.1, os') else l), ∀ m ∈ l.2,
      m.price = some l.1 ∧ m.side = sd ∧ qadd m.filled m.remaining = m.quantity := by
  intro l hl m hm
  rcases List.mem_map.mp hl with ⟨l0, hl0, hleq⟩
  by_cases hk : l0.1 = p
  · rw [if_pos hk] at hleq
    rw [← hleq] at hm ⊢
    have hmos := hwf.2.2 (p, os) (sideLookup_mem hlev) m (hsub m hm)
    exact ⟨by rw [show ((l0.1, os') : Level).1 = p from hk]; exact hmos.1,
      hmos.2.1, hmos.2.2⟩
  · rw [if_neg hk] at hleq
    rw [← hleq] at hm ⊢
    exact hwf.2.2 l0 hl0 m hm

/-- One level of the fill walk: the emitted trades hit the level's
orders head-first (their maker ids are a prefix of the level's id
sequence); if the taker survives unfilled the level is fully consumed
and removed; levels at other prices are untouched; side
well-formedness is preserved. -/
theorem fillLevel_c8 :
    ∀ (fuel : ℕ) (os : List Order) (tk : Order) (p : ℚ) (bk : Book) (ax : Aux),
    os.length < fuel →
    tk.filled + tk.remaining = tk.quantity →
    SideWF (consumedSide tk.side) (bk.sideOf (consumedSide tk.side)) →
    sideLookup (bk.sideOf (consumedSide tk.side)) p = some os →
    ((fillLevelFuel fuel tk p bk ax).2.2.2.map Trade.makerOrderId
        = (os.map Order.orderId).take (fillLevelFuel fuel tk p bk ax).2.2.2.length)
    ∧ ((fillLevelFuel fuel tk p bk ax).1.isFullyFilled = false →
        (fillLevelFuel fuel tk p bk ax).2.2.2.map Trade.makerOrderId
            = os.map Order.orderId
        ∧ sideLookup ((fillLevelFuel fuel tk p bk ax).2.1.sideOf (consumedSide tk.side)) p
            = none)
    ∧ (∀ p', p' ≠ p →
        sideLookup ((fillLevelFuel fuel tk p bk ax).2.1.sideOf (consumedSide tk.side)) p'
          = sideLookup (bk.sideOf (consumedSide tk.side)) p')
    ∧ SideWF (consumedSide tk.side)
        ((fillLevelFuel fuel tk p bk ax).2.1.sideOf (consumedSide tk.side)) := by
  intro fuel
  induction fuel with
  | zero =>
    intro os tk p bk ax hfl
    exact absurd hfl (Nat.not_lt_zero _)
  | succ n ih =>
    intro os tk p bk ax hfl htk hwf hlev
    by_cases hfull : tk.isFullyFilled = true
    · rw [fillLevelFuel_exit n tk p bk ax os hlev (Or.inr hfull)]
      refine ⟨by simp, ?_, fun p' _ => rfl, hwf⟩
      intro hc
      rw [hfull] at hc
      cases hc
    · replace hfull : tk.isFullyFilled = false := by simpa using hfull
      have hosne : os ≠ [] := hwf.2.1 (p, os) (sideLookup_mem hlev)
      have hosE : os.isEmpty = false := by
        cases os with
        | nil => exact absurd rfl hosne
        | cons a l => rfl
      cases hhd : os.head? with
      | none => exact absurd (List.head?_eq_none_iff.mp hhd) hosne
      | some mk =>
        have hos_eq : os = mk :: os.tail := eq_cons_of_head hhd
        rw [fillLevelFuel_step n tk p bk ax os mk hlev hosE hfull hhd]
        set q := min tk.remaining mk.remaining with hq
        set r1 := execMatch tk mk q p bk ax with hr1
        have hmkmem : mk ∈ os := mem_of_head_some hhd
        obtain ⟨hmkp, hmks, hmkinv0⟩ := hwf.2.2 (p, os) (sideLookup_mem hlev) mk hmkmem
        have hmkinv : mk.filled + mk.remaining = mk.quantity := by
          rw [qadd_eq] at hmkinv0
          exact hmkinv0
        have ht1 : r1.2.2.2
            = Trade.mk ax.nextTradeId tk.symbol p q tk.side mk.orderId tk.orderId := by
          rw [hr1, execMatch_eq]
        have hrt : r1.1 = tk.updateFill q := by rw [hr1, execMatch_eq]
        have hcs : consumedSide (tk.updateFill q).side = consumedSide tk.side := by
          rw [updateFill_side]
        by_cases hmf : (mk.updateFill q).isFullyFilled = true
        · by_cases he : (levelEraseId os mk.orderId).isEmpty = true
          · -- maker removed, level emptied and cleaned up
            have htail : os.tail = [] := by
              rw [hos_eq, levelEraseId_head] at he
              exact List.isEmpty_iff.mp he
            have hos1 : os = [mk] := by rw [hos_eq, htail]
            have herase : levelEraseId os mk.orderId = [] := by
              conv_lhs => rw [hos_eq]
              rw [levelEraseId_head]
              exact htail
            have hside_eq : r1.2.1.sideOf (consumedSide tk.side)
                = ((bk.sideOf (consumedSide tk.side)).map
                    (fun l => if l.1 = p then (l.1, levelEraseId os mk.orderId) else l)).filter
                    (fun l => ¬ l.2.isEmpty) := by
              rw [hr1]
              exact execMatch_side_erase_clean tk mk q p bk ax os hmkp hmks hlev hmf he
            have hlookupP : sideLookup (r1.2.1.sideOf (consumedSide tk.side)) p = none := by
              rw [hside_eq]
              refine sideLookup_filter_drop _ p (by rw [keys_map_const]; exact hwf.1) ?_
              have h0 := sideLookup_const_self (bk.sideOf (consumedSide tk.side)) p os
                (levelEraseId os mk.orderId) hlev
              rw [h0, herase]
            have hrec : fillLevelFuel n r1.1 p r1.2.1 r1.2.2.1
                = (r1.1, r1.2.1, r1.2.2.1, []) := by
              apply fillLevelFuel_noLevel
              rw [hrt, updateFill_side]
              exact hlookupP
            rw [hrec]
            refine ⟨?_, ?_, ?_, ?_⟩
            · simp [ht1, hos1]
            · intro hnf
              refine ⟨by simp [ht1, hos1], hlookupP⟩
            · intro p' hne'
              rw [hside_eq]
              rw [sideLookup_filter_keep]
              · exact sideLookup_const_other _ p p' _ hne'
              · intro os2 hos2
                rw [sideLookup_const_other _ p p' _ hne'] at hos2
                exact hwf.2.1 (p', os2) (sideLookup_mem hos2)
            · rw [hside_eq]
              refine sideWF_filter_weak _ _ (by rw [keys_map_const]; exact hwf.1) ?_
              exact ord_update_const _ _ p os _ hwf hlev
                (fun m hm => levelEraseId_subset os mk.orderId m hm)
          · -- maker removed, level survives with its tail
            replace he : (levelEraseId os mk.orderId).isEmpty = false := by simpa using he
            have herase : levelEraseId os mk.orderId = os.tail := by
              conv_lhs => rw [hos_eq]
              rw [levelEraseId_head]
            have htail_ne : os.tail ≠ [] := by
              intro hh
              rw [herase, hh] at he
              cases he
            have hside_eq : r1.2.1.sideOf (consumedSide tk.side)
                = (bk.sideOf (consumedSide tk.side)).map
                    (fun l => if l.1 = p then (l.1, levelEraseId os mk.orderId) else l) := by
              rw [hr1]
              exact execMatch_side_erase_keep tk mk q p bk ax os hmkp hmks hlev hmf he
            have hlev2 : sideLookup (r1.2.1.sideOf (consumedSide tk.side)) p
                = some os.tail := by
              rw [hside_eq]
              rw [sideLookup_const_self (bk.sideOf (consumedSide tk.side)) p os
                (levelEraseId os mk.orderId) hlev, herase]
            have hwf2 : SideWF (consumedSide tk.side)
                (r1.2.1.sideOf (consumedSide tk.side)) := by
              rw [hside_eq, herase]
              refine sideWF_update_const _ _ p os os.tail hwf hlev htail_ne ?_
              intro m hm
              rw [hos_eq]
              exact List.mem_cons_of_mem mk hm
            have hlen : os.tail.length < n := by
              have h2 : os.length = os.tail.length + 1 := by
                rw [hos_eq]
                simp
              omega
            obtain ⟨ih1, ih2, ih3, ih4⟩ := ih os.tail (tk.updateFill q) p r1.2.1 r1.2.2.1
              hlen (updateFill_inv tk q)
              (by rw [hcs]; exact hwf2)
              (by rw [hcs]; exact hlev2)
            rw [hcs] at ih2 ih3 ih4
            rw [hrt]
            refine ⟨?_, ?_, ?_, ?_⟩
            · simp only [List.map_cons, List.length_cons, ht1]
              conv_rhs => rw [hos_eq]
              simp only [List.map_cons, List.take_succ_cons]
              rw [ih1]
            · intro hnf
              obtain ⟨ha, hb⟩ := ih2 hnf
              refine ⟨?_, hb⟩
              simp only [List.map_cons, ht1]
              conv_rhs => rw [hos_eq]
              simp only [List.map_cons]
              rw [ha]
            · intro p' hne'
              rw [ih3 p' hne', hside_eq]
              exact sideLookup_const_other _ p p' _ hne'
            · exact ih4
        · -- maker partially filled: the taker is exhausted
          replace hmf : (mk.updateFill q).isFullyFilled = false := by simpa using hmf
          have htf : (tk.updateFill q).isFullyFilled = true := by
            have h2 := taker_full_of_maker_partial tk mk htk hmkinv (by rw [← hq]; exact hmf)
            rw [← hq] at h2
            exact h2
          have hside_eq : r1.2.1.sideOf (consumedSide tk.side)
              = (bk.sideOf (consumedSide tk.side)).map
                  (fun l => if l.1 = p then (l.1, levelSetId l.2 (mk.updateFill q)) else l) := by
            rw [hr1]
            exact execMatch_side_setId tk mk q p bk ax hmkp hmks hmf
          have hrec : fillLevelFuel n r1.1 p r1.2.1 r1.2.2.1
              = (r1.1, r1.2.1, r1.2.2.1, []) := by
            apply fillLevelFuel_full
            rw [hrt]
            exact htf
          rw [hrec]
          refine ⟨?_, ?_, ?_, ?_⟩
          · simp only [ht1]
            conv_rhs => rw [hos_eq]
            simp
          · intro hnf
            rw [hrt, htf] at hnf
            cases hnf
          · intro p' hne'
            rw [hside_eq]
            exact sideLookup_setId_other _ p p' _ hne'
          · rw [hside_eq]
            exact sideWF_update_setId _ _ p (mk.updateFill q) hwf
              (by rw [updateFill_price]; exact hmkp)
              (by rw [updateFill_side]; exact hmks)
              (by rw [qadd_eq]; exact updateFill_inv mk q)

theorem applyFills_inv (o : Order) (trs : List Trade)
    (h : o.filled + o.remaining = o.quantity) :
    (o.applyFills trs).filled + (o.applyFills trs).remaining
      = (o.applyFills trs).quantity := by
  induction trs generalizing o with
  | nil => exact h
  | cons t ts ih =>
    rw [applyFills_cons]
    exact ih _ (updateFill_inv o t.quantity)

/-- The price walk of `_fill_against_book`: the emitted trades' maker
ids are a prefix of the priority flattening of the visited levels,
read from an unchanging snapshot `side0` of the consumed side. -/
theorem fillPrices_c8 (side0 : List Level) :
    ∀ (ps : List ℚ) (tk : Order) (lp : Option ℚ) (bk : Book) (ax : Aux),
    ps.Nodup →
    tk.filled + tk.remaining = tk.quantity →
    SideWF (consumedSide tk.side) (bk.sideOf (consumedSide tk.side)) →
    (∀ p' ∈ ps, sideLookup (bk.sideOf (consumedSide tk.side)) p' = sideLookup side0 p') →
    (fillPrices ps tk lp bk ax).2.2.2.map Trade.makerOrderId
      = ((ordersAlong side0 ps).map Order.orderId).take
          (fillPrices ps tk lp bk ax).2.2.2.length := by
  intro ps
  induction ps with
  | nil =>
    intro tk lp bk ax hnd htk hwf hps
    rw [fillPrices_nil]
    simp
  | cons p rest ih =>
    intro tk lp bk ax hnd htk hwf hps
    by_cases hf : tk.isFullyFilled = true
    · rw [fillPrices_filled p rest tk lp bk ax hf]
      simp
    · replace hf : tk.isFullyFilled = false := by simpa using hf
      by_cases hstop : limitStop tk lp p = true
      · rw [fillPrices_stop p rest tk lp bk ax hf hstop]
        simp
      · replace hstop : limitStop tk lp p = false := by simpa using hstop
        cases hs : sideLookup (bk.sideOf (consumedSide tk.side)) p with
        | none =>
          rw [fillPrices_skip p rest tk lp bk ax hf hstop hs]
          have h0 : sideLookup side0 p = none := by
            rw [← hps p (List.mem_cons_self p rest)]
            exact hs
          have hoA : ordersAlong side0 (p :: rest) = ordersAlong side0 rest := by
            simp [ordersAlong, h0]
          rw [hoA]
          exact ih tk lp bk ax hnd.of_cons htk hwf
            (fun p' hp' => hps p' (List.mem_cons_of_mem p hp'))
        | some os =>
          rw [fillPrices_step p rest tk lp bk ax os hf hstop hs]
          have h0 : sideLookup side0 p = some os := by
            rw [← hps p (List.mem_cons_self p rest)]
            exact hs
          have hoA : ordersAlong side0 (p :: rest) = os ++ ordersAlong side0 rest := by
            simp [ordersAlong, h0]
          obtain ⟨L1a, L1b, L1c, L1d⟩ := fillLevel_c8 (os.length + 1) os tk p bk ax
            (Nat.lt_succ_self _) htk hwf hs
          obtain ⟨hT1, -, -⟩ := fillLevelFuel_spec (os.length + 1) tk p bk ax
          set r := fillLevelFuel (os.length + 1) tk p bk ax with hr
          have hside : r.1.side = tk.side := by rw [hT1, applyFills_side]
          have hcs : consumedSide r.1.side = consumedSide tk.side := by rw [hside]
          have htk2 : r.1.filled + r.1.remaining = r.1.quantity := by
            rw [hT1]
            exact applyFills_inv tk _ htk
          by_cases hnf : r.1.isFullyFilled = true
          · have hrest : fillPrices rest r.1 lp r.2.1 r.2.2.1
                = (r.1, r.2.1, r.2.2.1, []) := by
              cases rest with
              | nil => rfl
              | cons p2 ps2 => exact fillPrices_filled p2 ps2 r.1 lp r.2.1 r.2.2.1 hnf
            rw [hrest, hoA]
            simp only [List.append_nil]
            have hlen := congrArg List.length L1a
            rw [List.length_map, List.length_take, List.length_map] at hlen
            have hlen2 : r.2.2.2.length ≤ os.length := by omega
            rw [List.map_append, List.take_append_of_le_length (by simpa using hlen2)]
            exact L1a
          · replace hnf : r.1.isFullyFilled = false := by simpa using hnf
            obtain ⟨hfull_ids, -⟩ := L1b hnf
            have hpnotin : p ∉ rest := (List.nodup_cons.mp hnd).1
            have ihr := ih r.1 lp r.2.1 r.2.2.1 hnd.of_cons htk2
              (by rw [hcs]; exact L1d)
              (fun p' hp' => by
                rw [hcs, L1c p' (fun hh => hpnotin (hh ▸ hp'))]
                exact hps p' (List.mem_cons_of_mem p hp'))
            rw [hoA]
            rw [List.map_append, List.map_append, List.length_append]
            rw [hfull_ids, ihr]
            have hlen1 : r.2.2.2.length = os.length := by
              have h3 := congrArg List.length hfull_ids
              simpa using h3
            have hlen3 : r.2.2.2.length
                + (fillPrices rest r.1 lp r.2.1 r.2.2.1).2.2.2.length
                = (os.map Order.orderId).length
                  + (fillPrices rest r.1 lp r.2.1 r.2.2.1).2.2.2.length := by
              rw [hlen1, List.length_map]
            rw [hlen3, List.take_append]

theorem ordersAlong_congr (s1 s2 : List Level) (ps : List ℚ)
    (h : ∀ p ∈ ps, sideLookup s1 p = sideLookup s2 p) :
    ordersAlong s1 ps = ordersAlong s2 ps := by
  induction ps with
  | nil => rfl
  | cons p rest ih =>
    simp only [ordersAlong]
    rw [h p (List.mem_cons_self p rest),
      ih fun p2 hp2 => h p2 (List.mem_cons_of_mem p hp2)]

theorem ordersAlong_self (side : List Level) (h : (side.map Prod.fst).Nodup) :
    ordersAlong side (side.map Prod.fst) = sideOrders side := by
  induction side with
  | nil => rfl
  | cons l ls ih =>
    simp only [List.map_cons, ordersAlong, sideOrders]
    rw [sideLookup_cons, if_pos rfl]
    congr 1
    rw [ordersAlong_congr (l :: ls) ls (ls.map Prod.fst) ?_, ih h.of_cons]
    intro p hp
    rw [sideLookup_cons, if_neg fun hh => (List.nodup_cons.mp h).1 (by rw [hh]; exact hp)]

/-- `_fill_against_book` on a well-formed side: the trades' maker ids
are a prefix of the side's priority flattening. -/
theorem fillAgainstBook_c8 (tk : Order) (bk : Book) (ax : Aux) (lp : Option ℚ)
    (htk : tk.filled + tk.remaining = tk.quantity)
    (hwf : SideWF (consumedSide tk.side) (bk.sideOf (consumedSide tk.side))) :
    (fillAgainstBook tk bk ax lp).2.2.2.map Trade.makerOrderId
      = ((sideOrders (bk.sideOf (consumedSide tk.side))).map Order.orderId).take
          (fillAgainstBook tk bk ax lp).2.2.2.length := by
  unfold fillAgainstBook
  rw [fillPrices_c8 (bk.sideOf (consumedSide tk.side)) _ tk lp bk ax hwf.1 htk hwf
    (fun p' _ => rfl)]
  rw [ordersAlong_self _ hwf.1]

theorem fokScanPrices_zero (bk : Book) (o : Order) (ps : List ℚ)
    (plan : List (Order × ℚ)) :
    fokScanPrices ps o 0 plan bk = (0, plan) := by
  cases ps with
  | nil => rfl
  | cons p rest =>
    simp [fokScanPrices]

theorem fokScanLevel_c8 (os : List Order) :
    ∀ (rem : ℚ) (plan : List (Order × ℚ)),
    ∃ j, j ≤ os.length
    ∧ (fokScanLevel os rem plan).2.map Prod.fst = plan.map Prod.fst ++ os.take j
    ∧ ((fokScanLevel os rem plan).1 = 0 ∨ j = os.length) := by
  induction os with
  | nil =>
    intro rem plan
    exact ⟨0, le_rfl, by simp [fokScanLevel], Or.inr rfl⟩
  | cons mk rest ih =>
    intro rem plan
    simp only [fokScanLevel]
    by_cases hz : rem = 0
    · rw [if_pos hz]
      exact ⟨0, Nat.zero_le _, by simp, Or.inl hz⟩
    · rw [if_neg hz]
      obtain ⟨j, hj, hplan, hdisj⟩ := ih (qsub rem (min rem mk.remaining))
        (plan ++ [(mk, min rem mk.remaining)])
      refine ⟨j + 1, by simpa using hj, ?_, ?_⟩
      · rw [hplan]
        simp [List.take_succ_cons]
      · rcases hdisj with h2 | h2
        · exact Or.inl h2
        · exact Or.inr (by simp [h2])

theorem fokScanPrices_c8 (bk : Book) (o : Order) :
    ∀ (ps : List ℚ) (rem : ℚ) (plan : List (Order × ℚ)),
    ∃ k, (fokScanPrices ps o rem plan bk).2.map Prod.fst
      = plan.map Prod.fst
        ++ (ordersAlong (bk.sideOf (consumedSide o.side)) ps).take k := by
  intro ps
  induction ps with
  | nil =>
    intro rem plan
    exact ⟨0, by simp [fokScanPrices, ordersAlong]⟩
  | cons p rest ih =>
    intro rem plan
    simp only [fokScanPrices]
    by_cases hz : rem = 0
    · rw [if_pos hz]
      exact ⟨0, by simp⟩
    · rw [if_neg hz]
      by_cases hstop : limitStop o o.price p = true
      · rw [if_pos hstop]
        exact ⟨0, by simp⟩
      · rw [if_neg hstop]
        cases hs : sideLookup (bk.sideOf (consumedSide o.side)) p with
        | none =>
          simp only [hs]
          obtain ⟨k, hk⟩ := ih rem plan
          refine ⟨k, ?_⟩
          rw [hk]
          simp [ordersAlong, hs]
        | some os =>
          simp only [hs]
          obtain ⟨j, hj, hplanL, hdisj⟩ := fokScanLevel_c8 os rem plan
          have hoA : ordersAlong (bk.sideOf (consumedSide o.side)) (p :: rest)
              = os ++ ordersAlong (bk.sideOf (consumedSide o.side)) rest := by
            simp [ordersAlong, hs]
          rcases hdisj with hr0 | hfull
          · refine ⟨j, ?_⟩
            rw [hr0, fokScanPrices_zero, hoA, List.take_append_of_le_length hj]
            exact hplanL
          · obtain ⟨k2, hk2⟩ := ih (fokScanLevel os rem plan).1 (fokScanLevel os rem plan).2
            refine ⟨os.length + k2, ?_⟩
            rw [hk2, hplanL, hfull, List.take_length, List.append_assoc, hoA,
              List.take_append]

theorem checkCanFillFok_c8 (o : Order) (bk : Book)
    (hnd : ((bk.sideOf (consumedSide o.side)).map Prod.fst).Nodup) :
    ∃ k, (checkCanFillFok o bk).2.map Prod.fst
      = (sideOrders (bk.sideOf (consumedSide o.side))).take k := by
  simp only [checkCanFillFok]
  by_cases hz : (fokScanPrices ((bk.sideOf (consumedSide o.side)).map Prod.fst)
      o o.quantity [] bk).1 = 0
  · rw [if_pos hz]
    obtain ⟨k, hk⟩ := fokScanPrices_c8 bk o ((bk.sideOf (consumedSide o.side)).map Prod.fst)
      o.quantity []
    refine ⟨k, ?_⟩
    rw [ordersAlong_self _ hnd] at hk
    simpa using hk
  · rw [if_neg hz]
    exact ⟨0, by simp⟩

theorem fokExecPlan_ids :
    ∀ (plan : List (Order × ℚ)) (tk : Order) (bk : Book) (ax : Aux),
    (fokExecPlan plan tk bk ax).2.2.2.map Trade.makerOrderId
      = (plan.map Prod.fst).map Order.orderId := by
  intro plan
  induction plan with
  | nil => intro tk bk ax; rfl
  | cons pe rest ih =>
    intro tk bk ax
    obtain ⟨mk, fq⟩ := pe
    simp only [fokExecPlan, List.map_cons]
    rw [show (execMatch tk mk fq (mk.price.getD 0) bk ax).2.2.2
        = Trade.mk ax.nextTradeId tk.symbol (mk.price.getD 0) fq tk.side
            mk.orderId tk.orderId from by rw [execMatch_eq]]
    rw [ih]

/-- `_process_market_order`: the trades hit a prefix of the consumed
side's priority flattening. -/
theorem processMarketOrder_c8 (o : Order) (bk : Book) (ax : Aux)
    (bk' : Book) (ax' : Aux) (o' : Order) (trades : List Trade)
    (h : processMarketOrder o bk ax = .ok (bk', ax', o', trades))
    (htk : o.filled + o.remaining = o.quantity)
    (hwf : SideWF (consumedSide o.side) (bk.sideOf (consumedSide o.side))) :
    ∃ k, trades.map Trade.makerOrderId
      = ((sideOrders (bk.sideOf (consumedSide o.side))).map Order.orderId).take k := by
  unfold processMarketOrder at h
  simp only [Except.ok.injEq, Prod.mk.injEq] at h
  obtain ⟨-, -, -, htr⟩ := h
  subst htr
  exact ⟨(fillAgainstBook o bk ax none).2.2.2.length,
    fillAgainstBook_c8 o bk ax none htk hwf⟩

/-- `_process_ioc_order`: prefix property of the trades. -/
theorem processIocOrder_c8 (o : Order) (bk : Book) (ax : Aux)
    (bk' : Book) (ax' : Aux) (o' : Order) (trades : List Trade)
    (h : processIocOrder o bk ax = .ok (bk', ax', o', trades))
    (htk : o.filled + o.remaining = o.quantity)
    (hwf : SideWF (consumedSide o.side) (bk.sideOf (consumedSide o.side))) :
    ∃ k, trades.map Trade.makerOrderId
      = ((sideOrders (bk.sideOf (consumedSide o.side))).map Order.orderId).take k := by
  unfold processIocOrder at h
  simp only [Except.ok.injEq, Prod.mk.injEq] at h
  obtain ⟨-, -, -, htr⟩ := h
  subst htr
  exact ⟨(fillAgainstBook o bk ax o.price).2.2.2.length,
    fillAgainstBook_c8 o bk ax o.price htk hwf⟩

/-- `_process_limit_order`: prefix property of the trades. -/
theorem processLimitOrder_c8 (o : Order) (bk : Book) (ax : Aux)
    (bk' : Book) (ax' : Aux) (o' : Order) (trades : List Trade)
    (h : processLimitOrder o bk ax = .ok (bk', ax', o', trades))
    (htk : o.filled + o.remaining = o.quantity)
    (hwf : SideWF (consumedSide o.side) (bk.sideOf (consumedSide o.side))) :
    ∃ k, trades.map Trade.makerOrderId
      = ((sideOrders (bk.sideOf (consumedSide o.side))).map Order.orderId).take k := by
  unfold processLimitOrder at h
  by_cases hp : o.price = none
  · rw [if_pos hp] at h; cases h
  · rw [if_neg hp] at h
    have hfact : ∃ k, (if isMarketable o bk then fillAgainstBook o bk ax o.price
          else (o, bk, ax, ([] : List Trade))).2.2.2.map Trade.makerOrderId
        = ((sideOrders (bk.sideOf (consumedSide o.side))).map Order.orderId).take k := by
      split
      · exact ⟨(fillAgainstBook o bk ax o.price).2.2.2.length,
          fillAgainstBook_c8 o bk ax o.price htk hwf⟩
      · exact ⟨0, by simp⟩
    set f := (if isMarketable o bk then fillAgainstBook o bk ax o.price
          else (o, bk, ax, ([] : List Trade))) with hf
    by_cases hful : f.1.isFullyFilled = true
    · rw [if_neg (by simp [hful])] at h
      simp only [Except.ok.injEq, Prod.mk.injEq] at h
      obtain ⟨-, -, -, htr⟩ := h
      subst htr
      exact hfact
    · rw [if_pos (by simpa using hful)] at h
      cases ha : Book.addOrder f.2.1
          ({ f.1 with status := if f.2.2.2.isEmpty then OrderStatus.pending
                       else OrderStatus.partiallyFilled } : Order) with
      | error er => rw [ha] at h; cases h
      | ok bk2 =>
        rw [ha] at h
        simp only [Except.ok.injEq, Prod.mk.injEq] at h
        obtain ⟨-, -, -, htr⟩ := h
        subst htr
        exact hfact

/-- `_process_fok_order`: prefix property of the trades (the fill plan
is scanned off the book in priority order and executed in plan
order). -/
theorem processFokOrder_c8 (o : Order) (bk : Book) (ax : Aux)
    (bk' : Book) (ax' : Aux) (o' : Order) (trades : List Trade)
    (h : processFokOrder o bk ax = .ok (bk', ax', o', trades))
    (hwf : SideWF (consumedSide o.side) (bk.sideOf (consumedSide o.side))) :
    ∃ k, trades.map Trade.makerOrderId
      = ((sideOrders (bk.sideOf (consumedSide o.side))).map Order.orderId).take k := by
  unfold processFokOrder at h
  by_cases hcan : (checkCanFillFok o (bk.registerOrder o)).1 = true
  · rw [if_neg (by simp [hcan])] at h
    simp only [Except.ok.injEq, Prod.mk.injEq] at h
    obtain ⟨-, -, -, htr⟩ := h
    subst htr
    have hnd2 : (((bk.registerOrder o).sideOf (consumedSide o.side)).map Prod.fst).Nodup := by
      rw [sideOf_registerOrder]
      exact hwf.1
    obtain ⟨k, hk⟩ := checkCanFillFok_c8 o (bk.registerOrder o) hnd2
    rw [sideOf_registerOrder] at hk
    refine ⟨k, ?_⟩
    rw [fokExecPlan_ids, hk, List.map_take]
  · rw [if_pos (by simpa using hcan)] at h
    simp only [Except.ok.injEq, Prod.mk.injEq] at h
    obtain ⟨-, -, -, htr⟩ := h
    subst htr
    exact ⟨0, by simp⟩

theorem priceBefore_irrefl (sd : Side) (a : ℚ) : ¬ priceBefore sd a a := by
  cases sd <;> exact lt_irrefl a

theorem priceBefore_asymm (sd : Side) (a b : ℚ) (h : priceBefore sd a b) :
    ¬ priceBefore sd b a := by
  cases sd <;> exact fun h2 => absurd h2 (lt_asymm h)

theorem mem_sideOrders (side : List Level) (p : ℚ) (os : List Order) (m : Order)
    (h : (p, os) ∈ side) (hm : m ∈ os) : m ∈ sideOrders side := by
  induction side with
  | nil => simp at h
  | cons l ls ih =>
    simp only [sideOrders, List.mem_append]
    rcases List.mem_cons.mp h with hh | ht
    · left
      have : os = l.2 := by rw [← hh]
      exact this ▸ hm
    · right
      exact ih ht

/-- A maker at a strictly better-priority price precedes, in the
priority flattening, any maker at the worse price. -/
theorem sideOrders_before_price (sd : Side) :
    ∀ (side : List Level),
    side.Pairwise (fun l1 l2 => priceBefore sd l1.1 l2.1) →
    ∀ (p1 p2 : ℚ) (os1 os2 : List Order) (m1 m2 : Order),
    (p1, os1) ∈ side → (p2, os2) ∈ side → m1 ∈ os1 → m2 ∈ os2 →
    priceBefore sd p1 p2 →
    ∃ j1 j2 : ℕ, j1 < j2
      ∧ (sideOrders side)[j1]? = some m1
      ∧ (sideOrders side)[j2]? = some m2 := by
  intro side
  induction side with
  | nil =>
    intro _ p1 p2 os1 os2 m1 m2 h1
    simp at h1
  | cons l ls ih =>
    intro hsort p1 p2 os1 os2 m1 m2 h1 h2 hm1 hm2 hp
    obtain ⟨hhead, htail⟩ := List.pairwise_cons.mp hsort
    rcases List.mem_cons.mp h1 with h1h | h1t
    · rcases List.mem_cons.mp h2 with h2h | h2t
      · have e1 : p1 = l.1 := by rw [← h1h]
        have e2 : p2 = l.1 := by rw [← h2h]
        rw [e1, e2] at hp
        exact absurd hp (priceBefore_irrefl sd l.1)
      · have hos1 : os1 = l.2 := by rw [← h1h]
        rw [hos1] at hm1
        obtain ⟨j1, hj1⟩ := List.mem_iff_getElem?.mp hm1
        obtain ⟨j2, hj2⟩ := List.mem_iff_getElem?.mp
          (mem_sideOrders ls p2 os2 m2 h2t hm2)
        have hj1len : j1 < l.2.length := by
          obtain ⟨hh, -⟩ := List.getElem?_eq_some.mp hj1
          exact hh
        refine ⟨j1, l.2.length + j2, by omega, ?_, ?_⟩
        · simp only [sideOrders]
          rw [List.getElem?_append, if_pos hj1len]
          exact hj1
        · simp only [sideOrders]
          rw [List.getElem?_append_right (by omega), Nat.add_sub_cancel_left]
          exact hj2
    · rcases List.mem_cons.mp h2 with h2h | h2t
      · have e2 : l.1 = p2 := by rw [← h2h]
        have hb := hhead (p1, os1) h1t
        rw [e2] at hb
        exact absurd hb (priceBefore_asymm sd p1 p2 hp)
      · obtain ⟨j1, j2, hlt, hg1, hg2⟩ := ih htail p1 p2 os1 os2 m1 m2 h1t h2t hm1 hm2 hp
        refine ⟨l.2.length + j1, l.2.length + j2, by omega, ?_, ?_⟩
        · simp only [sideOrders]
          rw [List.getElem?_append_right (by omega), Nat.add_sub_cancel_left]
          exact hg1
        · simp only [sideOrders]
          rw [List.getElem?_append_right (by omega), Nat.add_sub_cancel_left]
          exact hg2

/-- Within one level's deque, the earlier-queued maker precedes the
later one in the priority flattening. -/
theorem sideOrders_before_time :
    ∀ (side : List Level) (p : ℚ) (os : List Order) (k1 k2 : ℕ) (m1 m2 : Order),
    (p, os) ∈ side → k1 < k2 → os[k1]? = some m1 → os[k2]? = some m2 →
    ∃ j1 j2 : ℕ, j1 < j2
      ∧ (sideOrders side)[j1]? = some m1
      ∧ (sideOrders side)[j2]? = some m2 := by
  intro side
  induction side with
  | nil =>
    intro p os k1 k2 m1 m2 h1
    simp at h1
  | cons l ls ih =>
    intro p os k1 k2 m1 m2 h1 hlt hg1 hg2
    rcases List.mem_cons.mp h1 with h1h | h1t
    · have hos : os = l.2 := by rw [← h1h]
      rw [hos] at hg1 hg2
      have hk2len : k2 < l.2.length := by
        obtain ⟨hh, -⟩ := List.getElem?_eq_some.mp hg2
        exact hh
      refine ⟨k1, k2, hlt, ?_, ?_⟩
      · simp only [sideOrders]
        rw [List.getElem?_append, if_pos (by omega)]
        exact hg1
      · simp only [sideOrders]
        rw [List.getElem?_append, if_pos hk2len]
        exact hg2
    · obtain ⟨j1, j2, hlt2, hq1, hq2⟩ := ih p os k1 k2 m1 m2 h1t hlt hg1 hg2
      refine ⟨l.2.length + j1, l.2.length + j2, by omega, ?_, ?_⟩
      · simp only [sideOrders]
        rw [List.getElem?_append_right (by omega), Nat.add_sub_cancel_left]
        exact hq1
      · simp only [sideOrders]
        rw [List.getElem?_append_right (by omega), Nat.add_sub_cancel_left]
        exact hq2

/-- A successful `submit_order` gets its trades from the by-type
dispatch run against the pre-submission book of the order's symbol. -/
theorem submit_ok_trades_eq (e : Engine) (o : Order) (e' : Engine) (r : OrderResult)
    (h : submitOrder e o = .ok e' r) :
    ∃ bk' ax' o2, submitDispatch o (bookAt e o.symbol) e.aux = .ok (bk', ax', o2, r.trades) := by
  unfold submitOrder at h
  cases hv : validateOrder o with
  | error er => rw [hv] at h; cases h
  | ok u =>
    cases u
    rw [hv, getD_booksWith] at h
    cases hpr : submitDispatch o (bookAt e o.symbol) e.aux with
    | error t =>
      rw [hpr] at h
      obtain ⟨a, b, c⟩ := t
      simp [submitFinish] at h
    | ok t =>
      obtain ⟨bk', ax', o2, trades⟩ := t
      rw [hpr] at h
      simp only [submitFinish, Outcome.ok.injEq] at h
      obtain ⟨-, hr⟩ := h
      have htr : r.trades = trades := by rw [← hr]
      exact ⟨bk', ax', o2, by first
        | (rw [htr]; exact hpr)
        | rw [htr]⟩

/-- C8: price–time priority.  For a submission into a well-formed,
priority-sorted consumed side with distinct resting ids: if a maker
`m1` rests at a strictly better price than `m2` (or at the same price
but earlier in the level's deque), then whenever the `i`-th trade of
the submission hits `m2`, some earlier trade hits `m1`. -/
theorem c8_price_time_priority (e : Engine) (o : Order) (e' : Engine) (r : OrderResult)
    (h : submitOrder e o = .ok e' r)
    (htk0 : qadd o.filled o.remaining = o.quantity)
    (hwf : SideWF (consumedSide o.side) ((bookAt e o.symbol).sideOf (consumedSide o.side)))
    (hsort : ((bookAt e o.symbol).sideOf (consumedSide o.side)).Pairwise
      (fun l1 l2 => priceBefore (consumedSide o.side) l1.1 l2.1))
    (hids : ((sideOrders ((bookAt e o.symbol).sideOf (consumedSide o.side))).map
      Order.orderId).Nodup)
    (m1 m2 : Order) (p1 p2 : ℚ) (os1 os2 : List Order)
    (h1 : (p1, os1) ∈ (bookAt e o.symbol).sideOf (consumedSide o.side))
    (h2 : (p2, os2) ∈ (bookAt e o.symbol).sideOf (consumedSide o.side))
    (hm1 : m1 ∈ os1) (hm2 : m2 ∈ os2)
    (hprio : priceBefore (consumedSide o.side) p1 p2
      ∨ (p1 = p2 ∧ ∃ k1 k2 : ℕ, k1 < k2 ∧ os1[k1]? = some m1 ∧ os1[k2]? = some m2))
    (i : ℕ) (t2 : Trade)
    (hhit : r.trades[i]? = some t2)
    (hmker : t2.makerOrderId = m2.orderId) :
    ∃ (j : ℕ) (t1 : Trade), j < i ∧ r.trades[j]? = some t1
      ∧ t1.makerOrderId = m1.orderId := by
  have htk : o.filled + o.remaining = o.quantity := by
    rw [qadd_eq] at htk0
    exact htk0
  obtain ⟨bk', ax', o2, hpr⟩ := submit_ok_trades_eq e o e' r h
  have hpre : ∃ k, r.trades.map Trade.makerOrderId
      = ((sideOrders ((bookAt e o.symbol).sideOf (consumedSide o.side))).map
          Order.orderId).take k := by
    unfold submitDispatch at hpr
    cases hot : o.otype with
    | market => rw [hot] at hpr; exact processMarketOrder_c8 _ _ _ _ _ _ _ hpr htk hwf
    | limit => rw [hot] at hpr; exact processLimitOrder_c8 _ _ _ _ _ _ _ hpr htk hwf
    | ioc => rw [hot] at hpr; exact processIocOrder_c8 _ _ _ _ _ _ _ hpr htk hwf
    | fok => rw [hot] at hpr; exact processFokOrder_c8 _ _ _ _ _ _ _ hpr hwf
  have hfb : ∃ j1 j2 : ℕ, j1 < j2
      ∧ (sideOrders ((bookAt e o.symbol).sideOf (consumedSide o.side)))[j1]? = some m1
      ∧ (sideOrders ((bookAt e o.symbol).sideOf (consumedSide o.side)))[j2]? = some m2 := by
    rcases hprio with hpb | ⟨hpe, k1, k2, hk12, hg1, hg2⟩
    · exact sideOrders_before_price _ _ hsort p1 p2 os1 os2 m1 m2 h1 h2 hm1 hm2 hpb
    · exact sideOrders_before_time _ p1 os1 k1 k2 m1 m2 h1 hk12 hg1 hg2
  obtain ⟨k, hk⟩ := hpre
  obtain ⟨j1, j2, hj12, hf1, hf2⟩ := hfb
  set S := sideOrders ((bookAt e o.symbol).sideOf (consumedSide o.side)) with hS
  have hi1 : (S.map Order.orderId)[j1]? = some m1.orderId := by
    rw [List.getElem?_map, hf1]
    rfl
  have hi2 : (S.map Order.orderId)[j2]? = some m2.orderId := by
    rw [List.getElem?_map, hf2]
    rfl
  have hti : (r.trades.map Trade.makerOrderId)[i]? = some m2.orderId := by
    rw [List.getElem?_map, hhit]
    simp [hmker]
  rw [hk] at hti
  have hik : i < k := by
    obtain ⟨hh, -⟩ := List.getElem?_eq_some.mp hti
    rw [List.length_take] at hh
    omega
  have hidsi : (S.map Order.orderId)[i]? = some m2.orderId := by
    rw [List.getElem?_take, if_pos hik] at hti
    exact hti
  have hj2len : j2 < (S.map Order.orderId).length := by
    obtain ⟨hh, -⟩ := List.getElem?_eq_some.mp hi2
    exact hh
  have heq : j2 = i := List.getElem?_inj hj2len hids (hi2.trans hidsi.symm)
  have hj1i : j1 < i := by omega
  have htj1 : (r.trades.map Trade.makerOrderId)[j1]? = some m1.orderId := by
    rw [hk, List.getElem?_take, if_pos (by omega)]
    exact hi1
  rw [List.getElem?_map] at htj1
  cases ht : r.trades[j1]? with
  | none =>
    rw [ht] at htj1
    cases htj1
  | some t1 =>
    rw [ht] at htj1
    have ht1m : t1.makerOrderId = m1.orderId := by simpa using htj1
    exact ⟨j1, t1, hj1i, ht, ht1m⟩

/-- Fixture: two resting limit sells, `1 @ 50000` (id 1, better
priority) and `1 @ 50100` (id 2). -/
def engTwo : Engine :=
  (submitOrder engRest (mkOrder 2 .limit .sell 1 (some 50100))).state

/-- The second trade of a market buy for 2 against `engTwo`: it hits
the worse-priced maker 2. -/
def c8hit : Trade :=
  { tradeId := 1, symbol := "BTC-USDT", price := 50100, quantity := 1
    aggressorSide := Side.buy, makerOrderId := 2, takerOrderId := 3 }

/-- C8 witness: in `engTwo` a market buy for 2 fills maker 1
(better price) strictly before maker 2; the theorem instantiated at
the trade hitting maker 2 yields the earlier trade hitting maker 1. -/
theorem c8_price_time_priority_witness :
    ∃ (j : ℕ) (t1 : Trade), j < 1
      ∧ (okResult (submitOrder engTwo (mkOrder 3 .market .buy 2 none))).trades[j]?
          = some t1
      ∧ t1.makerOrderId = (mkOrder 1 .limit .sell 1 (some 50000)).orderId :=
  c8_price_time_priority engTwo (mkOrder 3 .market .buy 2 none)
    (submitOrder engTwo (mkOrder 3 .market .buy 2 none)).state
    (okResult (submitOrder engTwo (mkOrder 3 .market .buy 2 none)))
    (by decide) (by decide) (by decide) (by decide) (by decide)
    (mkOrder 1 .limit .sell 1 (some 50000)) (mkOrder 2 .limit .sell 1 (some 50100))
    50000 50100
    [mkOrder 1 .limit .sell 1 (some 50000)] [mkOrder 2 .limit .sell 1 (some 50100)]
    (by decide) (by decide) (by decide) (by decide)
    (Or.inl (by decide))
    1 c8hit (by decide) (by decide)

/-! ## C6 — book non-crossing

`BookWF` is the shape every book the engine builds satisfies: both
sides well-formed (`SideWF`), level keys sorted by priority with best
first, and every bid price strictly below every ask price.  Matching
only shrinks levels or rewrites orders in place, so `BookWF` survives
every `_execute_match`; the one delicate step is a limit remainder
resting via `add_order`, which cannot cross because the fill walk
consumed every opposite level inside its limit price. -/

def BookWF (bk : Book) : Prop :=
  SideWF Side.buy bk.bids ∧ SideWF Side.sell bk.asks
  ∧ (bk.bids.map Prod.fst).Pairwise (priceBefore Side.buy)
  ∧ (bk.asks.map Prod.fst).Pairwise (priceBefore Side.sell)
  ∧ ∀ p1 ∈ bk.bids.map Prod.fst, ∀ p2 ∈ bk.asks.map Prod.fst, p1 < p2

instance (bk : Book) : Decidable (BookWF bk) := by
  unfold BookWF
  exact inferInstance

theorem BookWF.sideWF {bk : Book} (h : BookWF bk) (sd : Side) :
    SideWF sd (bk.sideOf sd) := by
  cases sd
  · exact h.1
  · exact h.2.1

theorem BookWF.sorted {bk : Book} (h : BookWF bk) (sd : Side) :
    ((bk.sideOf sd).map Prod.fst).Pairwise (priceBefore sd) := by
  cases sd
  · exact h.2.2.1
  · exact h.2.2.2.1

theorem bookWF_empty (sym : String) : BookWF (Book.empty sym) := by
  refine ⟨⟨List.nodup_nil, ?_, ?_⟩, ⟨List.nodup_nil, ?_, ?_⟩, ?_, ?_, ?_⟩ <;>
    simp [Book.empty]

theorem keys_filter_subset (side : List Level) :
    ∀ pk ∈ ((side.filter (fun l => ¬ l.2.isEmpty)).map Prod.fst), pk ∈ side.map Prod.fst := by
  intro pk hpk
  rcases List.mem_map.mp hpk with ⟨l, hl, he⟩
  exact he ▸ List.mem_map_of_mem Prod.fst (List.mem_of_mem_filter hl)

theorem setSide_bookWF (bk : Book) (sd : Side) (side' : List Level)
    (hwf : BookWF bk)
    (hS : SideWF sd side')
    (hsort : (side'.map Prod.fst).Pairwise (priceBefore sd))
    (hkeys : ∀ pk ∈ side'.map Prod.fst, pk ∈ (bk.sideOf sd).map Prod.fst) :
    BookWF (bk.setSide sd side') := by
  cases sd
  · exact ⟨hS, hwf.2.1, hsort, hwf.2.2.2.1,
      fun p1 h1 p2 h2 => hwf.2.2.2.2 p1 (hkeys p1 h1) p2 h2⟩
  · exact ⟨hwf.1, hS, hwf.2.2.1, hsort,
      fun p1 h1 p2 h2 => hwf.2.2.2.2 p1 h1 p2 (hkeys p2 h2)⟩

theorem cleanup_bookWF {bk : Book} (h : BookWF bk) : BookWF bk.cleanupEmptyLevels := by
  refine ⟨sideWF_filter _ _ h.1, sideWF_filter _ _ h.2.1,
    h.2.2.1.sublist (List.Sublist.map Prod.fst (List.filter_sublist bk.bids)),
    h.2.2.2.1.sublist (List.Sublist.map Prod.fst (List.filter_sublist bk.asks)),
    ?_⟩
  intro p1 h1 p2 h2
  exact h.2.2.2.2 p1 (keys_filter_subset bk.bids p1 h1) p2 (keys_filter_subset bk.asks p2 h2)

theorem setSide_cleanup_bookWF (bk : Book) (sd : Side) (side' : List Level)
    (hwf : BookWF bk)
    (hkeysN : (side'.map Prod.fst).Nodup)
    (hord : ∀ l ∈ side', ∀ m ∈ l.2,
      m.price = some l.1 ∧ m.side = sd ∧ qadd m.filled m.remaining = m.quantity)
    (hsort : (side'.map Prod.fst).Pairwise (priceBefore sd))
    (hkeys : ∀ pk ∈ side'.map Prod.fst, pk ∈ (bk.sideOf sd).map Prod.fst) :
    BookWF (bk.setSide sd side').cleanupEmptyLevels := by
  have hS := sideWF_filter_weak sd side' hkeysN hord
  have hsub := List.Sublist.map Prod.fst
    (List.filter_sublist (p := fun l => ¬ l.2.isEmpty) side')
  cases sd
  · exact ⟨hS, sideWF_filter _ _ hwf.2.1,
      hsort.sublist hsub,
      hwf.2.2.2.1.sublist (List.Sublist.map Prod.fst (List.filter_sublist bk.asks)),
      fun p1 h1 p2 h2 => hwf.2.2.2.2 p1 (hkeys p1 (keys_filter_subset side' p1 h1)) p2
        (keys_filter_subset bk.asks p2 h2)⟩
  · exact ⟨sideWF_filter _ _ hwf.1, hS,
      hwf.2.2.1.sublist (List.Sublist.map Prod.fst (List.filter_sublist bk.bids)),
      hsort.sublist hsub,
      fun p1 h1 p2 h2 => hwf.2.2.2.2 p1 (keys_filter_subset bk.bids p1 h1) p2
        (hkeys p2 (keys_filter_subset side' p2 h2))⟩

/-- `_remove_from_price_level` keeps the book well-formed. -/
theorem removeFromPriceLevel_bookWF (bk : Book) (o : Order) (hwf : BookWF bk) :
    BookWF (bk.removeFromPriceLevel o) := by
  unfold Book.removeFromPriceLevel
  cases hp : o.price with
  | none => simpa using hwf
  | some p =>
    simp only []
    cases hs : sideLookup (bk.sideOf o.side) p with
    | none => simpa using hwf
    | some os =>
      simp only []
      have hsort2 : (((bk.sideOf o.side).map
          (fun l => if l.1 = p then (l.1, levelEraseId os o.orderId) else l)).map
            Prod.fst).Pairwise (priceBefore o.side) := by
        rw [keys_map_const]
        exact hwf.sorted o.side
      have hkeys2 : ∀ pk ∈ (((bk.sideOf o.side).map
          (fun l => if l.1 = p then (l.1, levelEraseId os o.orderId) else l)).map Prod.fst),
          pk ∈ (bk.sideOf o.side).map Prod.fst := by
        intro pk hpk
        rw [keys_map_const] at hpk
        exact hpk
      by_cases he : (levelEraseId os o.orderId).isEmpty = true
      · rw [if_pos he]
        refine setSide_cleanup_bookWF bk o.side _ hwf ?_ ?_ hsort2 hkeys2
        · rw [keys_map_const]
          exact (hwf.sideWF o.side).1
        · exact ord_update_const o.side _ p os _ (hwf.sideWF o.side) hs
            (levelEraseId_subset os o.orderId)
      · rw [if_neg he]
        refine setSide_bookWF bk o.side _ hwf ?_ hsort2 hkeys2
        refine sideWF_update_const o.side _ p os _ (hwf.sideWF o.side) hs ?_
          (levelEraseId_subset os o.orderId)
        intro hh
        rw [hh] at he
        exact he rfl

theorem removeFromBookOnly_bookWF (bk : Book) (oid : ℕ) (h : BookWF bk) :
    BookWF (bk.removeFromBookOnly oid) := by
  unfold Book.removeFromBookOnly
  cases hr : regLookup bk.registry oid with
  | none => simp only [hr]; exact h
  | some od => simp only [hr]; exact removeFromPriceLevel_bookWF bk od h

/-- `_execute_match` keeps the book well-formed: it only removes a
maker or rewrites it in place at its own price level. -/
theorem execMatch_bookWF (tk mk : Order) (q p : ℚ) (bk : Book) (ax : Aux)
    (h : BookWF bk) : BookWF (execMatch tk mk q p bk ax).2.1 := by
  rw [execMatch_book]
  have hreg : BookWF (bk.registerOrder (mk.updateFill q)) := h
  by_cases hmf : (mk.updateFill q).isFullyFilled = true
  · rw [if_pos hmf]
    exact removeFromBookOnly_bookWF _ _ hreg
  · rw [if_neg (by simp [hmf])]
    cases hp : mk.price with
    | none => simp only [hp]; exact hreg
    | some p0 =>
      simp only [hp]
      refine setSide_bookWF _ mk.side _ hreg ?_ ?_ ?_
      · exact sideWF_update_setId mk.side _ p0 (mk.updateFill q) (hreg.sideWF mk.side)
          (by rw [updateFill_price]; exact hp) (updateFill_side mk q)
          (by rw [qadd_eq]; exact updateFill_inv mk q)
      · rw [keys_map_setId]
        exact hreg.sorted mk.side
      · intro pk hpk
        rw [keys_map_setId] at hpk
        exact hpk

theorem fillLevelFuel_bookWF : ∀ (fuel : ℕ) (tk : Order) (p : ℚ) (bk : Book) (ax : Aux),
    BookWF bk → BookWF (fillLevelFuel fuel tk p bk ax).2.1 := by
  intro fuel
  induction fuel with
  | zero => intro tk p bk ax h; exact h
  | succ n ih =>
    intro tk p bk ax h
    cases hs : sideLookup (bk.sideOf (consumedSide tk.side)) p with
    | none => rw [fillLevelFuel_none n tk p bk ax hs]; exact h
    | some os =>
      by_cases hg : os.isEmpty = true ∨ tk.isFullyFilled = true
      · rw [fillLevelFuel_exit n tk p bk ax os hs hg]
        exact h
      · push_neg at hg
        cases hhd : os.head? with
        | none =>
          exact absurd (List.isEmpty_iff.mpr (List.head?_eq_none_iff.mp hhd))
            (by simpa using hg.1)
        | some mk =>
          rw [fillLevelFuel_step n tk p bk ax os mk hs
            (by simpa using hg.1) (by simpa using hg.2) hhd]
          exact ih _ _ _ _ (execMatch_bookWF _ _ _ _ _ _ h)

theorem fillPrices_bookWF : ∀ (ps : List ℚ) (tk : Order) (lp : Option ℚ)
    (bk : Book) (ax : Aux),
    BookWF bk → BookWF (fillPrices ps tk lp bk ax).2.1 := by
  intro ps
  induction ps with
  | nil => intro tk lp bk ax h; exact h
  | cons p rest ih =>
    intro tk lp bk ax h
    by_cases hf : tk.isFullyFilled = true
    · rw [fillPrices_filled p rest tk lp bk ax hf]
      exact h
    · replace hf : tk.isFullyFilled = false := by simpa using hf
      by_cases hstop : limitStop tk lp p = true
      · rw [fillPrices_stop p rest tk lp bk ax hf hstop]
        exact h
      · replace hstop : limitStop tk lp p = false := by simpa using hstop
        cases hs : sideLookup (bk.sideOf (consumedSide tk.side)) p with
        | none =>
          rw [fillPrices_skip p rest tk lp bk ax hf hstop hs]
          exact ih tk lp bk ax h
        | some os =>
          rw [fillPrices_step p rest tk lp bk ax os hf hstop hs]
          exact ih _ lp _ _ (fillLevelFuel_bookWF (os.length + 1) tk p bk ax h)

theorem fokExecPlan_bookWF : ∀ (plan : List (Order × ℚ)) (tk : Order)
    (bk : Book) (ax : Aux),
    BookWF bk → BookWF (fokExecPlan plan tk bk ax).2.1 := by
  intro plan
  induction plan with
  | nil => intro tk bk ax h; exact h
  | cons pe rest ih =>
    intro tk bk ax h
    obtain ⟨mk, fq⟩ := pe
    simp only [fokExecPlan]
    exact ih _ _ _ (execMatch_bookWF _ _ _ _ _ _ h)

theorem priceBefore_trans (sd : Side) (a b c : ℚ)
    (h1 : priceBefore sd a b) (h2 : priceBefore sd b c) : priceBefore sd a c := by
  cases sd
  · exact lt_trans h2 h1
  · exact lt_trans h1 h2

theorem priceBefore_total (sd : Side) (a b : ℚ) (h : a ≠ b) :
    priceBefore sd a b ∨ priceBefore sd b a := by
  cases sd
  · rcases lt_or_gt_of_ne h with h2 | h2
    · exact Or.inr h2
    · exact Or.inl h2
  · rcases lt_or_gt_of_ne h with h2 | h2
    · exact Or.inl h2
    · exact Or.inr h2

/-- The limit-price break is monotone along the consumed side's
priority order: once it fires, it fires for every worse price. -/
theorem limitStop_mono (tk : Order) (lp : Option ℚ) (p pk : ℚ)
    (h : limitStop tk lp p = true)
    (hpb : priceBefore (consumedSide tk.side) p pk) :
    limitStop tk lp pk = true := by
  cases lp with
  | none => simp [limitStop] at h
  | some L =>
    by_cases hb : tk.side = Side.buy
    · have hpb2 : p < pk := by
        rw [hb] at hpb
        simpa [consumedSide, priceBefore] using hpb
      have h2 : L < p := by
        simpa [limitStop, Order.isBuy, hb] using h
      simp [limitStop, Order.isBuy, hb]
      exact lt_trans h2 hpb2
    · have hsd : tk.side = Side.sell := by
        cases hq : tk.side with
        | buy => exact absurd hq hb
        | sell => rfl
      have hpb2 : pk < p := by
        rw [hsd] at hpb
        simpa [consumedSide, priceBefore] using hpb
      have h2 : p < L := by
        simpa [limitStop, Order.isBuy, hsd] using h
      simp [limitStop, Order.isBuy, hsd]
      exact lt_trans hpb2 h2

theorem sideLookup_of_key (side : List Level) (pk : ℚ)
    (h : pk ∈ side.map Prod.fst) : ∃ os, sideLookup side pk = some os := by
  induction side with
  | nil => simp at h
  | cons l ls ih =>
    rw [List.map_cons, List.mem_cons] at h
    by_cases hk : l.1 = pk
    · exact ⟨l.2, by rw [sideLookup_cons, if_pos hk]⟩
    · rcases h with h | h
      · exact absurd h.symm hk
      · obtain ⟨os, hos⟩ := ih h
        exact ⟨os, by rw [sideLookup_cons, if_neg hk]; exact hos⟩

theorem key_of_sideLookup (side : List Level) (pk : ℚ) (os : List Order)
    (h : sideLookup side pk = some os) : pk ∈ side.map Prod.fst := by
  have := sideLookup_mem h
  exact List.mem_map.mpr ⟨(pk, os), this, rfl⟩

/-- If the taker survives the whole price walk unfilled, every
surviving level of the consumed side is beyond the taker's limit (the
walk consumed every level it was allowed to take). -/
theorem fillPrices_c6 :
    ∀ (ps : List ℚ) (tk : Order) (lp : Option ℚ) (bk : Book) (ax : Aux),
    ps.Pairwise (priceBefore (consumedSide tk.side)) →
    tk.filled + tk.remaining = tk.quantity →
    SideWF (consumedSide tk.side) (bk.sideOf (consumedSide tk.side)) →
    (∀ pk ∈ (bk.sideOf (consumedSide tk.side)).map Prod.fst, pk ∈ ps) →
    (fillPrices ps tk lp bk ax).1.isFullyFilled = false →
    ∀ l ∈ (fillPrices ps tk lp bk ax).2.1.sideOf (consumedSide tk.side),
      limitStop tk lp l.1 = true := by
  intro ps
  induction ps with
  | nil =>
    intro tk lp bk ax hsort htk hwf hkeys hnf l hl
    exact absurd (hkeys l.1 (List.mem_map_of_mem Prod.fst hl)) (List.not_mem_nil l.1)
  | cons p rest ih =>
    intro tk lp bk ax hsort htk hwf hkeys hnf l hl
    by_cases hf : tk.isFullyFilled = true
    · rw [fillPrices_filled p rest tk lp bk ax hf] at hnf
      rw [hf] at hnf
      cases hnf
    · replace hf : tk.isFullyFilled = false := by simpa using hf
      by_cases hstop : limitStop tk lp p = true
      · rw [fillPrices_stop p rest tk lp bk ax hf hstop] at hl
        rcases List.mem_cons.mp (hkeys l.1 (List.mem_map_of_mem Prod.fst hl)) with hh | hh
        · rw [hh]
          exact hstop
        · refine limitStop_mono tk lp p l.1 hstop ?_
          exact (List.pairwise_cons.mp hsort).1 l.1 hh
      · replace hstop : limitStop tk lp p = false := by simpa using hstop
        cases hs : sideLookup (bk.sideOf (consumedSide tk.side)) p with
        | none =>
          rw [fillPrices_skip p rest tk lp bk ax hf hstop hs] at hnf hl
          refine ih tk lp bk ax (List.pairwise_cons.mp hsort).2 htk hwf ?_ hnf l hl
          intro pk hpk
          rcases List.mem_cons.mp (hkeys pk hpk) with hh | hh
          · obtain ⟨os2, hos2⟩ := sideLookup_of_key _ pk hpk
            rw [hh] at hos2
            rw [hos2] at hs
            cases hs
          · exact hh
        | some os =>
          rw [fillPrices_step p rest tk lp bk ax os hf hstop hs] at hnf hl
          obtain ⟨-, L1b, L1c, L1d⟩ := fillLevel_c8 (os.length + 1) os tk p bk ax
            (Nat.lt_succ_self _) htk hwf hs
          obtain ⟨hT1, -, -⟩ := fillLevelFuel_spec (os.length + 1) tk p bk ax
          set r := fillLevelFuel (os.length + 1) tk p bk ax with hr
          have hside : r.1.side = tk.side := by rw [hT1, applyFills_side]
          have hcs : consumedSide r.1.side = consumedSide tk.side := by rw [hside]
          have htk2 : r.1.filled + r.1.remaining = r.1.quantity := by
            rw [hT1]
            exact applyFills_inv tk _ htk
          by_cases hnf2 : r.1.isFullyFilled = true
          · have hrest : fillPrices rest r.1 lp r.2.1 r.2.2.1
                = (r.1, r.2.1, r.2.2.1, []) := by
              cases rest with
              | nil => rfl
              | cons p2 ps2 => exact fillPrices_filled p2 ps2 r.1 lp r.2.1 r.2.2.1 hnf2
            rw [hrest] at hnf
            rw [hnf2] at hnf
            cases hnf
          · replace hnf2 : r.1.isFullyFilled = false := by simpa using hnf2
            obtain ⟨-, hgone⟩ := L1b hnf2
            have hmain := ih r.1 lp r.2.1 r.2.2.1
              (by rw [hcs]; exact (List.pairwise_cons.mp hsort).2)
              htk2 (by rw [hcs]; exact L1d) ?_ hnf l (by rw [hcs]; exact hl)
            · rw [limitStop_congr tk r.1 lp l.1 hside] at hmain
              exact hmain
            · intro pk hpk
              rw [hcs] at hpk
              obtain ⟨os2, hos2⟩ := sideLookup_of_key _ pk hpk
              by_cases hpkp : pk = p
              · rw [hpkp] at hos2
                rw [hos2] at hgone
                cases hgone
              · have hold := L1c pk hpkp
                rw [hos2] at hold
                have hmem := key_of_sideLookup _ pk os2 hold.symm
                rcases List.mem_cons.mp (hkeys pk hmem) with hh | hh
                · exact absurd hh hpkp
                · exact hh

theorem insertLevel_mem (sd : Side) (p : ℚ) (os : List Order) :
    ∀ (side : List Level) (l : Level),
    l ∈ insertLevel sd p os side → l = (p, os) ∨ l ∈ side := by
  intro side
  induction side with
  | nil =>
    intro l hl
    simp [insertLevel] at hl
    exact Or.inl hl
  | cons l0 rest ih =>
    intro l hl
    unfold insertLevel at hl
    by_cases hc : priceBefore sd p l0.1
    · rw [if_pos hc] at hl
      rcases List.mem_cons.mp hl with h | h
      · exact Or.inl h
      · exact Or.inr h
    · rw [if_neg hc] at hl
      rcases List.mem_cons.mp hl with h | h
      · exact Or.inr (h ▸ List.mem_cons_self l0 rest)
      · rcases ih l h with h2 | h2
        · exact Or.inl h2
        · exact Or.inr (List.mem_cons_of_mem l0 h2)

theorem insertLevel_keys_mem (sd : Side) (p : ℚ) (os : List Order)
    (side : List Level) (pk : ℚ)
    (h : pk ∈ (insertLevel sd p os side).map Prod.fst) :
    pk = p ∨ pk ∈ side.map Prod.fst := by
  rcases List.mem_map.mp h with ⟨l, hl, he⟩
  rcases insertLevel_mem sd p os side l hl with h2 | h2
  · left
    rw [← he, h2]
  · right
    exact he ▸ List.mem_map_of_mem Prod.fst h2

theorem insertLevel_keys_sorted (sd : Side) (p : ℚ) (os : List Order) :
    ∀ (side : List Level),
    ((side.map Prod.fst).Pairwise (priceBefore sd)) →
    (∀ k ∈ side.map Prod.fst, k ≠ p) →
    (((insertLevel sd p os side).map Prod.fst).Pairwise (priceBefore sd)) := by
  intro side
  induction side with
  | nil =>
    intro _ _
    simp [insertLevel]
  | cons l0 rest ih =>
    intro hsort hne
    simp only [List.map_cons] at hsort hne
    unfold insertLevel
    by_cases hc : priceBefore sd p l0.1
    · rw [if_pos hc]
      simp only [List.map_cons]
      refine List.pairwise_cons.mpr ⟨?_, hsort⟩
      intro b hb
      rcases List.mem_cons.mp hb with h | h
      · rw [h]
        exact hc
      · exact priceBefore_trans sd p l0.1 b hc ((List.pairwise_cons.mp hsort).1 b h)
    · rw [if_neg hc]
      simp only [List.map_cons]
      refine List.pairwise_cons.mpr ⟨?_, ih (List.pairwise_cons.mp hsort).2
        (fun k hk => hne k (List.mem_cons_of_mem l0.1 hk))⟩
      intro b hb
      rcases insertLevel_keys_mem sd p os rest b hb with hbp | hbm
      · rw [hbp]
        rcases priceBefore_total sd l0.1 p (hne l0.1 (List.mem_cons_self _ _)) with h2 | h2
        · exact h2
        · exact absurd h2 hc
      · exact (List.pairwise_cons.mp hsort).1 b hbm

theorem insertLevel_keys_nodup (sd : Side) (p : ℚ) (os : List Order) :
    ∀ (side : List Level),
    ((side.map Prod.fst).Nodup) →
    (∀ k ∈ side.map Prod.fst, k ≠ p) →
    (((insertLevel sd p os side).map Prod.fst).Nodup) := by
  intro side
  induction side with
  | nil =>
    intro _ _
    simp [insertLevel]
  | cons l0 rest ih =>
    intro hnd hne
    simp only [List.map_cons] at hnd hne
    unfold insertLevel
    by_cases hc : priceBefore sd p l0.1
    · rw [if_pos hc]
      simp only [List.map_cons]
      refine List.nodup_cons.mpr ⟨?_, hnd⟩
      intro hmem
      rcases List.mem_cons.mp hmem with h | h
      · exact hne l0.1 (List.mem_cons_self _ _) h.symm
      · exact hne p (List.mem_cons_of_mem _ h) rfl
    · rw [if_neg hc]
      simp only [List.map_cons]
      refine List.nodup_cons.mpr ⟨?_,
        ih (List.nodup_cons.mp hnd).2 (fun k hk => hne k (List.mem_cons_of_mem l0.1 hk))⟩
      intro hmem
      rcases insertLevel_keys_mem sd p os rest l0.1 hmem with h | h
      · exact hne l0.1 (List.mem_cons_self _ _) h
      · exact (List.nodup_cons.mp hnd).1 h

theorem keys_map_append (side : List Level) (p : ℚ) (o : Order) :
    ((side.map (fun l => if l.1 = p then (l.1, l.2 ++ [o]) else l)).map Prod.fst)
      = side.map Prod.fst := by
  induction side with
  | nil => rfl
  | cons l ls ih =>
    simp only [List.map_cons]
    by_cases hk : l.1 = p
    · rw [if_pos hk, ih]
    · rw [if_neg hk, ih]

theorem sideWF_update_append (sd : Side) (side : List Level) (p : ℚ) (o : Order)
    (hwf : SideWF sd side) (hop : o.price = some p) (hos : o.side = sd)
    (hoi : qadd o.filled o.remaining = o.quantity) :
    SideWF sd (side.map (fun l => if l.1 = p then (l.1, l.2 ++ [o]) else l)) := by
  refine ⟨by rw [keys_map_append]; exact hwf.1, ?_, ?_⟩
  · intro l hl
    rcases List.mem_map.mp hl with ⟨l0, hl0, hleq⟩
    by_cases hk : l0.1 = p
    · rw [if_pos hk] at hleq
      rw [← hleq]
      simp
    · rw [if_neg hk] at hleq
      rw [← hleq]
      exact hwf.2.1 l0 hl0
  · intro l hl m hm
    rcases List.mem_map.mp hl with ⟨l0, hl0, hleq⟩
    by_cases hk : l0.1 = p
    · rw [if_pos hk] at hleq
      rw [← hleq] at hm ⊢
      rcases List.mem_append.mp hm with hmo | hmo
      · exact hwf.2.2 l0 hl0 m hmo
      · have hmm : m = o := List.mem_singleton.mp hmo
        rw [hmm]
        exact ⟨by rw [show ((l0.1, l0.2 ++ [o]) : Level).1 = p from hk]; exact hop, hos, hoi⟩
    · rw [if_neg hk] at hleq
      rw [← hleq] at hm ⊢
      exact hwf.2.2 l0 hl0 m hm

theorem limitStop_true_bound (o : Order) (L x : ℚ)
    (hs : limitStop o (some L) x = true) :
    (o.side = Side.buy → L < x) ∧ (o.side = Side.sell → x < L) := by
  by_cases hb : o.side = Side.buy
  · have h2 : L < x := by simpa [limitStop, Order.isBuy, hb] using hs
    refine ⟨fun _ => h2, fun h3 => ?_⟩
    rw [hb] at h3
    cases h3
  · have hsd : o.side = Side.sell := by
      cases hq : o.side with
      | buy => exact absurd hq hb
      | sell => rfl
    have h2 : x < L := by simpa [limitStop, Order.isBuy, hsd] using hs
    refine ⟨fun h3 => ?_, fun _ => h2⟩
    rw [hsd] at h3
    cases h3

/-- `add_order` keeps the book well-formed, provided the rested price
clears every level of the opposite side (the caller's marketability /
fill-walk guarantee). -/
theorem addOrder_bookWF (bk : Book) (o : Order) (bk2 : Book)
    (h : bk.addOrder o = .ok bk2) (hwf : BookWF bk)
    (hinv : qadd o.filled o.remaining = o.quantity)
    (hcross : ∀ pk ∈ (bk.sideOf (consumedSide o.side)).map Prod.fst,
        limitStop o o.price pk = true) :
    BookWF bk2 := by
  unfold Book.addOrder at h
  by_cases hd : (regLookup bk.registry o.orderId).isSome = true
  · rw [if_pos hd] at h
    cases h
  · rw [if_neg hd] at h
    by_cases hr : o.remaining ≤ 0
    · rw [if_pos hr] at h
      cases h
    · rw [if_neg hr] at h
      cases hp : o.price with
      | none =>
        simp only [hp] at h
        cases h
      | some p =>
        simp only [hp, Except.ok.injEq] at h
        have hb1 : BookWF (bk.setSide o.side (sideAddOrder o.side o p (bk.sideOf o.side))) := by
          unfold sideAddOrder
          by_cases hany : ((bk.sideOf o.side).any (fun l => l.1 = p)) = true
          · rw [if_pos hany]
            refine setSide_bookWF bk o.side _ hwf
              (sideWF_update_append o.side _ p o (hwf.sideWF o.side) hp rfl hinv)
              (by rw [keys_map_append]; exact hwf.sorted o.side) ?_
            intro pk hpk
            rw [keys_map_append] at hpk
            exact hpk
          · rw [if_neg hany]
            have hne : ∀ k ∈ (bk.sideOf o.side).map Prod.fst, k ≠ p := by
              intro k hk he
              refine hany (List.any_eq_true.mpr ?_)
              rcases List.mem_map.mp hk with ⟨l, hl, hfst⟩
              exact ⟨l, hl, decide_eq_true (by rw [hfst, he])⟩
            have hN := insertLevel_keys_nodup o.side p [o] _ (hwf.sideWF o.side).1 hne
            have hSO := insertLevel_keys_sorted o.side p [o] _ (hwf.sorted o.side) hne
            have hNE : ∀ l ∈ insertLevel o.side p [o] (bk.sideOf o.side), l.2 ≠ [] := by
              intro l hl
              rcases insertLevel_mem _ _ _ _ l hl with h2 | h2
              · rw [h2]
                simp
              · exact (hwf.sideWF o.side).2.1 l h2
            have hCO : ∀ l ∈ insertLevel o.side p [o] (bk.sideOf o.side), ∀ m ∈ l.2,
                m.price = some l.1 ∧ m.side = o.side
                ∧ qadd m.filled m.remaining = m.quantity := by
              intro l hl m hm
              rcases insertLevel_mem _ _ _ _ l hl with h2 | h2
              · rw [h2] at hm ⊢
                have hmo : m = o := List.mem_singleton.mp hm
                rw [hmo]
                exact ⟨hp, rfl, hinv⟩
              · exact (hwf.sideWF o.side).2.2 l h2 m hm
            have hKM : ∀ pk ∈ (insertLevel o.side p [o] (bk.sideOf o.side)).map Prod.fst,
                pk = p ∨ pk ∈ (bk.sideOf o.side).map Prod.fst :=
              fun pk hpk => insertLevel_keys_mem o.side p [o] _ pk hpk
            have hcross2 : ∀ pk ∈ (bk.sideOf (consumedSide o.side)).map Prod.fst,
                (o.side = Side.buy → p < pk) ∧ (o.side = Side.sell → pk < p) := by
              intro pk hpk
              have h3 := hcross pk hpk
              rw [hp] at h3
              exact limitStop_true_bound o p pk h3
            cases hside : o.side with
            | buy =>
              rw [hside] at hN hSO hNE hCO hKM hcross2
              simp only [consumedSide] at hcross2
              refine ⟨⟨hN, hNE, hCO⟩, hwf.2.1, hSO, hwf.2.2.2.1, ?_⟩
              intro p1 h1 p2 h2
              rcases hKM p1 h1 with hp1 | hp1
              · rw [hp1]
                exact (hcross2 p2 h2).1 trivial
              · exact hwf.2.2.2.2 p1 hp1 p2 h2
            | sell =>
              rw [hside] at hN hSO hNE hCO hKM hcross2
              simp only [consumedSide] at hcross2
              refine ⟨hwf.1, ⟨hN, hNE, hCO⟩, hwf.2.2.1, hSO, ?_⟩
              intro p1 h1 p2 h2
              rcases hKM p2 h2 with hp2 | hp2
              · rw [hp2]
                exact (hcross2 p1 h1).2 trivial
              · exact hwf.2.2.2.2 p1 h1 p2 hp2
        rw [← h]
        exact hb1

/-- A non-marketable priced order clears every level of the opposite
side of a sorted book. -/
theorem notMarketable_cross (o : Order) (bk : Book) (L : ℚ)
    (hp : o.price = some L)
    (hnm : isMarketable o bk = false)
    (hsorted : ((bk.sideOf (consumedSide o.side)).map Prod.fst).Pairwise
      (priceBefore (consumedSide o.side))) :
    ∀ pk ∈ (bk.sideOf (consumedSide o.side)).map Prod.fst,
      limitStop o o.price pk = true := by
  intro pk hpk
  unfold isMarketable at hnm
  simp only [hp] at hnm
  by_cases hb : o.side = Side.buy
  · have hbuy : o.isBuy = true := by simp [Order.isBuy, hb]
    rw [hb] at hpk hsorted
    simp only [consumedSide] at hpk hsorted
    rw [hbuy, if_pos rfl] at hnm
    cases ha : bk.asks with
    | nil =>
      rw [show bk.sideOf Side.sell = bk.asks from rfl, ha] at hpk
      simp at hpk
    | cons l0 rest =>
      have hba : bk.bestAsk = some l0.1 := by
        unfold Book.bestAsk
        rw [ha]
        rfl
      simp only [hba] at hnm
      have hL : L < l0.1 := lt_of_not_le (of_decide_eq_false hnm)
      have hLpk : L < pk := by
        rw [show bk.sideOf Side.sell = bk.asks from rfl, ha] at hpk hsorted
        simp only [List.map_cons] at hpk hsorted
        rcases List.mem_cons.mp hpk with hh | hh
        · rw [hh]
          exact hL
        · have h2 := (List.pairwise_cons.mp hsorted).1 pk hh
          simp only [priceBefore] at h2
          exact lt_trans hL h2
      rw [hp]
      simp [limitStop, Order.isBuy, hb]
      exact hLpk
  · have hsd : o.side = Side.sell := by
      cases hq : o.side with
      | buy => exact absurd hq hb
      | sell => rfl
    have hbuy : o.isBuy = false := by simp [Order.isBuy, hsd]
    rw [hsd] at hpk hsorted
    simp only [consumedSide] at hpk hsorted
    rw [hbuy, if_neg Bool.false_ne_true] at hnm
    cases hbd : bk.bids with
    | nil =>
      rw [show bk.sideOf Side.buy = bk.bids from rfl, hbd] at hpk
      simp at hpk
    | cons l0 rest =>
      have hbb : bk.bestBid = some l0.1 := by
        unfold Book.bestBid
        rw [hbd]
        rfl
      simp only [hbb] at hnm
      have hL : l0.1 < L := lt_of_not_le (of_decide_eq_false hnm)
      have hpkL : pk < L := by
        rw [show bk.sideOf Side.buy = bk.bids from rfl, hbd] at hpk hsorted
        simp only [List.map_cons] at hpk hsorted
        rcases List.mem_cons.mp hpk with hh | hh
        · rw [hh]
          exact hL
        · have h2 := (List.pairwise_cons.mp hsorted).1 pk hh
          simp only [priceBefore] at h2
          exact lt_trans h2 hL
      rw [hp]
      simp [limitStop, Order.isBuy, hsd]
      exact hpkL

/-- The book an order-type processor leaves behind, on success or on a
raise. -/
def procBook : ProcResult → Book
  | .error (_, b, _) => b
  | .ok (b, _, _, _) => b

theorem processMarketOrder_c6 (o : Order) (bk : Book) (ax : Aux) (hwf : BookWF bk) :
    BookWF (procBook (processMarketOrder o bk ax)) :=
  fillPrices_bookWF _ o none bk ax hwf

theorem processIocOrder_c6 (o : Order) (bk : Book) (ax : Aux) (hwf : BookWF bk) :
    BookWF (procBook (processIocOrder o bk ax)) :=
  fillPrices_bookWF _ o o.price bk ax hwf

theorem processFokOrder_c6 (o : Order) (bk : Book) (ax : Aux) (hwf : BookWF bk) :
    BookWF (procBook (processFokOrder o bk ax)) := by
  unfold processFokOrder
  by_cases hcan : (checkCanFillFok o (bk.registerOrder o)).1 = true
  · rw [if_neg (by simp [hcan])]
    exact fokExecPlan_bookWF _ o _ ax hwf
  · rw [if_pos (by simpa using hcan)]
    exact hwf

theorem processLimitOrder_c6 (o : Order) (bk : Book) (ax : Aux)
    (hwf : BookWF bk)
    (htk : o.filled + o.remaining = o.quantity) :
    BookWF (procBook (processLimitOrder o bk ax)) := by
  unfold processLimitOrder
  by_cases hpn : o.price = none
  · rw [if_pos hpn]
    exact hwf
  · rw [if_neg hpn]
    obtain ⟨L, hpL⟩ : ∃ L, o.price = some L := by
      cases hpp : o.price with
      | none => exact absurd hpp hpn
      | some L2 => exact ⟨L2, rfl⟩
    have hsorted0 := hwf.sorted (consumedSide o.side)
    set f := (if isMarketable o bk then fillAgainstBook o bk ax o.price
          else (o, bk, ax, ([] : List Trade))) with hf
    have hfacts : BookWF f.2.1
        ∧ (f.1.isFullyFilled = false →
            ∀ pk ∈ (f.2.1.sideOf (consumedSide o.side)).map Prod.fst,
              limitStop o o.price pk = true)
        ∧ f.1.side = o.side ∧ f.1.price = o.price
        ∧ f.1.filled + f.1.remaining = f.1.quantity := by
      by_cases hmk : isMarketable o bk = true
      · have hfeq : f = fillAgainstBook o bk ax o.price := by rw [hf, if_pos hmk]
        obtain ⟨h1, -, -⟩ := fillAgainstBook_spec o bk ax o.price
        refine ⟨?_, ?_, ?_, ?_, ?_⟩
        · rw [hfeq]
          exact fillPrices_bookWF _ o o.price bk ax hwf
        · intro hnf pk hpk
          rw [hfeq] at hnf hpk
          have hsv := fillPrices_c6 ((bk.sideOf (consumedSide o.side)).map Prod.fst)
            o o.price bk ax hsorted0 htk (hwf.sideWF _) (fun pk2 h2 => h2) hnf
          rcases List.mem_map.mp hpk with ⟨l, hl, he⟩
          rw [← he]
          exact hsv l hl
        · rw [hfeq, h1, applyFills_side]
        · rw [hfeq, h1, applyFills_price]
        · rw [hfeq, h1]
          exact applyFills_inv o _ htk
      · have hfeq : f = (o, bk, ax, ([] : List Trade)) := by rw [hf, if_neg hmk]
        refine ⟨?_, ?_, ?_, ?_, ?_⟩
        · rw [hfeq]
          exact hwf
        · intro hnf pk hpk
          rw [hfeq] at hpk
          exact notMarketable_cross o bk L hpL (by simpa using hmk) hsorted0 pk hpk
        · rw [hfeq]
        · rw [hfeq]
        · rw [hfeq]
          exact htk
    obtain ⟨hbf, hrest, hside1, hprice1, hinv1⟩ := hfacts
    by_cases hful : f.1.isFullyFilled = true
    · rw [if_neg (by simp [hful])]
      exact hbf
    · rw [if_pos (by simpa using hful)]
      replace hful : f.1.isFullyFilled = false := by simpa using hful
      cases ha : Book.addOrder f.2.1
          ({ f.1 with status := if f.2.2.2.isEmpty then OrderStatus.pending
                       else OrderStatus.partiallyFilled } : Order) with
      | error er =>
        simp only [ha]
        exact hbf
      | ok bk2 =>
        simp only [ha]
        refine addOrder_bookWF f.2.1 _ bk2 ha hbf ?_ ?_
        · rw [qadd_eq]
          exact hinv1
        · intro pk hpk
          rw [show ({ f.1 with status := if f.2.2.2.isEmpty then OrderStatus.pending
               else OrderStatus.partiallyFilled } : Order).price = o.price from hprice1]
          rw [limitStop_congr o _ o.price pk
            (show ({ f.1 with status := if f.2.2.2.isEmpty then OrderStatus.pending
               else OrderStatus.partiallyFilled } : Order).side = o.side from hside1)]
          rw [show ({ f.1 with status := if f.2.2.2.isEmpty then OrderStatus.pending
               else OrderStatus.partiallyFilled } : Order).side = o.side from hside1] at hpk
          exact hrest hful pk hpk

/-- All books an engine holds are well-formed. -/
def EngineWF (e : Engine) : Prop := ∀ kv ∈ e.books, BookWF kv.2

instance (e : Engine) : Decidable (EngineWF e) := by
  unfold EngineWF
  exact inferInstance

theorem engineWF_mk (books : List (String × Book)) (ax : Aux)
    (h : ∀ kv ∈ books, BookWF kv.2) : EngineWF { books := books, aux := ax } := h

theorem mem_setKey {α : Type} :
    ∀ (l : List (String × α)) (k : String) (v : α) (kv : String × α),
    kv ∈ setKey l k v → kv = (k, v) ∨ kv ∈ l := by
  intro l
  induction l with
  | nil =>
    intro k v kv hkv
    simp [setKey] at hkv
    exact Or.inl hkv
  | cons kv0 rest ih =>
    intro k v kv hkv
    unfold setKey at hkv
    by_cases hk : kv0.1 = k
    · rw [if_pos hk] at hkv
      rcases List.mem_cons.mp hkv with h | h
      · exact Or.inl h
      · exact Or.inr (List.mem_cons_of_mem kv0 h)
    · rw [if_neg hk] at hkv
      rcases List.mem_cons.mp hkv with h | h
      · exact Or.inr (h ▸ List.mem_cons_self kv0 rest)
      · rcases ih k v kv h with h2 | h2
        · exact Or.inl h2
        · exact Or.inr (List.mem_cons_of_mem kv0 h2)

theorem mem_booksWith (books : List (String × Book)) (sym : String)
    (kv : String × Book) (h : kv ∈ booksWith books sym) :
    kv ∈ books ∨ kv = (sym, Book.empty sym) := by
  unfold booksWith at h
  cases hl : lookupKey books sym with
  | some bk =>
    rw [hl] at h
    exact Or.inl h
  | none =>
    rw [hl] at h
    rcases List.mem_append.mp h with h2 | h2
    · exact Or.inl h2
    · exact Or.inr (List.mem_singleton.mp h2)

theorem lookupKey_mem {α : Type} (l : List (String × α)) (k : String) (v : α)
    (h : lookupKey l k = some v) : ∃ kv ∈ l, kv.2 = v := by
  unfold lookupKey at h
  cases hf : l.find? (fun kv => kv.1 = k) with
  | none =>
    rw [hf] at h
    cases h
  | some kv =>
    rw [hf] at h
    exact ⟨kv, List.mem_of_find?_eq_some hf, by simpa using h⟩

theorem bookAt_wf (e : Engine) (he : EngineWF e) (sym : String) :
    BookWF (bookAt e sym) := by
  unfold bookAt
  cases hl : lookupKey e.books sym with
  | none =>
    exact bookWF_empty sym
  | some bk =>
    obtain ⟨kv0, hkv0, hkv0e⟩ := lookupKey_mem e.books sym bk hl
    exact hkv0e ▸ he kv0 hkv0

/-- A submission — successful or raising — leaves every book
well-formed. -/
theorem submitOrder_engineWF (e : Engine) (o : Order)
    (he : EngineWF e) (hfresh : o.fresh) :
    EngineWF (submitOrder e o).state := by
  unfold submitOrder
  cases hv : validateOrder o with
  | error er => exact he
  | ok u =>
    cases u
    rw [getD_booksWith]
    have hbwf : BookWF (bookAt e o.symbol) := bookAt_wf e he o.symbol
    have htk : o.filled + o.remaining = o.quantity := by
      rw [hfresh.1, hfresh.2.1, zero_add]
    have hdisp : BookWF (procBook (submitDispatch o (bookAt e o.symbol) e.aux)) := by
      unfold submitDispatch
      cases hot : o.otype with
      | market => exact processMarketOrder_c6 o _ e.aux hbwf
      | limit => exact processLimitOrder_c6 o _ e.aux hbwf htk
      | ioc => exact processIocOrder_c6 o _ e.aux hbwf
      | fok => exact processFokOrder_c6 o _ e.aux hbwf
    cases hpr : submitDispatch o (bookAt e o.symbol) e.aux with
    | error t =>
      obtain ⟨er2, bk2, ax2⟩ := t
      rw [hpr] at hdisp
      simp only [procBook] at hdisp
      simp only [submitFinish, Outcome.state]
      intro kv hkv
      rcases mem_setKey _ o.symbol bk2 kv hkv with hkv2 | hkv2
      · rw [hkv2]
        exact hdisp
      · rcases mem_booksWith e.books o.symbol kv hkv2 with h3 | h3
        · exact he kv h3
        · rw [h3]
          exact bookWF_empty _
    | ok t =>
      obtain ⟨bk', ax', o2, trades⟩ := t
      rw [hpr] at hdisp
      simp only [procBook] at hdisp
      simp only [submitFinish, Outcome.state]
      intro kv hkv
      rcases mem_setKey _ o.symbol bk' kv hkv with hkv2 | hkv2
      · rw [hkv2]
        exact hdisp
      · rcases mem_booksWith e.books o.symbol kv hkv2 with h3 | h3
        · exact he kv h3
        · rw [h3]
          exact bookWF_empty _

/-- A cancel — successful or raising — leaves every book
well-formed. -/
theorem cancelOrder_engineWF (e : Engine) (oid : ℕ) (sym : String)
    (he : EngineWF e) : EngineWF (cancelOrder e oid sym).state := by
  unfold cancelOrder
  cases hl : lookupKey e.books sym with
  | none => exact he
  | some bk =>
    obtain ⟨kv0, hkv0, hkv0e⟩ := lookupKey_mem e.books sym bk hl
    have hbwf : BookWF bk := hkv0e ▸ he kv0 hkv0
    have hro : BookWF (bk.removeOrder oid).1 := by
      unfold Book.removeOrder
      cases hrg : regLookup bk.registry oid with
      | none => exact hbwf
      | some od => exact removeFromPriceLevel_bookWF bk od hbwf
    show EngineWF ((match bk.removeOrder oid with
      | (_, none) => Outcome.err EngErr.orderNotFound e
      | (bk', some _) =>
        Outcome.ok { books := setKey e.books sym bk'
                     aux := { e.aux with stats := { e.aux.stats with
                       ordersCancelled := e.aux.stats.ordersCancelled + 1 } } } true).state)
    cases hro2 : bk.removeOrder oid with
    | mk bk1 opt =>
      rw [hro2] at hro
      cases opt with
      | none => exact he
      | some od =>
        refine engineWF_mk _ _ ?_
        intro kv hkv
        rcases mem_setKey e.books sym bk1 kv hkv with hkv2 | hkv2
        · rw [hkv2]
          exact hro
        · exact he kv hkv2

/-- Submissions arriving through the API are freshly constructed
(`__post_init__` sets `remaining = quantity`, `filled` defaults to 0,
status to `PENDING`). -/
def opFresh : Op → Prop
  | .submit o => o.fresh
  | .cancel _ _ => True
  | .registerCb _ => True

instance (o : Order) : Decidable o.fresh := by
  unfold Order.fresh
  exact inferInstance

instance (op : Op) : Decidable (opFresh op) := by
  cases op with
  | submit o => exact (inferInstance : Decidable o.fresh)
  | cancel oid sym => exact (inferInstance : Decidable True)
  | registerCb cb => exact (inferInstance : Decidable True)

theorem foldl_engineWF :
    ∀ (ops : List Op) (e : Engine), EngineWF e → (∀ op ∈ ops, opFresh op) →
    EngineWF (ops.foldl applyOp e) := by
  intro ops
  induction ops with
  | nil => intro e he _; exact he
  | cons op rest ih =>
    intro e he hops
    simp only [List.foldl_cons]
    refine ih (applyOp e op) ?_ (fun op2 h2 => hops op2 (List.mem_cons_of_mem op h2))
    cases op with
    | submit o => exact submitOrder_engineWF e o he (hops _ (List.mem_cons_self _ _))
    | cancel oid sym => exact cancelOrder_engineWF e oid sym he
    | registerCb cb => exact he

/-- C6: after any sequence of external calls — submits of freshly
constructed orders (as the API builds them), cancels, callback
registrations — every symbol's book satisfies `best_bid < best_ask`
whenever both exist. -/
theorem c6_book_non_crossing (ops : List Op)
    (hops : ∀ op ∈ ops, opFresh op)
    (sym : String) (b a : ℚ)
    (hb : (bookAt (runOps ops) sym).bestBid = some b)
    (ha : (bookAt (runOps ops) sym).bestAsk = some a) :
    b < a := by
  have hinit : EngineWF Engine.init := fun kv hkv => absurd hkv (List.not_mem_nil kv)
  have hwf : BookWF (bookAt (runOps ops) sym) :=
    bookAt_wf _ (foldl_engineWF ops Engine.init hinit hops) sym
  cases hbd : (bookAt (runOps ops) sym).bids with
  | nil =>
    unfold Book.bestBid at hb
    rw [hbd] at hb
    cases hb
  | cons l1 r1 =>
    cases had : (bookAt (runOps ops) sym).asks with
    | nil =>
      unfold Book.bestAsk at ha
      rw [had] at ha
      cases ha
    | cons l2 r2 =>
      have hb2 : l1.1 = b := by
        unfold Book.bestBid at hb
        rw [hbd] at hb
        simpa using hb
      have ha2 : l2.1 = a := by
        unfold Book.bestAsk at ha
        rw [had] at ha
        simpa using ha
      have hcr := hwf.2.2.2.2 l1.1
        (by rw [hbd]; exact List.mem_map_of_mem Prod.fst (List.mem_cons_self _ _))
        l2.1
        (by rw [had]; exact List.mem_map_of_mem Prod.fst (List.mem_cons_self _ _))
      rw [hb2, ha2] at hcr
      exact hcr

/-- C6 witness: a resting sell `1 @ 50000` and a resting buy
`1 @ 49000` leave `best_bid = 49000 < 50000 = best_ask`. -/
theorem c6_book_non_crossing_witness :
    (49000 : ℚ) < 50000 :=
  c6_book_non_crossing
    [Op.submit (mkOrder 1 .limit .sell 1 (some 50000)),
     Op.submit (mkOrder 2 .limit .buy 1 (some 49000))]
    (by decide) "BTC-USDT" 49000 50000 (by decide) (by decide)

end TradeMgmt
